import Mathlib

/-!
# Verification of the MinMPHash core (scramble-based MPHF variant)

Shallow embedding of the minimal-perfect-hash library:
* the 32-bit hash kernel (`murmurHash3_32`, `scramble`),
* the MPHF builder `createMinMPHashDict` (scramble-based variant) and the
  evaluator `MinMPHash` (constructor + `hash`),
* the binary codec (`writeVarInt`/`readVarInt`, the CBOR subset,
  `dictToCBOR`/`dictFromCBOR`),
* the reverse-lookup layer (`createMinMPLookupDict`, `MinMPLookup.query`,
  `MinMPLookup.queryAll`).

JavaScript strings are modelled as lists of UTF-16 code units (`List Nat`);
all 32-bit arithmetic is carried out on `Nat` with explicit reduction
modulo `2^32`.  JS bitwise operators coerce to 32-bit integers whose bit
pattern equals the value modulo `2^32`, so `Nat`-mod-`2^32` arithmetic with
an explicit two's-complement reading (`toInt32`) where a signed result is
observed is an exact model.  `Math.random()` draws in the builder are
modelled by an explicit candidate stream `cs : Nat → Nat` (the builder uses
`Math.floor(Math.random() * 0xffffffff)`, i.e. a value in
`[0, 0xffffffff)`, modelled as `cs i % 0xffffffff`).  JS array lengths are
below `2^32`, so the `Uint32Array` offset table in the evaluator cannot
wrap; offsets are therefore modelled as plain naturals.
-/

namespace MMP

/-- `2^32`, the modulus of all JS 32-bit bitwise arithmetic. -/
def M32 : Nat := 4294967296

/-- Reduce a natural to its 32-bit bit pattern. -/
def mask32 (x : Nat) : Nat := x % M32

/-- JS `Math.imul`: 32-bit multiplication (as a bit pattern). -/
def imul32 (a b : Nat) : Nat := (a * b) % M32

/-- JS `~x` on a 32-bit value, as a bit pattern. -/
def not32 (x : Nat) : Nat := (M32 - 1) - (x % M32)

/-- JS `(x << r) | (x >>> (32 - r))` for `x` a 32-bit value, `0 < r < 32`:
32-bit rotate left. -/
def rotl32 (x r : Nat) : Nat := ((x <<< r) % M32) ||| (x >>> (32 - r))

/-- Two's-complement reading of a 32-bit bit pattern (the value a JS
program observes for an `Int32Array` element or a `|`-result). -/
def toInt32 (x : Nat) : Int :=
  if x % M32 < M32 / 2 then ((x % M32 : Nat) : Int) else ((x % M32 : Nat) : Int) - (M32 : Int)

/-- A JS string, as its sequence of UTF-16 code units (`charCodeAt`). -/
abbrev Str := List Nat

/-- One iteration of the `murmurHash3_32` loop body (source lines 631-639
of the scramble variant): mixes code unit `c` into state `h1`. -/
def mmh3Body (h1 c : Nat) : Nat :=
  let k1 := imul32 (mask32 c) 0xcc9e2d51
  let k1 := rotl32 k1 15
  let k1 := imul32 k1 0x1b873593
  let h := h1 ^^^ k1
  let h := rotl32 h 13
  (imul32 h 5 + 0xe6546b64) % M32

/-- The `murmurHash3_32` finalizer (lines 641-646). -/
def fmix32 (h : Nat) : Nat :=
  let h := h ^^^ (h >>> 16)
  let h := imul32 h 0x85ebca6b
  let h := h ^^^ (h >>> 13)
  let h := imul32 h 0xc2b2ae35
  h ^^^ (h >>> 16)

/-- `murmurHash3_32(key, seed)`: the 32-bit string hash used throughout,
consuming the string one 16-bit code unit at a time. -/
def murmurHash3_32 (key : Str) (seed : Nat) : Nat :=
  let h1 := key.foldl mmh3Body (mask32 seed)
  fmix32 (h1 ^^^ mask32 key.length)

/-- `scramble(k, seed)`: the integer mixer used to derive fresh values
from a precomputed hash (lines 618-625). -/
def scramble (k seed : Nat) : Nat :=
  let k := mask32 k ^^^ mask32 seed
  let k := imul32 k 0x85ebca6b
  let k := k ^^^ (k >>> 13)
  let k := imul32 k 0xc2b2ae35
  k ^^^ (k >>> 16)

/-- The fingerprint seed `FP_SEED = 0x1234abcd`. -/
def FP_SEED : Nat := 0x1234abcd

/-- The validation mode `IValidationMode`: `"none" | "2" | "4" | "8" | "16" | "32"`. -/
inductive VMode where
  | vnone
  | v2
  | v4
  | v8
  | v16
  | v32
deriving DecidableEq, Repr

/-- The raw dictionary `IMinMPHashDict`.  Byte arrays (`Uint8Array`) are
lists of naturals below 256; `fingerprints` holds the stored elements of
the mode-dependent typed array (bytes for modes none/2/4/8, 16-bit values
for mode 16, 32-bit values for mode 32); optional fields are `Option`. -/
structure Dict where
  n : Nat
  m : Nat
  seed0 : Nat
  hashSeed : Option Nat
  seedStream : List Nat
  bucketSizes : List Nat
  seedZeroBitmap : Option (List Nat)
  fingerprints : Option (List Nat)
  validationMode : VMode
deriving DecidableEq, Repr

/-- Build errors thrown by `createMinMPHashDict`. -/
inductive BuildError where
  | hashSeedExhausted
  | bucketOverflow (best : Nat)
  | displacementExhausted (bucket size : Nat)
deriving DecidableEq, Repr

/-- Phase 0 pre-hash pairs: `(H(k, hashSeed), H(k, ~hashSeed))` for each key. -/
def preHashes (keys : List Str) (s : Nat) : List (Nat × Nat) :=
  keys.map fun k => (murmurHash3_32 k s, murmurHash3_32 k (not32 s))

/-- The Phase 0 collision check (lines 170-207): the `seen`/`complexSeen`
maps detect exactly whether some 64-bit pair `(h1, h2)` occurs twice. -/
def pairsDistinct (keys : List Str) (s : Nat) : Bool :=
  decide (preHashes keys s).Nodup

/-- The Phase 0 retry loop (lines 166-218): try `hashSeed = 0, 1, …`;
after a collision at a seed `s` with `s + 1 > 100` the build throws.
`fuel` bounds the recursion; the loop visits at most seeds `0..100`. -/
def findHashSeedAux (keys : List Str) : Nat → Nat → Except BuildError Nat
  | 0, _ => .error .hashSeedExhausted
  | fuel + 1, s =>
    if pairsDistinct keys s then .ok s
    else if 100 < s + 1 then .error .hashSeedExhausted
    else findHashSeedAux keys fuel (s + 1)

/-- Phase 0: smallest collision-free `hashSeed` (or failure). -/
def findHashSeed (keys : List Str) : Except BuildError Nat :=
  findHashSeedAux keys 101 0

/-- Bucket placement (lines 246-249 and 562-563):
`⌊((scramble(h1, seed) ^ h2) · m) / 2³²⌋`. -/
def bucketIdx (h1 h2 seed m : Nat) : Nat :=
  ((scramble h1 seed) ^^^ h2) * m / M32

/-- The pre-hash pairs stored in bucket `b` (lines 251-253 build a
head/next linked list; traversing it yields the members of bucket `b`
in reverse insertion order, i.e. the reverse of the filtered list). -/
def bucketMembers (pairs : List (Nat × Nat)) (seed m b : Nat) : List (Nat × Nat) :=
  (pairs.filter fun p => bucketIdx p.1 p.2 seed m == b).reverse

/-- The per-bucket occupancy counts for a candidate seed. -/
def bucketLens (pairs : List (Nat × Nat)) (seed m : Nat) : List Nat :=
  (List.range m).map fun b => (bucketMembers pairs seed m b).length

/-- `currentMaxLen` of a candidate distribution (lines 254-255). -/
def maxBucketLen (pairs : List (Nat × Nat)) (seed m : Nat) : Nat :=
  (bucketLens pairs seed m).foldr max 0

/-- Phase 1 best-fit loop (lines 236-279).  `best` carries
`(bestSeed0, minMaxLen)` (`none` models `minMaxLen = Infinity`).
Candidate `attempt` draws `cs attempt % 0xffffffff`, modelling
`Math.floor(Math.random() * 0xffffffff)`.  Early exit when the current
candidate has max bucket `< 13`; after attempt 51 exit once a feasible
(`< 16`) distribution is on record. -/
def bestFitAux (pairs : List (Nat × Nat)) (m : Nat) (cs : Nat → Nat) :
    Nat → Nat → Option (Nat × Nat) → Option (Nat × Nat)
  | _, 0, best => best
  | attempt, fuel + 1, best =>
    let seed := cs attempt % 0xffffffff
    let len := maxBucketLen pairs seed m
    if len < 13 then some (seed, len)
    else
      let best2 := match best with
        | some (s0, bl) => if len < bl then (seed, len) else (s0, bl)
        | none => (seed, len)
      if best2.2 < 16 && 50 < attempt then some best2
      else bestFitAux pairs m cs (attempt + 1) fuel (some best2)

/-- Phase 1 with `maxAttempts = 2000`. -/
def bestFit (pairs : List (Nat × Nat)) (m : Nat) (cs : Nat → Nat) : Option (Nat × Nat) :=
  bestFitAux pairs m cs 0 2000 none

/-- Nibble packing of the bucket sizes (lines 288-299): bucket `2j` in the
low nibble of byte `j`, bucket `2j+1` in the high nibble; `Uint8Array`
stores modulo 256. -/
def packNibbles : List Nat → List Nat
  | [] => []
  | [a] => [a % 256]
  | a :: b :: rest => ((a ||| (b <<< 4)) % 256) :: packNibbles rest

/-- Nibble unpacking as done by the `MinMPHash` constructor
(lines 483-484): `byte = bucketSizes[i >>> 1]; i & 1 ? byte >>> 4 : byte & 0x0f`. -/
def nibbleAt (bytes : List Nat) (i : Nat) : Nat :=
  let byte := bytes.getD (i / 2) 0
  if i % 2 = 1 then byte >>> 4 else byte &&& 15

/-- In-bucket slot of a pre-hash pair under displacement seed `s`
(lines 332-333): `((scramble(h1, s) ^ h2) >>> 0) % k`. -/
def bucketPos (p : Nat × Nat) (k s : Nat) : Nat :=
  ((scramble p.1 s) ^^^ p.2) % k

/-- The Phase 3 trial success test (lines 324-341): the `k`-bit `visited`
bitmap detects exactly whether two members land on the same slot. -/
def posDistinct (mem : List (Nat × Nat)) (k s : Nat) : Bool :=
  decide (mem.map (bucketPos · k s)).Nodup

/-- The Phase 3 displacement search for one bucket (lines 320-352):
try `s = 0, 1, 2, …`; after a failure at `s` with `cap < s + 1` the build
throws naming the bucket index and size. -/
def findDispSeedAux (i : Nat) (mem : List (Nat × Nat)) (k cap : Nat) :
    Nat → Nat → Except BuildError Nat
  | 0, _ => .error (.displacementExhausted i k)
  | fuel + 1, s =>
    if posDistinct mem k s then .ok s
    else if cap < s + 1 then .error (.displacementExhausted i k)
    else findDispSeedAux i mem k cap fuel (s + 1)

/-- The per-bucket trial cap (line 322). -/
def dispCap (k : Nat) : Nat := if 14 < k then 50000000 else 5000000

/-- Phase 3 over all buckets, in index order: buckets of size `≤ 1` get
seed 0; larger buckets run the displacement search.  Returns the list of
`(size, seed)` decisions. -/
def buildSeeds (pairs : List (Nat × Nat)) (seed0 m : Nat) :
    Except BuildError (List (Nat × Nat)) :=
  (List.range m).mapM fun i =>
    let mem := bucketMembers pairs seed0 m i
    let k := mem.length
    if k ≤ 1 then .ok (k, 0)
    else (findDispSeedAux i mem k (dispCap k) (dispCap k + 2) 0).map fun s => (k, s)

/-- `VarIntBuffer.write` with structural recursion fuel (the loop halves
the value at least sevenfold each step, so `fuel = v` always suffices). -/
def varIntEncodeAux : Nat → Nat → List Nat
  | 0, v => [v]
  | fuel + 1, v =>
    if 128 ≤ v then (v % 128 + 128) :: varIntEncodeAux fuel (v / 128) else [v]

/-- `VarIntBuffer.write` (lines 652-661): unsigned LEB128. -/
def varIntEncode (v : Nat) : List Nat := varIntEncodeAux v v

/-- Bucket `i`'s seed is omitted from the stream iff its bitmap bit is set. -/
def seedOmitted (d : Nat × Nat) : Bool := d.1 ≤ 1 || d.2 == 0

/-- The seed stream written in Phase 3: the varint encodings of the
seeds of buckets with size `≥ 2` and seed `≠ 0`, in bucket order. -/
def mkSeedStream (decisions : List (Nat × Nat)) : List Nat :=
  (decisions.map fun d => if seedOmitted d then [] else varIntEncode d.2).flatten

/-- `seedZeroBitmap` assembled from per-bucket flags: bit `i` of the
bitmap (byte `i >>> 3`, bit `i & 7`) is `flags[i]`; `⌈m/8⌉` bytes. -/
def mkBitmap (flags : List Bool) : List Nat :=
  (List.range ((flags.length + 7) / 8)).map fun j =>
    ((List.range 8).map fun r => if flags.getD (8 * j + r) false then 1 <<< r else 0).sum

/-- Bitmap lookup as done by the constructor (lines 500):
`(bitmap[i >>> 3] & (1 << (i & 7))) !== 0`. -/
def bitmapTest (bytes : List Nat) (i : Nat) : Bool :=
  (bytes.getD (i / 8) 0) &&& (1 <<< (i % 8)) != 0

/-- The constructor's inline varint reader (lines 508-517).  JS reads
past the end of the stream as `undefined`, which behaves as byte 0
(`undefined & 0x7f → 0`, `undefined & 0x80 → 0`), modelled by `getD _ 0`;
the accumulator is a 32-bit pattern (`|=` coerces to int32) and the shift
count is taken mod 32 by `<<`.  Returns `(value-pattern, next ptr)`. -/
def seedVarIntAux (buf : List Nat) : Nat → Nat → Nat → Nat → (Nat × Nat)
  | 0, ptr, acc, _ => (acc, ptr)
  | fuel + 1, ptr, acc, shift =>
    let byte := buf.getD ptr 0
    let acc2 := acc ||| mask32 ((byte &&& 127) <<< (shift % 32))
    if byte &&& 128 == 0 then (acc2, ptr + 1)
    else seedVarIntAux buf fuel (ptr + 1) acc2 (shift + 7)

/-- Constructor seed decompression (lines 491-519): for each bucket,
seed 0 if its bitmap bit is set (when a bitmap is present), else the next
varint from the stream. -/
def decodeSeedsAux (bitmap : Option (List Nat)) (buf : List Nat) :
    Nat → Nat → Nat → List Nat
  | 0, _, _ => []
  | cnt + 1, i, ptr =>
    let isZero := match bitmap with
      | some bs => bitmapTest bs i
      | none => false
    if isZero then 0 :: decodeSeedsAux bitmap buf cnt (i + 1) ptr
    else
      let r := seedVarIntAux buf (buf.length + 1) ptr 0 0
      r.1 :: decodeSeedsAux bitmap buf cnt (i + 1) r.2

/-- All `m` decompressed per-bucket seeds. -/
def decodeSeeds (bitmap : Option (List Nat)) (buf : List Nat) (m : Nat) : List Nat :=
  decodeSeedsAux bitmap buf m 0 0

/-- `offsets[i]` as reconstructed by the constructor (lines 477-488):
the sum of the first `i` unpacked bucket sizes. -/
def offsetAt (bytes : List Nat) (i : Nat) : Nat :=
  ((List.range i).map (nibbleAt bytes)).sum

/-- The runtime evaluator state built by the `MinMPHash` constructor:
`offsets` has length `m + 1`, `seeds` length `m`. -/
structure MPH where
  n : Nat
  m : Nat
  seed0 : Nat
  hashSeed : Nat
  validationMode : VMode
  offsets : List Nat
  seeds : List Nat
  fingerprints : Option (List Nat)
deriving DecidableEq, Repr

/-- The `MinMPHash` constructor on an in-memory dictionary
(lines 459-540).  For `n = 0` the tables stay empty; otherwise offsets
and seeds are decompressed, and fingerprints are retained only when
`validationMode ≠ none` and present. -/
def MPH.ofDict (d : Dict) : MPH :=
  if d.n = 0 then
    { n := 0, m := d.m, seed0 := d.seed0, hashSeed := d.hashSeed.getD 0,
      validationMode := d.validationMode, offsets := [], seeds := [],
      fingerprints := none }
  else
    { n := d.n, m := d.m, seed0 := d.seed0, hashSeed := d.hashSeed.getD 0,
      validationMode := d.validationMode,
      offsets := (List.range (d.m + 1)).map (offsetAt d.bucketSizes),
      seeds := decodeSeeds d.seedZeroBitmap d.seedStream d.m,
      fingerprints :=
        if d.validationMode = .vnone then none else d.fingerprints }

/-- Stored fingerprint at slot `idx` as read by `hash` (lines 585-605).
Out-of-range reads give `undefined`, which the mode-2 shift turns into 0;
for the other modes a slot is always in range in every context we prove
about, so `getD _ 0` is a faithful default. -/
def fpRead (vm : VMode) (fps : List Nat) (idx : Nat) : Nat :=
  match vm with
  | .v2 => (fps.getD (idx / 4) 0 >>> ((idx % 4) * 2)) &&& 3
  | .v4 =>
    let b := fps.getD (idx / 2) 0
    if idx % 2 = 0 then b &&& 15 else (b >>> 4) &&& 15
  | _ => fps.getD idx 0

/-- The low bits of the fingerprint hash compared against the store. -/
def fpMask (vm : VMode) (h : Nat) : Nat :=
  match vm with
  | .v2 => h &&& 3
  | .v4 => h &&& 15
  | .v8 => h &&& 255
  | .v16 => h &&& 65535
  | _ => mask32 h

/-- `MinMPHash.hash` (lines 552-609). -/
def MPH.hash (e : MPH) (input : Str) : Int :=
  if e.n = 0 then -1 else
  let h1 := murmurHash3_32 input e.hashSeed
  let h2 := murmurHash3_32 input (not32 e.hashSeed)
  let h0 := (scramble h1 e.seed0) ^^^ h2
  let bIdx := h0 * e.m / M32
  let offset := e.offsets.getD bIdx 0
  let nextOffset := e.offsets.getD (bIdx + 1) 0
  let bucketSize := nextOffset - offset
  if bucketSize = 0 then -1
  else
    let resultIdx :=
      if bucketSize = 1 then offset
      else offset + bucketPos (h1, h2) bucketSize (e.seeds.getD bIdx 0)
    match e.validationMode, e.fingerprints with
    | .vnone, _ => (resultIdx : Int)
    | _, none => (resultIdx : Int)
    | vm, some fps =>
      if fpRead vm fps resultIdx = fpMask vm (murmurHash3_32 input FP_SEED)
      then (resultIdx : Int) else -1

/-- The fingerprint array length allocated in Phase 4 (lines 370-376). -/
def fpLen (vm : VMode) (n : Nat) : Nat :=
  match vm with
  | .v2 => (n + 3) / 4
  | .v4 => (n + 1) / 2
  | _ => n

/-- One Phase 4 fingerprint write (lines 386-402): modes 2 and 4 OR a
field into a shared byte; modes 8/16/32 store the masked hash directly. -/
def fpWrite (vm : VMode) (fps : List Nat) (idx fullHash : Nat) : List Nat :=
  match vm with
  | .v2 => fps.set (idx / 4) ((fps.getD (idx / 4) 0) ||| ((fullHash &&& 3) <<< ((idx % 4) * 2)))
  | .v4 =>
    let fp4 := fullHash &&& 15
    fps.set (idx / 2) ((fps.getD (idx / 2) 0) ||| (if idx % 2 = 0 then fp4 else fp4 <<< 4))
  | .v8 => fps.set idx (fullHash &&& 255)
  | .v16 => fps.set idx (fullHash &&& 65535)
  | _ => fps.set idx (mask32 fullHash)

/-- Phase 4 (lines 369-406): compute each key's slot with a temporary
validation-free hasher and store the key's fingerprint there. -/
def buildFingerprints (keys : List Str) (d : Dict) (vm : VMode) : List Nat :=
  let tmp := MPH.ofDict { d with validationMode := .vnone }
  keys.foldl
    (fun fps key =>
      let idx := tmp.hash key
      if 0 ≤ idx ∧ idx < (d.n : Int) then
        fpWrite vm fps idx.toNat (murmurHash3_32 key FP_SEED)
      else fps)
    (List.replicate (fpLen vm d.n) 0)

/-- The empty dictionary returned for an empty key set (lines 136-146). -/
def emptyDict : Dict :=
  { n := 0, m := 0, seed0 := 0, hashSeed := none, seedStream := [],
    bucketSizes := [], seedZeroBitmap := none, fingerprints := none,
    validationMode := .vnone }

/-- `Math.ceil` on an exact rational: `⌈q⌉ = -⌊-q⌋`, floor division by
the (positive) denominator.  Executable, unlike the `⌈·⌉` bundled with
`FloorRing`. -/
def ceilQ (q : ℚ) : Int := -((-q.num).fdiv (q.den : Int))

/-- The rate adjustment for very large inputs (line 155):
`n > 500000 ? Math.max(1, targetRate * 0.90) : targetRate`.  The product
`targetRate * 0.9` is written as `divInt (9 num) (10 den)` — equal to
`level * (9/10)` (proved in `adjustedRate_eq`) but reducible in the
kernel, which the field-structure multiplication on `ℚ` is not. -/
def adjustedRate (n : Nat) (level : ℚ) : ℚ :=
  if 500000 < n then max 1 (Rat.divInt (9 * level.num) (10 * (level.den : Int))) else level

/-- The bucket count (line 156): `m = Math.max(1, Math.ceil(n / adjustedRate))`,
the quotient again spelled with `divInt` (equal to `(n : ℚ) / rate`,
proved in `computeM_eq`). -/
def computeM (n : Nat) (level : ℚ) : Nat :=
  max 1 (ceilQ (Rat.divInt ((n : Int) * ((adjustedRate n level).den : Int))
    (adjustedRate n level).num)).toNat

/-- The dictionary assembled after Phase 3 (lines 355-364), before the
optional fingerprint phase. -/
def dict0Of (keys : List Str) (level : ℚ) (vm : VMode) (hashSeed seed0 : Nat)
    (decisions : List (Nat × Nat)) : Dict :=
  { n := keys.length, m := computeM keys.length level, seed0 := seed0,
    hashSeed := some hashSeed,
    seedStream := mkSeedStream decisions,
    bucketSizes :=
      packNibbles (bucketLens (preHashes keys hashSeed) seed0 (computeM keys.length level)),
    seedZeroBitmap := some (mkBitmap (decisions.map seedOmitted)),
    fingerprints := none, validationMode := vm }

/-- The final built dictionary: Phase 4 adds fingerprints when a
validation mode is enabled (lines 369-406). -/
def builtDictOf (keys : List Str) (level : ℚ) (vm : VMode) (hashSeed seed0 : Nat)
    (decisions : List (Nat × Nat)) : Dict :=
  let dict0 := dict0Of keys level vm hashSeed seed0 decisions
  if vm = .vnone then dict0
  else { dict0 with fingerprints := some (buildFingerprints keys dict0 vm) }

/-- `createMinMPHashDict` (scramble-based variant, lines 130-414), with
the resolved option values as parameters (`level` is `options.level ?? 5`;
`vm` is the resolved `onlySet`: `true ↦ "8"`, a string ↦ itself, else
`"none"`) and the `Math.random()` draws supplied by the stream `cs`. -/
def build (keys : List Str) (level : ℚ) (vm : VMode) (cs : Nat → Nat) :
    Except BuildError Dict :=
  let n := keys.length
  if n = 0 then .ok emptyDict
  else
    let m := computeM n level
    match findHashSeed keys with
    | .error e => .error e
    | .ok hashSeed =>
      let pairs := preHashes keys hashSeed
      match bestFit pairs m cs with
      | none => .error (.bucketOverflow 0)
      | some (seed0, minMaxLen) =>
        if 16 ≤ minMaxLen then .error (.bucketOverflow minMaxLen)
        else
          match buildSeeds pairs seed0 m with
          | .error e => .error e
          | .ok decisions => .ok (builtDictOf keys level vm hashSeed seed0 decisions)

/-! ## Binary codec (`util.ts`) -/

/-- `writeVarInt` (util.ts lines 3-21, array branch): pushes the same
bytes as `VarIntBuffer.write`. -/
def writeVarInt (v : Nat) : List Nat := varIntEncode v

/-- The loop body of `readVarInt` (util.ts lines 23-35).  As in the
constructor's inline reader: `val |= (b & 0x7f) << shift` coerces to a
32-bit pattern with `shift` taken mod 32; reading past the end behaves
as byte 0.  Returns `(value-pattern, bytes)`. -/
def readVarIntAux (buf : List Nat) (offset : Nat) : Nat → Nat → Nat → Nat → (Nat × Nat)
  | 0, _, acc, bytes => (acc, bytes)
  | fuel + 1, shift, acc, bytes =>
    let b := buf.getD (offset + bytes) 0
    let acc2 := acc ||| mask32 ((b &&& 127) <<< (shift % 32))
    if b &&& 128 == 0 then (acc2, bytes + 1)
    else readVarIntAux buf offset fuel (shift + 7) acc2 (bytes + 1)

/-- `readVarInt(buffer, offset)` returning `{value, bytes}`.  The value
is the signed 32-bit reading of the accumulated pattern (the JS `|=`
result is an int32). -/
def readVarInt (buf : List Nat) (offset : Nat) : Int × Nat :=
  let r := readVarIntAux buf offset (buf.length + 1) 0 0 0
  (toInt32 r.1, r.2)

/-- Unsigned LEB128 as the spec words it (§4.2 "Varint encoding.
Unsigned LEB128 (7-bit groups, MSB continuation)"): emit the
little-endian 7-bit groups of `v`, each group but the final one carrying
a set continuation bit (bit 7). -/
def specLEB128Aux : Nat → Nat → List Nat
  | 0, v => [v]
  | fuel + 1, v =>
    if v < 128 then [v] else (v % 128 ||| 128) :: specLEB128Aux fuel (v / 128)

/-- Unsigned LEB128 per the spec's words, with the same fuel device. -/
def specLEB128 (v : Nat) : List Nat := specLEB128Aux v v

/-- A decoded CBOR value of the minimal subset: unsigned int, byte
string, array, null. -/
inductive CVal where
  | cint (v : Nat)
  | cbytes (b : List Nat)
  | carr (l : List CVal)
  | cnull
deriving Repr

/-- `CBOR.encodeInt` (util.ts lines 39-51), major type 0. -/
def cborEncodeInt (v : Nat) : List Nat :=
  if v < 24 then [v]
  else if v ≤ 0xff then [24, v]
  else if v ≤ 0xffff then [25, v >>> 8, v &&& 255]
  else [26, (v >>> 24) &&& 255, (v >>> 16) &&& 255, (v >>> 8) &&& 255, v &&& 255]

/-- The length head written by `CBOR.encodeBytes` (lines 54-66),
major type 2 (`0x40`). -/
def cborBytesHead (len : Nat) : List Nat :=
  if len < 24 then [0x40 ||| len]
  else if len ≤ 0xff then [0x40 ||| 24, len]
  else if len ≤ 0xffff then [0x40 ||| 25, len >>> 8, len &&& 255]
  else [0x40 ||| 26, (len >>> 24) &&& 255, (len >>> 16) &&& 255, (len >>> 8) &&& 255, len &&& 255]

/-- `CBOR.encodeBytes`: head then the raw data. -/
def cborEncodeBytes (bytes : List Nat) : List Nat :=
  cborBytesHead bytes.length ++ bytes

/-- Decode errors: `DataView` out-of-range reads (`RangeError`),
the `Unsupported CBOR size` / `Unknown CBOR type` throws of
`CBOR.decode`, and the `Invalid CBOR format` throw of `dictFromCBOR`. -/
inductive DecodeError where
  | rangeError
  | unsupportedSize
  | unknownType
  | invalidFormat
deriving DecidableEq, Repr

/-- `view.getUint8(pos)`: strict bounds check. -/
def getU8 (buf : List Nat) (pos : Nat) : Except DecodeError Nat :=
  if pos < buf.length then .ok (buf.getD pos 0) else .error .rangeError

/-- `view.getUint16(pos, false)`: big-endian, strict bounds check. -/
def getU16 (buf : List Nat) (pos : Nat) : Except DecodeError Nat :=
  if pos + 2 ≤ buf.length then .ok (buf.getD pos 0 * 256 + buf.getD (pos + 1) 0)
  else .error .rangeError

/-- `view.getUint32(pos, false)`: big-endian, strict bounds check. -/
def getU32 (buf : List Nat) (pos : Nat) : Except DecodeError Nat :=
  if pos + 4 ≤ buf.length then
    .ok (buf.getD pos 0 * 16777216 + buf.getD (pos + 1) 0 * 65536 +
         buf.getD (pos + 2) 0 * 256 + buf.getD (pos + 3) 0)
  else .error .rangeError

/-- The length/value part of one `CBOR.decode` step (util.ts
lines 89-104): additional info below 24 is immediate; 24/25/26 read
1/2/4 further bytes; anything else throws. -/
def cborReadLen (buf : List Nat) (additional pos : Nat) :
    Except DecodeError (Nat × Nat) :=
  if additional < 24 then .ok (additional, pos)
  else if additional = 24 then (getU8 buf pos).map fun v => (v, pos + 1)
  else if additional = 25 then (getU16 buf pos).map fun v => (v, pos + 2)
  else if additional = 26 then (getU32 buf pos).map fun v => (v, pos + 4)
  else .error .unsupportedSize

/-- The element loop of the array case of `CBOR.decode` (lines 119-126),
parameterised by the decoder used for each element. -/
def cborItemsWith (dec : Nat → Except DecodeError (CVal × Nat)) :
    Nat → Nat → Except DecodeError (List CVal × Nat)
  | 0, pos => .ok ([], pos)
  | cnt + 1, pos => do
    let (v, pos2) ← dec pos
    let (vs, pos3) ← cborItemsWith dec cnt pos2
    .ok (v :: vs, pos3)

/-- `CBOR.decode` (util.ts lines 84-133), with recursion fuel counting
nesting depth only (one level per array; each level's head consumes a
byte, so `buf.length + 1` is always ample).  Byte-string data is read
with `buffer.slice`, which CLAMPS to the end of the buffer while the
cursor still advances by the full claimed length — modelled by
`take`/`drop` plus an unconditional `pos + val`. -/
def cborDecode (buf : List Nat) : Nat → Nat → Except DecodeError (CVal × Nat)
  | 0, _ => .error .rangeError
  | fuel + 1, pos => do
    let byte ← getU8 buf pos
    let pos1 := pos + 1
    let major := byte &&& 0xe0
    let additional := byte &&& 0x1f
    let (val, pos2) ← cborReadLen buf additional pos1
    if major = 0 then .ok (.cint val, pos2)
    else if major = 0x40 then .ok (.cbytes ((buf.drop pos2).take val), pos2 + val)
    else if major = 0x80 then
      (cborItemsWith (cborDecode buf fuel) val pos2).map fun r => (.carr r.1, r.2)
    else if byte = 0xf6 then .ok (.cnull, pos2)
    else .error .unknownType

/-- `MODE_TO_INT` (util.ts line 138). -/
def MODE_TO_INT (vm : VMode) : Nat :=
  match vm with
  | .vnone => 0
  | .v4 => 1
  | .v8 => 2
  | .v16 => 3
  | .v32 => 4
  | .v2 => 5

/-- `INT_TO_MODE[modeInt] || "none"` (util.ts lines 139 and 196): array
lookup with silent default to `"none"` for any unknown int. -/
def INT_TO_MODE (i : Nat) : VMode :=
  match i with
  | 0 => .vnone
  | 1 => .v4
  | 2 => .v8
  | 3 => .v16
  | 4 => .v32
  | 5 => .v2
  | _ => .vnone

/-- Little-endian bytes of 16-bit elements: the byte view a `Uint16Array`
exposes (util.ts line 159). -/
def toLE2 (xs : List Nat) : List Nat :=
  (xs.map fun x => [x % 256, x / 256 % 256]).flatten

/-- Little-endian bytes of 32-bit elements (`Uint32Array` view). -/
def toLE4 (xs : List Nat) : List Nat :=
  (xs.map fun x => [x % 256, x / 256 % 256, x / 65536 % 256, x / 16777216 % 256]).flatten

/-- Reinterpret bytes as 16-bit little-endian elements
(`new Uint16Array(buffer, …)`, util.ts line 203).  A trailing odd byte
cannot arise on the paths we prove about. -/
def fromLE2 : List Nat → List Nat
  | b0 :: b1 :: rest => (b0 + b1 * 256) :: fromLE2 rest
  | _ => []

/-- Reinterpret bytes as 32-bit little-endian elements (line 205). -/
def fromLE4 : List Nat → List Nat
  | b0 :: b1 :: b2 :: b3 :: rest =>
    (b0 + b1 * 256 + b2 * 65536 + b3 * 16777216) :: fromLE4 rest
  | _ => []

/-- The fingerprint payload bytes written by `dictToCBOR`
(lines 154-169): modes 2/4/8 store bytes already; 16/32 expose the
little-endian byte view of the typed array. -/
def fpToBytes (vm : VMode) (fps : List Nat) : List Nat :=
  match vm with
  | .v16 => toLE2 fps
  | .v32 => toLE4 fps
  | _ => fps

/-- `dictToCBOR` (util.ts lines 141-183): a 9-element CBOR array
`[n, m, seed0, bucketSizes, seedStream, modeInt, fingerprints|null,
seedZeroBitmap|null, hashSeed]`. -/
def dictToCBOR (d : Dict) : List Nat :=
  [0x80 ||| 9]
  ++ cborEncodeInt d.n
  ++ cborEncodeInt d.m
  ++ cborEncodeInt d.seed0
  ++ cborEncodeBytes d.bucketSizes
  ++ cborEncodeBytes d.seedStream
  ++ cborEncodeInt (MODE_TO_INT d.validationMode)
  ++ (match d.fingerprints with
      | some fps =>
        if d.validationMode = .vnone then [0xf6]
        else cborEncodeBytes (fpToBytes d.validationMode fps)
      | none => [0xf6])
  ++ (match d.seedZeroBitmap with
      | some b => cborEncodeBytes b
      | none => [0xf6])
  ++ cborEncodeInt (d.hashSeed.getD 0)

/-- JS destructuring performs no type checks; a mismatched element would
flow through as junk rather than raise.  Mismatches never arise on the
paths we prove about, so extraction uses plain defaults. -/
def asNat : CVal → Nat
  | .cint v => v
  | _ => 0

/-- Byte-string extraction with the same untyped-destructuring caveat. -/
def asBytes : CVal → List Nat
  | .cbytes b => b
  | _ => []

/-- `dictFromCBOR` (util.ts lines 185-220). -/
def dictFromCBOR (bin : List Nat) : Except DecodeError Dict := do
  let r ← cborDecode bin (bin.length + 1) 0
  match r.1 with
  | .carr arr =>
    if arr.length < 7 then .error .invalidFormat
    else
      let vmode := INT_TO_MODE (asNat (arr.getD 5 .cnull))
      let fingerprints : Option (List Nat) :=
        match arr.getD 6 .cnull, vmode with
        | .cbytes b, .v2 => some b
        | .cbytes b, .v4 => some b
        | .cbytes b, .v8 => some b
        | .cbytes b, .v16 => some (fromLE2 b)
        | .cbytes b, .v32 => some (fromLE4 b)
        | _, _ => none
      .ok { n := asNat (arr.getD 0 .cnull), m := asNat (arr.getD 1 .cnull),
            seed0 := asNat (arr.getD 2 .cnull),
            hashSeed := some (asNat (arr.getD 8 .cnull)),
            bucketSizes := asBytes (arr.getD 3 .cnull),
            seedStream := asBytes (arr.getD 4 .cnull),
            validationMode := vmode, fingerprints := fingerprints,
            seedZeroBitmap :=
              match arr.getD 7 .cnull with
              | .cbytes b => some b
              | _ => none }
  | _ => .error .invalidFormat

/-! ## Reverse lookup layer (`MinMPLookup.ts`) -/

/-- Bits of `value` written by `BitWriter.write(value, bits)`
(util.ts lines 237-248), least significant first. -/
def natBits (value bits : Nat) : List Bool :=
  (List.range bits).map fun i => (value >>> i) &&& 1 == 1

/-- A byte from up to 8 bits, least significant first. -/
def byteOfBits (bs : List Bool) : Nat :=
  bs.foldr (fun b acc => (if b then 1 else 0) + 2 * acc) 0

/-- `BitWriter.getData` on a bit sequence: completed bytes are pushed as
they fill; `flush` pads the final partial byte with zero bits
(util.ts lines 232-262). -/
def packBitsBytes : List Bool → List Nat
  | [] => []
  | b0 :: b1 :: b2 :: b3 :: b4 :: b5 :: b6 :: b7 :: rest =>
    byteOfBits [b0, b1, b2, b3, b4, b5, b6, b7] :: packBitsBytes rest
  | bits => [byteOfBits bits]

/-- `readBitsAt(buffer, bitOffset, bitLength)` (util.ts lines 292-308).
The loop ORs bits into disjoint positions (a sum of distinct powers of
two); if any visited byte index is out of bounds the function returns 0
outright, and the largest index belongs to the last bit. -/
def readBitsAt (buffer : List Nat) (bitOffset bitLen : Nat) : Nat :=
  if bitLen = 0 then 0
  else if (bitOffset + bitLen - 1) / 8 < buffer.length then
    ((List.range bitLen).map fun i =>
      (((buffer.getD ((bitOffset + i) / 8) 0) >>> ((bitOffset + i) % 8)) &&& 1) <<< i).sum
  else 0

/-- The raw lookup dictionary `IMinMPLookupDict`.  The embedded MPHF is
kept in its serialized CBOR form (`mmpHashDictBin`); `collisionMap` is
the insertion-ordered entry list of the JS `Map`. -/
structure LookupDict where
  mmpHashDictBin : List Nat
  keys : List Str
  keyToHashes : Option (List (List Nat))
  valueToKeyIndexes : Option (List Nat)
  bitsPerKey : Option Nat
  collisionMap : Option (List (Nat × List Nat))
deriving DecidableEq, Repr

/-- `new MinMPHash(dict.mmpHashDictBin)`: decode then construct.  The
bytes we prove about always decode; the default is never reached. -/
def mphOfBin (bin : List Nat) : MPH :=
  MPH.ofDict ((dictFromCBOR bin).toOption.getD emptyDict)

/-- First-occurrence deduplication: the iteration order of the JS `Set`
built on lines 109-116 of `MinMPLookup.ts`. -/
def dedupFirst (l : List Str) : List Str :=
  l.foldl (fun acc v => if v ∈ acc then acc else acc ++ [v]) []

/-- The distinct value universe `allValues` in insertion order. -/
def allValuesOf (M : List (Str × List Str)) : List Str :=
  dedupFirst (M.map Prod.snd).flatten

/-- Upsert into the insertion-ordered `valueToKeys` map: a fresh value is
appended, an existing one has the key index pushed to its list. -/
def vkUpsert (acc : List (Str × List Nat)) (v : Str) (i : Nat) : List (Str × List Nat) :=
  if acc.any (fun e => e.1 == v) then
    acc.map fun e => if e.1 == v then (e.1, e.2 ++ [i]) else e
  else acc ++ [(v, [i])]

/-- `valueToKeys` (MinMPLookup.ts lines 129-139): for each key index `i`
in order and each value occurrence `v` of `M[kᵢ]`, push `i` onto `v`'s
entry. -/
def valueToKeysOf (M : List (Str × List Str)) : List (Str × List Nat) :=
  M.enum.foldl (fun acc ik => ik.2.2.foldl (fun a v => vkUpsert a v ik.1) acc) []

/-- Mode 1: the `valueToKeyMap` `Int32Array` (lines 166-179), built by a
pass over `valueToKeys`; slot `h` gets the unique key index, or the
sentinel `keys.length` on a multi-owner value (JS typed arrays silently
ignore out-of-range writes, as does `List.set`). -/
def mode1Map (mph : MPH) (K : Nat) (vks : List (Str × List Nat)) : List Int :=
  vks.foldl
    (fun acc e =>
      let h := mph.hash e.1
      if 0 ≤ h then
        if e.2.length = 1 then acc.set h.toNat ((e.2.getD 0 0 : Nat) : Int)
        else acc.set h.toNat (K : Int)
      else acc)
    (List.replicate mph.n (-1))

/-- `Map.set` on the insertion-ordered collision map. -/
def cmSet (acc : List (Nat × List Nat)) (h : Nat) (ks : List Nat) : List (Nat × List Nat) :=
  if acc.any (fun e => e.1 == h) then
    acc.map fun e => if e.1 == h then (h, ks) else e
  else acc ++ [(h, ks)]

/-- Mode 1: the collision map collects the key-index lists of
multi-owner values (lines 168-179). -/
def mode1Collisions (mph : MPH) (vks : List (Str × List Nat)) : List (Nat × List Nat) :=
  vks.foldl
    (fun acc e =>
      let h := mph.hash e.1
      if 0 ≤ h ∧ e.2.length ≠ 1 then cmSet acc h.toNat e.2 else acc)
    []

/-- Mode 1: the bit-packed `valueToKeyIndexes` (lines 181-187): for each
slot in order, write the mapped key index (or 0 for an unused slot) in
`bitsPerKey` bits. -/
def mode1Packed (vmap : List Int) (bits : Nat) : List Nat :=
  packBitsBytes (vmap.map (fun kv => natBits (if 0 ≤ kv then kv.toNat else 0) bits)).flatten

/-- Ascending insertion of one element into a sorted list. -/
def insertAsc (x : Nat) : List Nat → List Nat
  | [] => [x]
  | y :: ys => if x ≤ y then x :: y :: ys else y :: insertAsc x ys

/-- `hashes.sort((a, b) => a - b)`: ascending numeric sort.  On a list of
naturals every comparison sort yields the same output, so insertion sort
is an exact model. -/
def sortAsc (l : List Nat) : List Nat := l.foldr insertAsc []

/-- Mode 0: `keyToHashes` (lines 200-215): per key, the MPHF indices of
its values (negatives dropped), sorted ascending. -/
def mode0KeyToHashes (mph : MPH) (M : List (Str × List Str)) : List (List Nat) :=
  M.map fun e =>
    sortAsc (((e.2.map mph.hash).filter (fun h => 0 ≤ h)).map Int.toNat)

/-- `createMinMPLookupDict` (MinMPLookup.ts lines 102-237), in-memory
path, with resolved options (`onlySet` defaults to `"8"`) and the
`Math.random()` draws of the embedded MPHF build supplied by `cs`.
The 10% threshold `collisionCount < allValues.length * 0.1` is taken in
exact rationals (the JS float product can differ by at most one ulp,
which the claims do not depend on). -/
def buildLookup (M : List (Str × List Str)) (level : ℚ) (vm : VMode) (cs : Nat → Nat) :
    Except BuildError LookupDict := do
  let keys := M.map Prod.fst
  let allValues := allValuesOf M
  let mphDict ← build allValues level vm cs
  let mphBin := dictToCBOR mphDict
  let mph := mphOfBin mphBin
  let vks := valueToKeysOf M
  let collisionCount := vks.countP fun e => 1 < e.2.length
  if (collisionCount : ℚ) < (allValues.length : ℚ) * (1 / 10) then
    let bits := Nat.clog 2 (keys.length + 1)
    let cm := mode1Collisions mph vks
    .ok { mmpHashDictBin := mphBin, keys := keys, keyToHashes := none,
          valueToKeyIndexes := some (mode1Packed (mode1Map mph keys.length vks) bits),
          bitsPerKey := some bits,
          collisionMap := if 0 < cm.length then some cm else none }
  else
    .ok { mmpHashDictBin := mphBin, keys := keys,
          keyToHashes := some (mode0KeyToHashes mph M),
          valueToKeyIndexes := none, bitsPerKey := none, collisionMap := none }

/-- `buildInvertedIndex` (lines 532-548): for key index `i` in order and
each hash `h` of `keyToHashes[i]` with `h < n`, push `i` onto slot `h`. -/
def invertedIndexOf (n : Nat) (keyToHashes : List (List Nat)) : List (List Nat) :=
  keyToHashes.enum.foldl
    (fun acc ih =>
      ih.2.foldl (fun a h => if h < n then a.set h (a.getD h [] ++ [ih.1]) else a) acc)
    (List.replicate n [])

/-- The JS guard `this.dict.valueToKeyIndexes && this.dict.bitsPerKey`:
both present and `bitsPerKey` nonzero (0 is falsy). -/
def mode1Active (d : LookupDict) : Bool :=
  d.valueToKeyIndexes.isSome && d.bitsPerKey.getD 0 != 0

/-- `collisionMap.has(h)` / `collisionMap.get(h)`. -/
def cmGet (cm : List (Nat × List Nat)) (h : Nat) : Option (List Nat) :=
  (cm.find? fun e => e.1 == h).map Prod.snd

/-- `MinMPLookup.queryAll` (lines 588-630). -/
def queryAll (d : LookupDict) (value : Str) : Option (List Str) :=
  let mph := mphOfBin d.mmpHashDictBin
  if mode1Active d then
    let h := mph.hash value
    if h < 0 ∨ (mph.n : Int) ≤ h then none
    else
      let bits := d.bitsPerKey.getD 0
      let keyIdx := readBitsAt (d.valueToKeyIndexes.getD []) (h.toNat * bits) bits
      if keyIdx = d.keys.length then
        match d.collisionMap with
        | some cm =>
          match cmGet cm h.toNat with
          | some indices => some (indices.map fun i => d.keys.getD i [])
          | none => none
        | none => none
      else if d.keys.length ≤ keyIdx then none
      else some [d.keys.getD keyIdx []]
  else
    let idx := mph.hash value
    match d.keyToHashes with
    | none => none
    | some kth =>
      if idx < 0 then none
      else
        let inv := invertedIndexOf mph.n kth
        if inv.length ≤ idx.toNat then none
        else
          let keyIndices := inv.getD idx.toNat []
          if keyIndices.length = 0 then none
          else some (keyIndices.map fun i => d.keys.getD i [])

/-- `MinMPLookup.query` (lines 553-583): the Mode 1 path mirrors
`queryAll` but returns the first owner; the Mode 0 path delegates to
`queryAll` and takes the head. -/
def query (d : LookupDict) (value : Str) : Option Str :=
  let mph := mphOfBin d.mmpHashDictBin
  if mode1Active d then
    let h := mph.hash value
    if h < 0 ∨ (mph.n : Int) ≤ h then none
    else
      let bits := d.bitsPerKey.getD 0
      let keyIdx := readBitsAt (d.valueToKeyIndexes.getD []) (h.toNat * bits) bits
      if keyIdx = d.keys.length then
        match d.collisionMap with
        | some cm =>
          match cmGet cm h.toNat with
          | some indices =>
            if 0 < indices.length then some (d.keys.getD (indices.getD 0 0) [])
            else none
          | none => none
        | none => none
      else if d.keys.length ≤ keyIdx then none
      else some (d.keys.getD keyIdx [])
  else
    match queryAll d value with
    | some l => if 0 < l.length then some (l.getD 0 []) else none
    | none => none

/-- The slot the evaluator assigns to a pre-hash pair `p`, written out
over the builder-side quantities: offset of `p`'s bucket plus the
in-bucket position (0 for singleton buckets).  `seeds` is the evaluator's
decompressed per-bucket seed table. -/
def slotOf (pairs : List (Nat × Nat)) (seed0 m : Nat) (seeds : List Nat)
    (p : Nat × Nat) : Nat :=
  let lens := bucketLens pairs seed0 m
  let b := bucketIdx p.1 p.2 seed0 m
  let k := lens.getD b 0
  (lens.take b).sum + (if k = 1 then 0 else bucketPos p k (seeds.getD b 0))

/-! ## Basic bounds -/

theorem M32_eq : M32 = 2 ^ 32 := by decide

theorem M32_pos : 0 < M32 := by decide

theorem mask32_lt (x : Nat) : mask32 x < M32 :=
  Nat.mod_lt _ M32_pos

theorem imul32_lt (a b : Nat) : imul32 a b < M32 :=
  Nat.mod_lt _ M32_pos

theorem shiftRight_le_self (x k : Nat) : x >>> k ≤ x := by
  simp only [Nat.shiftRight_eq_div_pow]
  exact Nat.div_le_self _ _

theorem xor_lt_M32 {a b : Nat} (ha : a < M32) (hb : b < M32) : a ^^^ b < M32 := by
  rw [M32_eq] at *
  exact Nat.xor_lt_two_pow ha hb

theorem mmh3Body_lt (h1 c : Nat) : mmh3Body h1 c < M32 :=
  Nat.mod_lt _ M32_pos

theorem murmurHash3_32_lt (key : Str) (seed : Nat) : murmurHash3_32 key seed < M32 := by
  unfold murmurHash3_32 fmix32
  have h1 : ∀ (l : List Nat) (a : Nat), a < M32 → l.foldl mmh3Body a < M32 := by
    intro l
    induction l with
    | nil => intro a ha; exact ha
    | cons x xs ih =>
      intro a _
      rw [List.foldl_cons]
      exact ih _ (mmh3Body_lt a x)
  have h2 : key.foldl mmh3Body (mask32 seed) < M32 := h1 key _ (mask32_lt seed)
  have h3 : key.foldl mmh3Body (mask32 seed) ^^^ mask32 key.length < M32 :=
    xor_lt_M32 h2 (mask32_lt _)
  set u := key.foldl mmh3Body (mask32 seed) ^^^ mask32 key.length with hu
  have h4 : u ^^^ u >>> 16 < M32 :=
    xor_lt_M32 h3 (Nat.lt_of_le_of_lt (shiftRight_le_self _ _) h3)
  have h5 := imul32_lt (u ^^^ u >>> 16) 0x85ebca6b
  set w := imul32 (u ^^^ u >>> 16) 0x85ebca6b with hw
  have h6 : w ^^^ w >>> 13 < M32 :=
    xor_lt_M32 h5 (Nat.lt_of_le_of_lt (shiftRight_le_self _ _) h5)
  have h7 := imul32_lt (w ^^^ w >>> 13) 0xc2b2ae35
  set z := imul32 (w ^^^ w >>> 13) 0xc2b2ae35 with hz
  exact xor_lt_M32 h7 (Nat.lt_of_le_of_lt (shiftRight_le_self _ _) h7)

theorem scramble_lt (k seed : Nat) : scramble k seed < M32 := by
  unfold scramble
  have h1 : mask32 k ^^^ mask32 seed < M32 := xor_lt_M32 (mask32_lt _) (mask32_lt _)
  have h2 := imul32_lt (mask32 k ^^^ mask32 seed) 0x85ebca6b
  set w := imul32 (mask32 k ^^^ mask32 seed) 0x85ebca6b with hw
  have h3 : w ^^^ w >>> 13 < M32 :=
    xor_lt_M32 h2 (Nat.lt_of_le_of_lt (shiftRight_le_self _ _) h2)
  have h4 := imul32_lt (w ^^^ w >>> 13) 0xc2b2ae35
  set z := imul32 (w ^^^ w >>> 13) 0xc2b2ae35 with hz
  exact xor_lt_M32 h4 (Nat.lt_of_le_of_lt (shiftRight_le_self _ _) h4)

theorem bucketIdx_lt {h1 h2 : Nat} (seed : Nat) {m : Nat} (hh2 : h2 < M32) (hm : 0 < m) :
    bucketIdx h1 h2 seed m < m := by
  unfold bucketIdx
  have hx : (scramble h1 seed) ^^^ h2 < M32 := xor_lt_M32 (scramble_lt h1 seed) hh2
  rw [Nat.div_lt_iff_lt_mul M32_pos]
  calc ((scramble h1 seed) ^^^ h2) * m < M32 * m :=
        (Nat.mul_lt_mul_right hm).mpr hx
    _ = m * M32 := Nat.mul_comm _ _

/-! ## Bit-arithmetic helpers -/

theorem lor_eq_add_of_land : ∀ a b : Nat, a &&& b = 0 → a ||| b = a + b := by
  intro a
  induction a using Nat.binaryRec with
  | z => intro b _; simp
  | f c a ih =>
    intro b hb
    rw [← b.bit_decomp] at hb ⊢
    rw [Nat.land_bit] at hb
    rw [Nat.lor_bit]
    rw [Nat.bit_eq_zero_iff] at hb
    have h1 := ih _ hb.1
    have h2 : (c && b.bodd) = false := hb.2
    rw [Nat.bit_val, Nat.bit_val, Nat.bit_val, h1]
    cases c <;> cases hb2 : b.bodd <;> simp_all <;> omega

theorem land_shiftLeft_eq_zero {a : Nat} (b k : Nat) (h : a < 2 ^ k) : a &&& (b <<< k) = 0 := by
  apply Nat.zero_of_testBit_eq_false
  intro i
  simp only [Nat.testBit_and, Nat.testBit_shiftLeft]
  by_cases hik : k ≤ i
  · have hf : a.testBit i = false :=
      Nat.testBit_eq_false_of_lt (Nat.lt_of_lt_of_le h (Nat.pow_le_pow_right (by norm_num) hik))
    simp [hf]
  · simp [hik]

theorem lor_shiftLeft_eq_add {a : Nat} (b k : Nat) (h : a < 2 ^ k) :
    a ||| b <<< k = a + b * 2 ^ k := by
  rw [lor_eq_add_of_land _ _ (land_shiftLeft_eq_zero b k h), Nat.shiftLeft_eq]

theorem land_127 (x : Nat) : x &&& 127 = x % 128 := by
  have h : (127 : Nat) = 2 ^ 7 - 1 := by norm_num
  have h2 := Nat.and_pow_two_sub_one_eq_mod x 7
  rw [h]
  simpa using h2

theorem land_128_eq_zero {x : Nat} (h : x < 128) : x &&& 128 = 0 := by
  have he : (128 : Nat) = 2 ^ 7 := by norm_num
  rw [he, Nat.and_two_pow]
  have hf : x.testBit 7 = false := Nat.testBit_eq_false_of_lt (by omega)
  simp [hf]

theorem land_128_ne_zero {x : Nat} (h1 : 128 ≤ x) (h2 : x < 256) : x &&& 128 ≠ 0 := by
  have he : (128 : Nat) = 2 ^ 7 := by norm_num
  rw [he, Nat.and_two_pow]
  have hx : x.testBit 7 = true := by
    rw [Nat.testBit_to_div_mod]
    simp only [decide_eq_true_eq]
    have h7 : (2 : Nat) ^ 7 = 128 := by norm_num
    rw [h7]
    omega
  simp [hx]

theorem drop_eq_cons_getD {buf : List Nat} {ptr x : Nat} {l : List Nat}
    (h : buf.drop ptr = x :: l) : buf.getD ptr 0 = x ∧ buf.drop (ptr + 1) = l := by
  constructor
  · have h0 : (buf.drop ptr).getD 0 0 = x := by rw [h]; rfl
    rw [List.getD_eq_getElem?_getD] at h0 ⊢
    rw [List.getElem?_drop] at h0
    simpa using h0
  · have h2 : buf.drop (ptr + 1) = (buf.drop ptr).drop 1 := by
      rw [List.drop_drop, Nat.add_comm]
    rw [h2, h, List.drop_one, List.tail_cons]

/-! ## Varint codec lemmas -/

theorem varIntEncodeAux_irrel : ∀ f1 f2 v : Nat, v ≤ f1 → v ≤ f2 →
    varIntEncodeAux f1 v = varIntEncodeAux f2 v := by
  intro f1
  induction f1 with
  | zero =>
    intro f2 v h1 h2
    have hv : v = 0 := by omega
    subst hv
    cases f2 with
    | zero => rfl
    | succ g => simp [varIntEncodeAux]
  | succ f ih =>
    intro f2 v h1 h2
    cases f2 with
    | zero =>
      have hv : v = 0 := by omega
      subst hv
      simp [varIntEncodeAux]
    | succ g =>
      rw [varIntEncodeAux, varIntEncodeAux]
      by_cases hv : 128 ≤ v
      · rw [if_pos hv, if_pos hv]
        have hd : v / 128 < v := Nat.div_lt_self (by omega) (by omega)
        rw [ih g (v / 128) (by omega) (by omega)]
      · rw [if_neg hv, if_neg hv]

theorem varIntEncode_eq (v : Nat) :
    varIntEncode v = if 128 ≤ v then (v % 128 + 128) :: varIntEncode (v / 128) else [v] := by
  show varIntEncodeAux v v = _
  by_cases hv : 128 ≤ v
  · obtain ⟨u, rfl⟩ : ∃ u, v = u + 1 := ⟨v - 1, by omega⟩
    rw [varIntEncodeAux, if_pos hv, if_pos hv]
    have hd : (u + 1) / 128 < u + 1 := Nat.div_lt_self (by omega) (by omega)
    congr 1
    exact varIntEncodeAux_irrel u ((u + 1) / 128) ((u + 1) / 128) (by omega) (by omega)
  · cases v with
    | zero => rw [varIntEncodeAux, if_neg hv]
    | succ u => rw [varIntEncodeAux, if_neg hv, if_neg hv]

theorem specLEB128Aux_irrel : ∀ f1 f2 v : Nat, v ≤ f1 → v ≤ f2 →
    specLEB128Aux f1 v = specLEB128Aux f2 v := by
  intro f1
  induction f1 with
  | zero =>
    intro f2 v h1 h2
    have hv : v = 0 := by omega
    subst hv
    cases f2 with
    | zero => rfl
    | succ g => simp [specLEB128Aux]
  | succ f ih =>
    intro f2 v h1 h2
    cases f2 with
    | zero =>
      have hv : v = 0 := by omega
      subst hv
      simp [specLEB128Aux]
    | succ g =>
      rw [specLEB128Aux, specLEB128Aux]
      by_cases hv : v < 128
      · rw [if_pos hv, if_pos hv]
      · rw [if_neg hv, if_neg hv]
        have hd : v / 128 < v := Nat.div_lt_self (by omega) (by omega)
        rw [ih g (v / 128) (by omega) (by omega)]

theorem specLEB128_eq (v : Nat) :
    specLEB128 v = if v < 128 then [v] else (v % 128 ||| 128) :: specLEB128 (v / 128) := by
  show specLEB128Aux v v = _
  by_cases hv : v < 128
  · cases v with
    | zero => rw [specLEB128Aux, if_pos hv]
    | succ u => rw [specLEB128Aux, if_pos hv, if_pos hv]
  · obtain ⟨u, rfl⟩ : ∃ u, v = u + 1 := ⟨v - 1, by omega⟩
    rw [specLEB128Aux, if_neg hv, if_neg hv]
    have hd : (u + 1) / 128 < u + 1 := Nat.div_lt_self (by omega) (by omega)
    congr 1
    exact specLEB128Aux_irrel u ((u + 1) / 128) ((u + 1) / 128) (by omega) (by omega)

theorem seedVarIntAux_spec :
    ∀ (v fuel shift acc : Nat) (buf rest : List Nat) (ptr : Nat),
      buf.drop ptr = varIntEncode v ++ rest →
      (varIntEncode v).length ≤ fuel →
      shift ≤ 31 → v < 2 ^ (32 - shift) → acc < 2 ^ shift →
      seedVarIntAux buf fuel ptr acc shift =
        (acc + v * 2 ^ shift, ptr + (varIntEncode v).length) := by
  intro v
  induction v using Nat.strong_induction_on with
  | _ v ihs =>
  by_cases hv : 128 ≤ v
  case neg =>
    intro fuel shift acc buf rest ptr hdrop hfuel hshift hv32 hacc
    rw [varIntEncode_eq, if_neg hv] at hdrop hfuel ⊢
    simp only [List.length_cons, List.length_nil] at hfuel
    obtain ⟨fuel, rfl⟩ : ∃ f, fuel = f + 1 := ⟨fuel - 1, by omega⟩
    rw [List.cons_append] at hdrop
    obtain ⟨hget, -⟩ := drop_eq_cons_getD hdrop
    rw [seedVarIntAux]
    simp only [hget]
    have hnv : v < 128 := by omega
    have hb0 : v &&& 128 = 0 := land_128_eq_zero hnv
    have hsm : shift % 32 = shift := Nat.mod_eq_of_lt (by omega)
    have hlt : v <<< shift < M32 := by
      rw [Nat.shiftLeft_eq]
      show v * 2 ^ shift < 4294967296
      have h1 : v * 2 ^ shift < 2 ^ (32 - shift) * 2 ^ shift :=
        Nat.mul_lt_mul_of_lt_of_le hv32 (Nat.le_refl _) (Nat.pos_pow_of_pos _ (by norm_num))
      rw [← Nat.pow_add] at h1
      have h32 : 32 - shift + shift = 32 := by omega
      rw [h32] at h1
      exact h1
    have hmask : mask32 (v <<< shift) = v <<< shift := Nat.mod_eq_of_lt hlt
    rw [land_127, Nat.mod_eq_of_lt hnv, hsm, hmask]
    rw [lor_shiftLeft_eq_add v shift hacc]
    simp [hb0]
  case pos =>
    have ih := ihs (v / 128) (Nat.div_lt_self (by omega) (by omega))
    intro fuel shift acc buf rest ptr hdrop hfuel hshift hv32 hacc
    rw [varIntEncode_eq, if_pos hv] at hdrop hfuel ⊢
    simp only [List.length_cons] at hfuel
    obtain ⟨fuel, rfl⟩ : ∃ f, fuel = f + 1 := ⟨fuel - 1, by omega⟩
    rw [List.cons_append] at hdrop
    obtain ⟨hget, hdrop2⟩ := drop_eq_cons_getD hdrop
    rw [seedVarIntAux]
    simp only [hget]
    have hmod : v % 128 < 128 := Nat.mod_lt _ (by norm_num)
    have hbyte : v % 128 + 128 &&& 127 = v % 128 := by rw [land_127]; omega
    have hbne : (v % 128 + 128) &&& 128 ≠ 0 := land_128_ne_zero (by omega) (by omega)
    have hshift24 : shift ≤ 24 := by
      by_contra hgt
      have hp : (2 : Nat) ^ (32 - shift) ≤ 2 ^ 7 :=
        Nat.pow_le_pow_right (by norm_num) (by omega)
      omega
    have hsm : shift % 32 = shift := Nat.mod_eq_of_lt (by omega)
    have hlt : (v % 128) <<< shift < M32 := by
      rw [Nat.shiftLeft_eq]
      show v % 128 * 2 ^ shift < 4294967296
      calc v % 128 * 2 ^ shift < 128 * 2 ^ shift :=
            Nat.mul_lt_mul_of_lt_of_le hmod (Nat.le_refl _) (Nat.pos_pow_of_pos _ (by norm_num))
        _ = 2 ^ (shift + 7) := by rw [Nat.pow_add]; ring
        _ ≤ 2 ^ 31 := Nat.pow_le_pow_right (by norm_num) (by omega)
        _ < 4294967296 := by norm_num
    have hmask : mask32 ((v % 128) <<< shift) = (v % 128) <<< shift := Nat.mod_eq_of_lt hlt
    rw [hbyte, hsm, hmask, lor_shiftLeft_eq_add (v % 128) shift hacc]
    rw [if_neg (by simpa using hbne)]
    have hdiv : v / 128 < 2 ^ (32 - (shift + 7)) := by
      rw [Nat.div_lt_iff_lt_mul (by norm_num : (0:Nat) < 128)]
      have heq : (2 : Nat) ^ (32 - (shift + 7)) * 128 = 2 ^ (32 - shift) := by
        have h7 : (128 : Nat) = 2 ^ 7 := by norm_num
        rw [h7, ← Nat.pow_add]
        congr 1
        omega
      rw [heq]
      exact hv32
    have hacc2 : acc + v % 128 * 2 ^ shift < 2 ^ (shift + 7) := by
      have h1 : v % 128 * 2 ^ shift ≤ 127 * 2 ^ shift :=
        Nat.mul_le_mul_right _ (by omega)
      have h2 : (2 : Nat) ^ (shift + 7) = 128 * 2 ^ shift := by rw [Nat.pow_add]; ring
      omega
    have hrec := ih fuel (shift + 7) (acc + v % 128 * 2 ^ shift) buf rest (ptr + 1)
      hdrop2 (by omega) (by omega) hdiv hacc2
    rw [hrec]
    have hval : acc + v % 128 * 2 ^ shift + v / 128 * 2 ^ (shift + 7) = acc + v * 2 ^ shift := by
      have h1 : v % 128 * 2 ^ shift + v / 128 * 2 ^ (shift + 7) = v * 2 ^ shift := by
        rw [Nat.pow_add]
        calc v % 128 * 2 ^ shift + v / 128 * (2 ^ shift * 2 ^ 7)
            = (v % 128 + 128 * (v / 128)) * 2 ^ shift := by ring
          _ = v * 2 ^ shift := by rw [Nat.mod_add_div]
      rw [Nat.add_assoc, h1]
    rw [hval]
    have hlen : ptr + 1 + (varIntEncode (v / 128)).length =
        ptr + ((varIntEncode (v / 128)).length + 1) := by omega
    rw [hlen]
    rw [List.length_cons]

theorem readVarIntAux_spec :
    ∀ (v fuel shift acc bytes : Nat) (buf rest : List Nat) (offset : Nat),
      buf.drop (offset + bytes) = varIntEncode v ++ rest →
      (varIntEncode v).length ≤ fuel →
      shift ≤ 31 → v < 2 ^ (32 - shift) → acc < 2 ^ shift →
      readVarIntAux buf offset fuel shift acc bytes =
        (acc + v * 2 ^ shift, bytes + (varIntEncode v).length) := by
  intro v
  induction v using Nat.strong_induction_on with
  | _ v ihs =>
  by_cases hv : 128 ≤ v
  case neg =>
    intro fuel shift acc bytes buf rest offset hdrop hfuel hshift hv32 hacc
    rw [varIntEncode_eq, if_neg hv] at hdrop hfuel ⊢
    simp only [List.length_cons, List.length_nil] at hfuel
    obtain ⟨fuel, rfl⟩ : ∃ f, fuel = f + 1 := ⟨fuel - 1, by omega⟩
    rw [List.cons_append] at hdrop
    obtain ⟨hget, -⟩ := drop_eq_cons_getD hdrop
    rw [readVarIntAux]
    simp only [hget]
    have hnv : v < 128 := by omega
    have hb0 : v &&& 128 = 0 := land_128_eq_zero hnv
    have hsm : shift % 32 = shift := Nat.mod_eq_of_lt (by omega)
    have hlt : v <<< shift < M32 := by
      rw [Nat.shiftLeft_eq]
      show v * 2 ^ shift < 4294967296
      have h1 : v * 2 ^ shift < 2 ^ (32 - shift) * 2 ^ shift :=
        Nat.mul_lt_mul_of_lt_of_le hv32 (Nat.le_refl _) (Nat.pos_pow_of_pos _ (by norm_num))
      rw [← Nat.pow_add] at h1
      have h32 : 32 - shift + shift = 32 := by omega
      rw [h32] at h1
      exact h1
    have hmask : mask32 (v <<< shift) = v <<< shift := Nat.mod_eq_of_lt hlt
    rw [land_127, Nat.mod_eq_of_lt hnv, hsm, hmask]
    rw [lor_shiftLeft_eq_add v shift hacc]
    simp [hb0]
  case pos =>
    have ih := ihs (v / 128) (Nat.div_lt_self (by omega) (by omega))
    intro fuel shift acc bytes buf rest offset hdrop hfuel hshift hv32 hacc
    rw [varIntEncode_eq, if_pos hv] at hdrop hfuel ⊢
    simp only [List.length_cons] at hfuel
    obtain ⟨fuel, rfl⟩ : ∃ f, fuel = f + 1 := ⟨fuel - 1, by omega⟩
    rw [List.cons_append] at hdrop
    obtain ⟨hget, hdrop2⟩ := drop_eq_cons_getD hdrop
    rw [readVarIntAux]
    simp only [hget]
    have hmod : v % 128 < 128 := Nat.mod_lt _ (by norm_num)
    have hbyte : v % 128 + 128 &&& 127 = v % 128 := by rw [land_127]; omega
    have hbne : (v % 128 + 128) &&& 128 ≠ 0 := land_128_ne_zero (by omega) (by omega)
    have hshift24 : shift ≤ 24 := by
      by_contra hgt
      have hp : (2 : Nat) ^ (32 - shift) ≤ 2 ^ 7 :=
        Nat.pow_le_pow_right (by norm_num) (by omega)
      omega
    have hsm : shift % 32 = shift := Nat.mod_eq_of_lt (by omega)
    have hlt : (v % 128) <<< shift < M32 := by
      rw [Nat.shiftLeft_eq]
      show v % 128 * 2 ^ shift < 4294967296
      calc v % 128 * 2 ^ shift < 128 * 2 ^ shift :=
            Nat.mul_lt_mul_of_lt_of_le hmod (Nat.le_refl _) (Nat.pos_pow_of_pos _ (by norm_num))
        _ = 2 ^ (shift + 7) := by rw [Nat.pow_add]; ring
        _ ≤ 2 ^ 31 := Nat.pow_le_pow_right (by norm_num) (by omega)
        _ < 4294967296 := by norm_num
    have hmask : mask32 ((v % 128) <<< shift) = (v % 128) <<< shift := Nat.mod_eq_of_lt hlt
    rw [hbyte, hsm, hmask, lor_shiftLeft_eq_add (v % 128) shift hacc]
    rw [if_neg (by simpa using hbne)]
    have hdiv : v / 128 < 2 ^ (32 - (shift + 7)) := by
      rw [Nat.div_lt_iff_lt_mul (by norm_num : (0:Nat) < 128)]
      have heq : (2 : Nat) ^ (32 - (shift + 7)) * 128 = 2 ^ (32 - shift) := by
        have h7 : (128 : Nat) = 2 ^ 7 := by norm_num
        rw [h7, ← Nat.pow_add]
        congr 1
        omega
      rw [heq]
      exact hv32
    have hacc2 : acc + v % 128 * 2 ^ shift < 2 ^ (shift + 7) := by
      have h1 : v % 128 * 2 ^ shift ≤ 127 * 2 ^ shift :=
        Nat.mul_le_mul_right _ (by omega)
      have h2 : (2 : Nat) ^ (shift + 7) = 128 * 2 ^ shift := by rw [Nat.pow_add]; ring
      omega
    have hdrop3 : buf.drop (offset + (bytes + 1)) = varIntEncode (v / 128) ++ rest := by
      have : offset + (bytes + 1) = offset + bytes + 1 := by omega
      rw [this]
      exact hdrop2
    have hrec := ih fuel (shift + 7) (acc + v % 128 * 2 ^ shift) (bytes + 1) buf rest offset
      hdrop3 (by omega) (by omega) hdiv hacc2
    rw [hrec]
    have hval : acc + v % 128 * 2 ^ shift + v / 128 * 2 ^ (shift + 7) = acc + v * 2 ^ shift := by
      have h1 : v % 128 * 2 ^ shift + v / 128 * 2 ^ (shift + 7) = v * 2 ^ shift := by
        rw [Nat.pow_add]
        calc v % 128 * 2 ^ shift + v / 128 * (2 ^ shift * 2 ^ 7)
            = (v % 128 + 128 * (v / 128)) * 2 ^ shift := by ring
          _ = v * 2 ^ shift := by rw [Nat.mod_add_div]
      rw [Nat.add_assoc, h1]
    rw [hval]
    have hlen : bytes + 1 + (varIntEncode (v / 128)).length =
        bytes + ((varIntEncode (v / 128)).length + 1) := by omega
    rw [hlen]
    rw [List.length_cons]

theorem writeVarInt_eq_specLEB128 (v : Nat) : writeVarInt v = specLEB128 v := by
  induction v using Nat.strong_induction_on with
  | _ v ihs =>
  show varIntEncode v = specLEB128 v
  by_cases hv : 128 ≤ v
  · rw [varIntEncode_eq, if_pos hv, specLEB128_eq, if_neg (by omega)]
    have ih : varIntEncode (v / 128) = specLEB128 (v / 128) :=
      ihs (v / 128) (Nat.div_lt_self (by omega) (by omega))
    rw [ih]
    have hor : v % 128 ||| 128 = v % 128 + 128 :=
      lor_eq_add_of_land _ _ (land_128_eq_zero (Nat.mod_lt _ (by norm_num)))
    rw [hor]
  · rw [varIntEncode_eq, if_neg hv, specLEB128_eq, if_pos (by omega)]

/-- C9 — COUNTEREXAMPLE.  At `v = 2^31` the claimed round trip fails:
`writeVarInt` emits the correct LEB128 bytes, but `readVarInt`
accumulates through the 32-bit `|=`, so the returned value is the
SIGNED reading `-2^31`, not `2^31`. -/
theorem C9_counterexample :
    writeVarInt 2147483648 = [128, 128, 128, 128, 8] ∧
    readVarInt [128, 128, 128, 128, 8] 0 = (-2147483648, 5) ∧
    (-2147483648 : Int) ≠ 2147483648 := by
  decide

/-- C9 (amended) — the codec is unsigned LEB128: for every 32-bit `v`,
`writeVarInt` emits the LEB128 encoding of `v` (7-bit groups, MSB
continuation), and for every `v < 2^31` `readVarInt` applied to those
bytes returns the value `v` with the same byte count.  (For
`v ∈ [2^31, 2^32)` the emitted bytes are still LEB128, but `readVarInt`
returns the value wrapped to a signed 32-bit integer.) -/
theorem C9_varint_roundtrip (v : Nat) (h32 : v < 2 ^ 32) :
    writeVarInt v = specLEB128 v ∧
    (v < 2 ^ 31 →
      readVarInt (writeVarInt v) 0 = ((v : Int), (writeVarInt v).length)) := by
  refine ⟨writeVarInt_eq_specLEB128 v, fun h31 => ?_⟩
  show readVarInt (varIntEncode v) 0 = ((v : Int), (varIntEncode v).length)
  unfold readVarInt
  have hs := readVarIntAux_spec v ((varIntEncode v).length + 1) 0 0 0 (varIntEncode v) [] 0
    (by simp) (by omega) (by omega) (by simpa using h32) (by simp)
  rw [hs]
  simp only [Nat.zero_add, Nat.pow_zero, Nat.mul_one]
  have ht : toInt32 v = (v : Int) := by
    unfold toInt32
    have hm : v % M32 = v := Nat.mod_eq_of_lt (by rw [M32_eq]; omega)
    rw [hm]
    have hh : v < M32 / 2 := by
      have h2 : M32 / 2 = 2 ^ 31 := by decide
      omega
    rw [if_pos hh]
  rw [ht]

/-- C9 witness: the amended theorem applied at the concrete input 300. -/
theorem C9_varint_roundtrip_witness :
    writeVarInt 300 = specLEB128 300 ∧
    readVarInt (writeVarInt 300) 0 = ((300 : Int), (writeVarInt 300).length) :=
  ⟨(C9_varint_roundtrip 300 (by decide)).1,
   (C9_varint_roundtrip 300 (by decide)).2 (by decide)⟩

/-! ## Bucket count (C7) -/

theorem ceilQ_eq_ceil (q : ℚ) : ceilQ q = ⌈q⌉ := by
  unfold ceilQ
  have h : ⌊-q⌋ = -⌈q⌉ := Int.floor_neg
  have h2 : ⌊-q⌋ = (-q).num / ((-q).den : Int) := Rat.floor_def
  simp only [Rat.neg_num, Rat.neg_den] at h2
  rw [Int.fdiv_eq_ediv _ (by positivity)]
  have h3 : (-q.num) / (q.den : Int) = -⌈q⌉ := by rw [← h2, h]
  rw [h3, neg_neg]

theorem adjustedRate_eq (n : Nat) (level : ℚ) :
    adjustedRate n level = (if 500000 < n then max 1 (level * (9 / 10)) else level) := by
  unfold adjustedRate
  congr 1
  congr 1
  rw [Rat.divInt_eq_div]
  push_cast
  conv_rhs => rw [← Rat.num_div_den level]
  rw [div_mul_div_comm]
  ring_nf

theorem computeM_eq (n : Nat) (level : ℚ) :
    computeM n level = max 1 (ceilQ ((n : ℚ) / adjustedRate n level)).toNat := by
  unfold computeM
  congr 3
  set r := adjustedRate n level
  rw [Rat.divInt_eq_div]
  by_cases hz : r.num = 0
  · rw [hz]
    have hr : r = 0 := Rat.zero_iff_num_zero.mpr hz
    simp [hr]
  · push_cast
    conv_rhs => rw [← Rat.num_div_den r]
    rw [div_div_eq_mul_div]

/-! ## Build inversion -/

theorem build_ok_inv {keys : List Str} {level : ℚ} {vm : VMode} {cs : Nat → Nat} {d : Dict}
    (hne : keys.length ≠ 0) (hb : build keys level vm cs = .ok d) :
    ∃ hashSeed seed0 minMaxLen decisions,
      findHashSeed keys = .ok hashSeed ∧
      bestFit (preHashes keys hashSeed) (computeM keys.length level) cs =
        some (seed0, minMaxLen) ∧
      minMaxLen < 16 ∧
      buildSeeds (preHashes keys hashSeed) seed0 (computeM keys.length level) = .ok decisions ∧
      d = builtDictOf keys level vm hashSeed seed0 decisions := by
  unfold build at hb
  dsimp only [] at hb
  rw [if_neg hne] at hb
  cases hfs : findHashSeed keys with
  | error e => rw [hfs] at hb; exact absurd hb (by simp)
  | ok hs =>
    rw [hfs] at hb
    dsimp only [] at hb
    cases hbf : bestFit (preHashes keys hs) (computeM keys.length level) cs with
    | none => rw [hbf] at hb; exact absurd hb (by simp)
    | some p =>
      obtain ⟨s0, mml⟩ := p
      rw [hbf] at hb
      dsimp only [] at hb
      by_cases hm : 16 ≤ mml
      · rw [if_pos hm] at hb; exact absurd hb (by simp)
      · rw [if_neg hm] at hb
        cases hbs : buildSeeds (preHashes keys hs) s0 (computeM keys.length level) with
        | error e => rw [hbs] at hb; exact absurd hb (by simp)
        | ok ds =>
          rw [hbs] at hb
          dsimp only [] at hb
          refine ⟨hs, s0, mml, ds, rfl, hbf, by omega, hbs, ?_⟩
          cases hb
          rfl

theorem builtDictOf_fields (keys : List Str) (level : ℚ) (vm : VMode)
    (hashSeed seed0 : Nat) (decisions : List (Nat × Nat)) :
    (builtDictOf keys level vm hashSeed seed0 decisions).n = keys.length ∧
    (builtDictOf keys level vm hashSeed seed0 decisions).m = computeM keys.length level ∧
    (builtDictOf keys level vm hashSeed seed0 decisions).seed0 = seed0 ∧
    (builtDictOf keys level vm hashSeed seed0 decisions).hashSeed = some hashSeed ∧
    (builtDictOf keys level vm hashSeed seed0 decisions).seedStream = mkSeedStream decisions ∧
    (builtDictOf keys level vm hashSeed seed0 decisions).bucketSizes =
      packNibbles (bucketLens (preHashes keys hashSeed) seed0 (computeM keys.length level)) ∧
    (builtDictOf keys level vm hashSeed seed0 decisions).seedZeroBitmap =
      some (mkBitmap (decisions.map seedOmitted)) ∧
    (builtDictOf keys level vm hashSeed seed0 decisions).validationMode = vm := by
  unfold builtDictOf dict0Of
  split <;> exact ⟨rfl, rfl, rfl, rfl, rfl, rfl, rfl, rfl⟩

/-- C7 — COUNTEREXAMPLE.  At `n = 500001`, `level = 5`, the code
multiplies the level by 0.9 (rate 4.5, so `m = ⌈500001/4.5⌉ = 111112`),
while dividing the level by 0.9 as the claim words it would give rate
`5/0.9` and `m = 90001`. -/
theorem C7_counterexample :
    computeM 500001 5 = 111112 ∧
    max 1 (ceilQ ((500001 : ℚ) / (5 / (9 / 10)))).toNat = 90001 ∧
    (111112 : Nat) ≠ 90001 := by
  refine ⟨?_, ?_, by decide⟩
  · rw [computeM_eq, adjustedRate_eq, if_pos (by norm_num)]
    have hmax : max (1 : ℚ) (5 * (9 / 10)) = 9 / 2 := by
      rw [max_eq_right (by norm_num)]
      norm_num
    rw [hmax]
    have hcast : (((500001 : Nat) : ℚ)) = (500001 : ℚ) := by norm_num
    rw [hcast]
    have hc : ceilQ ((500001 : ℚ) / (9 / 2)) = 111112 := by
      rw [ceilQ_eq_ceil, Int.ceil_eq_iff] <;> norm_num
    rw [hc]
    decide
  · have hc : ceilQ ((500001 : ℚ) / (5 / (9 / 10))) = 90001 := by
      rw [ceilQ_eq_ceil, Int.ceil_eq_iff] <;> norm_num
    rw [hc]
    decide

/-- C7 (amended) — for every successfully built non-empty dictionary
with `level ∈ [1, 10]`, the bucket count is
`m = max(1, ⌈n / level'⌉)` where `level' = level` for `n ≤ 500000`, and
`level' = max(1, level · 0.9)` for `n > 500000`: the builder MULTIPLIES
the level by roughly 0.9 (it does not divide by 0.9). -/
theorem C7_bucket_count (keys : List Str) (level : ℚ) (vm : VMode) (cs : Nat → Nat)
    (d : Dict) (hlvl : 1 ≤ level ∧ level ≤ 10) (hne : keys ≠ [])
    (hb : build keys level vm cs = .ok d) :
    d.m = max 1 (ceilQ ((keys.length : ℚ) /
      (if 500000 < keys.length then max 1 (level * (9 / 10)) else level))).toNat := by
  have hne2 : keys.length ≠ 0 := by
    intro h
    exact hne (List.length_eq_zero.mp h)
  obtain ⟨hs, s0, mml, ds, -, -, -, -, hd⟩ := build_ok_inv hne2 hb
  subst hd
  rw [(builtDictOf_fields keys level vm hs s0 ds).2.1]
  rw [computeM_eq, adjustedRate_eq]

/-- C7 witness: a concrete successful build (5 keys, level 5) with
`m = max(1, ⌈5/5⌉) = 1`. -/
theorem C7_bucket_count_witness :
    (1 : ℚ) ≤ 5 ∧ (5 : ℚ) ≤ 10 ∧
    ∃ d, build [[97], [98], [99], [100], [101]] 5 .vnone (fun i => 12345 + i * 999331) =
      .ok d ∧
    d.m = max 1 (ceilQ ((([[97], [98], [99], [100], [101]] : List Str).length : ℚ) /
      (if 500000 < ([[97], [98], [99], [100], [101]] : List Str).length then
        max 1 (5 * (9 / 10)) else 5))).toNat := by
  refine ⟨by norm_num, by norm_num, ?_⟩
  cases hb : build [[97], [98], [99], [100], [101]] 5 .vnone (fun i => 12345 + i * 999331) with
  | error e =>
    have hok : (build [[97], [98], [99], [100], [101]] 5 .vnone
        (fun i => 12345 + i * 999331)).isOk = true := by decide
    rw [hb] at hok
    exact absurd hok (by simp [Except.isOk, Except.toBool])
  | ok d =>
    exact ⟨d, rfl, C7_bucket_count _ 5 _ _ d ⟨by norm_num, by norm_num⟩ (by decide) hb⟩

/-! ## Phase 0 (C5) -/

theorem findHashSeedAux_ok_spec (keys : List Str) :
    ∀ fuel s r, s ≤ 100 → findHashSeedAux keys fuel s = .ok r →
      s ≤ r ∧ r ≤ 100 ∧ pairsDistinct keys r = true ∧
      (∀ t, s ≤ t → t < r → pairsDistinct keys t = false) := by
  intro fuel
  induction fuel with
  | zero =>
    intro s r _ he
    exact absurd he (by simp [findHashSeedAux])
  | succ f ih =>
    intro s r hs he
    rw [findHashSeedAux] at he
    by_cases hp : pairsDistinct keys s = true
    · rw [if_pos hp] at he
      cases he
      exact ⟨le_refl _, hs, hp, fun t h1 h2 => absurd h1 (by omega)⟩
    · have hp2 : pairsDistinct keys s = false := by
        revert hp
        cases pairsDistinct keys s <;> simp
      rw [if_neg (by simp [hp2])] at he
      by_cases h100 : 100 < s + 1
      · rw [if_pos h100] at he
        exact absurd he (by simp)
      · rw [if_neg h100] at he
        obtain ⟨h1, h2, h3, h4⟩ := ih (s + 1) r (by omega) he
        refine ⟨by omega, h2, h3, fun t ht1 ht2 => ?_⟩
        by_cases hts : t = s
        · subst hts
          exact hp2
        · exact h4 t (by omega) ht2

theorem findHashSeedAux_error_iff (keys : List Str) :
    ∀ fuel s, s + fuel = 101 →
      ((∃ e, findHashSeedAux keys fuel s = .error e) ↔
        ∀ t, s ≤ t → t ≤ 100 → pairsDistinct keys t = false) := by
  intro fuel
  induction fuel with
  | zero =>
    intro s h
    constructor
    · intro _ t ht1 ht2
      omega
    · intro _
      exact ⟨.hashSeedExhausted, by rw [findHashSeedAux]⟩
  | succ f ih =>
    intro s h
    rw [findHashSeedAux]
    by_cases hp : pairsDistinct keys s = true
    · rw [if_pos hp]
      constructor
      · rintro ⟨e, he⟩
        exact absurd he (by simp)
      · intro hall
        have hfs := hall s (le_refl _) (by omega)
        rw [hp] at hfs
        exact absurd hfs (by simp)
    · have hp2 : pairsDistinct keys s = false := by
        revert hp
        cases pairsDistinct keys s <;> simp
      rw [if_neg (by simp [hp2])]
      by_cases h100 : 100 < s + 1
      · rw [if_pos h100]
        constructor
        · intro _ t ht1 ht2
          have hts : t = s := by omega
          subst hts
          exact hp2
        · intro _
          exact ⟨.hashSeedExhausted, rfl⟩
      · rw [if_neg h100]
        rw [ih (s + 1) (by omega)]
        constructor
        · intro hall t ht1 ht2
          by_cases hts : t = s
          · subst hts
            exact hp2
          · exact hall t (by omega) ht2
        · intro hall t ht1 ht2
          exact hall t (by omega) ht2

theorem findHashSeed_error_shape (keys : List Str) :
    ∀ fuel s e, findHashSeedAux keys fuel s = .error e → e = .hashSeedExhausted := by
  intro fuel
  induction fuel with
  | zero =>
    intro s e he
    rw [findHashSeedAux] at he
    cases he
    rfl
  | succ f ih =>
    intro s e he
    rw [findHashSeedAux] at he
    by_cases hp : pairsDistinct keys s = true
    · rw [if_pos hp] at he
      exact absurd he (by simp)
    · have hp2 : pairsDistinct keys s = false := by
        revert hp
        cases pairsDistinct keys s <;> simp
      rw [if_neg (by simp [hp2])] at he
      by_cases h100 : 100 < s + 1
      · rw [if_pos h100] at he
        cases he
        rfl
      · rw [if_neg h100] at he
        exact ih (s + 1) e he

theorem mapM_error_mem {α β : Type} (f : α → Except BuildError β) :
    ∀ (l : List α) (e : BuildError), l.mapM f = .error e → ∃ x ∈ l, f x = .error e := by
  intro l
  induction l with
  | nil =>
    intro e he
    rw [List.mapM_nil] at he
    have h2 : (Except.ok [] : Except BuildError (List β)) = Except.error e := he
    cases h2
  | cons a as ih =>
    intro e he
    rw [List.mapM_cons] at he
    cases hfa : f a with
    | error e2 =>
      rw [hfa] at he
      have h2 : (Except.error e2 : Except BuildError (List β)) = Except.error e := he
      cases h2
      exact ⟨a, List.mem_cons_self a as, hfa⟩
    | ok b =>
      rw [hfa] at he
      cases hrest : as.mapM f with
      | error e2 =>
        rw [hrest] at he
        have h2 : (Except.error e2 : Except BuildError (List β)) = Except.error e := he
        cases h2
        obtain ⟨x, hx1, hx2⟩ := ih _ hrest
        exact ⟨x, List.mem_cons_of_mem a hx1, hx2⟩
      | ok bs =>
        rw [hrest] at he
        have h2 : (Except.ok (b :: bs) : Except BuildError (List β)) = Except.error e := he
        cases h2

theorem findDispSeedAux_error_shape (i : Nat) (mem : List (Nat × Nat)) (k cap : Nat) :
    ∀ fuel s e, findDispSeedAux i mem k cap fuel s = .error e →
      e = .displacementExhausted i k := by
  intro fuel
  induction fuel with
  | zero =>
    intro s e he
    rw [findDispSeedAux] at he
    cases he
    rfl
  | succ f ih =>
    intro s e he
    rw [findDispSeedAux] at he
    by_cases hp : posDistinct mem k s = true
    · rw [if_pos hp] at he
      exact absurd he (by simp)
    · have hp2 : posDistinct mem k s = false := by
        revert hp
        cases posDistinct mem k s <;> simp
      rw [if_neg (by simp [hp2])] at he
      by_cases hc : cap < s + 1
      · rw [if_pos hc] at he
        cases he
        rfl
      · rw [if_neg hc] at he
        exact ih (s + 1) e he

theorem buildSeeds_error_shape {pairs : List (Nat × Nat)} {seed0 m : Nat} {e : BuildError}
    (h : buildSeeds pairs seed0 m = .error e) : ∃ i k, e = .displacementExhausted i k := by
  unfold buildSeeds at h
  obtain ⟨i, -, hi⟩ := mapM_error_mem _ _ _ h
  dsimp only [] at hi
  by_cases hk : (bucketMembers pairs seed0 m i).length ≤ 1
  · rw [if_pos hk] at hi
    exact absurd hi (by simp)
  · rw [if_neg hk] at hi
    cases hf : findDispSeedAux i (bucketMembers pairs seed0 m i)
        (bucketMembers pairs seed0 m i).length
        (dispCap (bucketMembers pairs seed0 m i).length)
        (dispCap (bucketMembers pairs seed0 m i).length + 2) 0 with
    | error e2 =>
      rw [hf] at hi
      have he2 : e2 = e := by
        simpa [Except.map] using hi
      subst he2
      exact ⟨i, (bucketMembers pairs seed0 m i).length,
        findDispSeedAux_error_shape _ _ _ _ _ _ _ hf⟩
    | ok s =>
      rw [hf] at hi
      exact absurd hi (by simp [Except.map])

theorem build_error_hashSeed_iff (keys : List Str) (level : ℚ) (vm : VMode) (cs : Nat → Nat) :
    build keys level vm cs = .error .hashSeedExhausted ↔
      findHashSeed keys = .error .hashSeedExhausted := by
  unfold build
  dsimp only []
  by_cases hn : keys.length = 0
  · rw [if_pos hn]
    have hkeys : keys = [] := List.length_eq_zero.mp hn
    subst hkeys
    constructor
    · intro h
      exact absurd h (by simp)
    · intro h
      have hf0 : findHashSeed [] = .ok 0 := by
        unfold findHashSeed
        rw [findHashSeedAux, if_pos (by decide)]
      rw [hf0] at h
      exact absurd h (by simp)
  · rw [if_neg hn]
    cases hfs : findHashSeed keys with
    | error e =>
      have he : e = .hashSeedExhausted := findHashSeed_error_shape keys 101 0 e hfs
      subst he
      simp
    | ok hs =>
      dsimp only []
      constructor
      · intro h
        cases hbf : bestFit (preHashes keys hs) (computeM keys.length level) cs with
        | none =>
          rw [hbf] at h
          exact absurd h (by simp)
        | some p =>
          obtain ⟨s0, mml⟩ := p
          rw [hbf] at h
          dsimp only [] at h
          by_cases hm : 16 ≤ mml
          · rw [if_pos hm] at h
            exact absurd h (by simp)
          · rw [if_neg hm] at h
            cases hbs : buildSeeds (preHashes keys hs) s0 (computeM keys.length level) with
            | error e =>
              rw [hbs] at h
              obtain ⟨i, k, hik⟩ := buildSeeds_error_shape hbs
              rw [hik] at h
              exact absurd h (by simp)
            | ok ds =>
              rw [hbs] at h
              exact absurd h (by simp)
      · intro h
        exact absurd h (by simp)

/-- C5 — Phase 0 stores the smallest collision-free `hashSeed`, and the
build throws `BuildHashSeedExhausted` exactly when none of the 101
attempted seeds (0 through 100) makes the pre-hash pairs
`(H(k, seed), H(k, ~seed))` pairwise distinct over the key set. -/
theorem C5_hashSeed (keys : List Str) (level : ℚ) (vm : VMode) (cs : Nat → Nat) :
    (∀ d, build keys level vm cs = .ok d →
        pairsDistinct keys (d.hashSeed.getD 0) = true ∧
        ∀ t < d.hashSeed.getD 0, pairsDistinct keys t = false) ∧
    (build keys level vm cs = .error .hashSeedExhausted ↔
        ∀ s ≤ 100, pairsDistinct keys s = false) := by
  constructor
  · intro d hb
    by_cases hn : keys.length = 0
    · have hkeys : keys = [] := List.length_eq_zero.mp hn
      subst hkeys
      have hd : d = emptyDict := by
        unfold build at hb
        dsimp only [] at hb
        rw [if_pos hn] at hb
        cases hb
        rfl
      subst hd
      refine ⟨by decide, fun t ht => absurd ht (by simp [emptyDict])⟩
    · obtain ⟨hs, s0, mml, ds, hfs, -, -, -, hd⟩ := build_ok_inv hn hb
      subst hd
      rw [(builtDictOf_fields keys level vm hs s0 ds).2.2.2.1]
      obtain ⟨-, -, h3, h4⟩ :=
        findHashSeedAux_ok_spec keys 101 0 hs (by omega) hfs
      exact ⟨h3, fun t ht => h4 t (by omega) ht⟩
  · rw [build_error_hashSeed_iff]
    have hiff : (∃ e, findHashSeedAux keys 101 0 = .error e) ↔
        ∀ t, 0 ≤ t → t ≤ 100 → pairsDistinct keys t = false :=
      findHashSeedAux_error_iff keys 101 0 (by omega)
    constructor
    · intro h s hs
      exact hiff.mp ⟨.hashSeedExhausted, h⟩ s (by omega) hs
    · intro h
      obtain ⟨e, he⟩ := hiff.mpr (fun t _ ht => h t ht)
      rw [findHashSeed_error_shape keys 101 0 e he] at he
      exact he

/-- C5 witness: a concrete two-key build where seed 0 already works. -/
theorem C5_hashSeed_witness :
    ∃ d, build [[97], [98]] 5 .vnone (fun _ => 0) = .ok d ∧
      pairsDistinct [[97], [98]] (d.hashSeed.getD 0) = true ∧
      ∀ t < d.hashSeed.getD 0, pairsDistinct [[97], [98]] t = false := by
  cases hb : build [[97], [98]] 5 .vnone (fun _ => 0) with
  | error e =>
    have hok : (build [[97], [98]] 5 .vnone (fun _ => 0)).isOk = true := by decide
    rw [hb] at hok
    exact absurd hok (by simp [Except.isOk, Except.toBool])
  | ok d =>
    exact ⟨d, rfl, (C5_hashSeed [[97], [98]] 5 .vnone (fun _ => 0)).1 d hb⟩

/-! ## Counting and nibble-packing lemmas -/

theorem count_range (n a : Nat) : (List.range n).count a = if a < n then 1 else 0 := by
  induction n with
  | zero => simp
  | succ m ih =>
    rw [List.range_succ, List.count_append, ih]
    have hs : [m].count a = if a = m then 1 else 0 := by
      by_cases h : a = m
      · subst h; simp
      · rw [if_neg h]
        simp only [List.count_singleton, beq_iff_eq]
        rw [if_neg (fun hh => h hh.symm)]
    rw [hs]
    by_cases h1 : a < m
    · rw [if_pos h1, if_neg (by omega), if_pos (by omega)]
    · by_cases h2 : a = m
      · rw [if_neg h1, if_pos h2, if_pos (by omega)]
      · rw [if_neg h1, if_neg h2, if_neg (by omega)]

theorem sum_map_ite_count (l : List Nat) (x : Nat) :
    (l.map (fun b => if x = b then 1 else 0)).sum = l.count x := by
  induction l with
  | nil => simp
  | cons a as ih =>
    rw [List.map_cons, List.sum_cons, ih, List.count_cons]
    by_cases h : x = a
    · subst h
      simp
      omega
    · have hne : ¬(a == x) = true := by
        simp
        exact fun hh => h hh.symm
      simp [h, hne]

theorem sum_map_add_distrib (l : List Nat) (g h : Nat → Nat) :
    (l.map (fun b => g b + h b)).sum = (l.map g).sum + (l.map h).sum := by
  induction l with
  | nil => simp
  | cons a as ih =>
    simp [ih]
    omega

theorem bucketLens_sum {pairs : List (Nat × Nat)} {seed m : Nat}
    (hb : ∀ p ∈ pairs, bucketIdx p.1 p.2 seed m < m) :
    (bucketLens pairs seed m).sum = pairs.length := by
  unfold bucketLens bucketMembers
  simp only [List.length_reverse]
  induction pairs with
  | nil => simp
  | cons p rest ih =>
    have hrec := ih (fun q hq => hb q (List.mem_cons_of_mem p hq))
    have hsplit : ∀ b : Nat,
        ((p :: rest).filter (fun q => bucketIdx q.1 q.2 seed m == b)).length =
        (if bucketIdx p.1 p.2 seed m = b then 1 else 0)
          + (rest.filter (fun q => bucketIdx q.1 q.2 seed m == b)).length := by
      intro b
      rw [List.filter_cons]
      by_cases h : bucketIdx p.1 p.2 seed m = b
      · rw [if_pos (by simpa using h), List.length_cons, if_pos h]
        omega
      · rw [if_neg (by simpa using h), if_neg h]
        omega
    have hmap : (List.range m).map
        (fun b => ((p :: rest).filter (fun q => bucketIdx q.1 q.2 seed m == b)).length) =
        (List.range m).map (fun b => (if bucketIdx p.1 p.2 seed m = b then 1 else 0)
          + (rest.filter (fun q => bucketIdx q.1 q.2 seed m == b)).length) := by
      apply List.map_congr_left
      intro b _
      exact hsplit b
    rw [hmap, sum_map_add_distrib, sum_map_ite_count, count_range, hrec]
    rw [if_pos (hb p (List.mem_cons_self p rest))]
    simp [Nat.add_comm]

theorem land_or_distrib (a b k : Nat) : (a ||| b) &&& k = (a &&& k) ||| (b &&& k) := by
  apply Nat.eq_of_testBit_eq
  intro i
  simp [Nat.testBit_and, Nat.testBit_or, Bool.and_or_distrib_right]

theorem shiftRight_or_distrib (a b k : Nat) : (a ||| b) >>> k = (a >>> k) ||| (b >>> k) := by
  apply Nat.eq_of_testBit_eq
  intro i
  simp [Nat.testBit_shiftRight, Nat.testBit_or]

theorem land_15 (x : Nat) : x &&& 15 = x % 16 := by
  have h : (15 : Nat) = 2 ^ 4 - 1 := by norm_num
  have h2 := Nat.and_pow_two_sub_one_eq_mod x 4
  rw [h]
  simpa using h2

theorem shiftLeft4_land_15 (b : Nat) : (b <<< 4) &&& 15 = 0 := by
  rw [Nat.land_comm]
  exact land_shiftLeft_eq_zero b 4 (by norm_num)

theorem shiftLeft4_shiftRight4 (b : Nat) : (b <<< 4) >>> 4 = b := by
  rw [Nat.shiftLeft_eq, Nat.shiftRight_eq_div_pow]
  exact Nat.mul_div_cancel _ (by norm_num)

theorem nibbleAt_packNibbles :
    ∀ (sizes : List Nat), (∀ x ∈ sizes, x ≤ 15) →
      ∀ i, nibbleAt (packNibbles sizes) i = sizes.getD i 0 := by
  intro sizes
  induction sizes using packNibbles.induct with
  | case1 =>
    intro _ i
    simp [packNibbles, nibbleAt]
  | case2 a =>
    intro hle i
    have ha : a ≤ 15 := hle a (by simp)
    have hmod : a % 256 = a := Nat.mod_eq_of_lt (by omega)
    rw [packNibbles]
    unfold nibbleAt
    rcases Nat.lt_or_ge i 2 with hi | hi
    · interval_cases i
      · simp [hmod, land_15]
        omega
      · simp [hmod]
        rw [Nat.shiftRight_eq_div_pow]
        omega
    · have h2 : i / 2 ≥ 1 := by omega
      have hgd : ([a % 256].getD (i / 2) 0) = 0 := by
        rw [List.getD_eq_getElem?_getD]
        rw [List.getElem?_eq_none (by simp; omega)]
        rfl
      rw [hgd]
      have hgd2 : ([a] : List Nat).getD i 0 = 0 := by
        rw [List.getD_eq_getElem?_getD]
        rw [List.getElem?_eq_none (by simp; omega)]
        rfl
      rw [hgd2]
      split <;> simp
  | case3 a b rest ih =>
    intro hle i
    have ha : a ≤ 15 := hle a (by simp)
    have hbb : b ≤ 15 := hle b (by simp)
    have hrest : ∀ x ∈ rest, x ≤ 15 := fun x hx => hle x (by simp [hx])
    rw [packNibbles]
    have hbyte : (a ||| b <<< 4) % 256 = a ||| b <<< 4 := by
      rw [lor_shiftLeft_eq_add b 4 (by omega)]
      omega
    rcases Nat.lt_or_ge i 2 with hi | hi
    · interval_cases i
      · show ((a ||| b <<< 4) % 256) &&& 15 = a
        rw [hbyte, land_or_distrib, shiftLeft4_land_15, land_15]
        simp
        omega
      · show ((a ||| b <<< 4) % 256) >>> 4 = b
        rw [hbyte, shiftRight_or_distrib, shiftLeft4_shiftRight4]
        have hz : a >>> 4 = 0 := by
          rw [Nat.shiftRight_eq_div_pow]
          omega
        rw [hz]
        simp
    · unfold nibbleAt
      have hdiv : i / 2 = (i - 2) / 2 + 1 := by omega
      have hmod : i % 2 = (i - 2) % 2 := by omega
      rw [hdiv, hmod]
      have hgd : (((a ||| b <<< 4) % 256 :: packNibbles rest).getD ((i - 2) / 2 + 1) 0) =
          (packNibbles rest).getD ((i - 2) / 2) 0 := by
        rw [List.getD_cons_succ]
      rw [hgd]
      have hih := ih hrest (i - 2)
      unfold nibbleAt at hih
      rw [hih]
      have hgd2 : ((a :: b :: rest).getD i 0) = rest.getD (i - 2) 0 := by
        obtain ⟨j, rfl⟩ : ∃ j, i = j + 2 := ⟨i - 2, by omega⟩
        rw [show j + 2 = (j + 1) + 1 by omega, List.getD_cons_succ, List.getD_cons_succ,
          show j + 1 + 1 - 2 = j by omega]
      rw [hgd2]

theorem offsetAt_packNibbles (sizes : List Nat) (hle : ∀ x ∈ sizes, x ≤ 15) :
    ∀ i, offsetAt (packNibbles sizes) i = (sizes.take i).sum := by
  intro i
  induction i with
  | zero => simp [offsetAt]
  | succ j ih =>
    unfold offsetAt at ih ⊢
    rw [List.range_succ, List.map_append, List.sum_append, ih]
    simp only [List.map_cons, List.map_nil, List.sum_cons, List.sum_nil]
    rw [nibbleAt_packNibbles sizes hle j]
    rcases Nat.lt_or_ge j sizes.length with hj | hj
    · rw [List.take_succ]
      rw [List.sum_append]
      have : sizes[j]?.toList = [sizes.getD j 0] := by
        rw [List.getElem?_eq_getElem hj]
        rw [List.getD_eq_getElem?_getD, List.getElem?_eq_getElem hj]
        rfl
      rw [this]
      simp
    · have h1 : sizes.take (j + 1) = sizes := List.take_of_length_le (by omega)
      have h2 : sizes.take j = sizes := List.take_of_length_le (by omega)
      have h3 : sizes.getD j 0 = 0 := by
        rw [List.getD_eq_getElem?_getD, List.getElem?_eq_none (by omega)]
        rfl
      rw [h1, h2, h3]
      omega

/-! ## Generic list helpers for the bijection proof -/

theorem getD_map_of_lt {α β : Type} (f : α → β) (l : List α) (i : Nat) (d : α) (d' : β)
    (h : i < l.length) : (l.map f).getD i d' = f (l.getD i d) := by
  rw [List.getD_eq_getElem?_getD, List.getD_eq_getElem?_getD, List.getElem?_map,
    List.getElem?_eq_getElem h]
  rfl

theorem getD_range {n i : Nat} (h : i < n) : (List.range n).getD i 0 = i := by
  rw [List.getD_eq_getElem?_getD, List.getElem?_eq_getElem (by simpa using h)]
  simp

theorem foldr_max_le (l : List Nat) : ∀ x ∈ l, x ≤ l.foldr max 0 := by
  induction l with
  | nil => intro x hx; cases hx
  | cons a as ih =>
    intro x hx
    rw [List.foldr_cons]
    rcases List.mem_cons.mp hx with h | h
    · subst h; exact le_max_left _ _
    · exact le_trans (ih x h) (le_max_right _ _)

theorem take_sum_mono (l : List Nat) : ∀ i j : Nat, i ≤ j →
    (l.take i).sum ≤ (l.take j).sum := by
  intro i j hij
  have : l.take i = (l.take j).take i := by
    rw [List.take_take, min_eq_left hij]
  rw [this]
  exact List.Sublist.sum_le_sum (List.take_sublist _ _) (fun x _ => Nat.zero_le x)

theorem take_succ_sum (l : List Nat) (b : Nat) (hb : b < l.length) :
    (l.take (b + 1)).sum = (l.take b).sum + l.getD b 0 := by
  rw [List.take_succ, List.sum_append]
  have : l[b]?.toList = [l.getD b 0] := by
    rw [List.getElem?_eq_getElem hb, List.getD_eq_getElem?_getD, List.getElem?_eq_getElem hb]
    rfl
  rw [this]
  simp

theorem two_le_length_of_mem_ne {α : Type} {l : List α} {a b : α}
    (ha : a ∈ l) (hb : b ∈ l) (hne : a ≠ b) : 2 ≤ l.length := by
  match l with
  | [] => cases ha
  | [x] =>
    rw [List.mem_singleton] at ha hb
    exact absurd (ha.trans hb.symm) hne
  | x :: y :: rest => simp [List.length_cons]

theorem nodup_map_ne {α β : Type} {l : List α} {f : α → β}
    (h : (l.map f).Nodup) {a b : α} (ha : a ∈ l) (hb : b ∈ l) (hne : a ≠ b) :
    f a ≠ f b := by
  rw [List.nodup_map_iff_inj_on (h.of_map f)] at h
  exact fun he => hne (h a ha b hb he)

/-! ## Pointwise specification of successful `mapM` loops -/

theorem mapM_ok_spec {α β : Type} (f : α → Except BuildError β) (dA : α) (dB : β) :
    ∀ (l : List α) (out : List β), l.mapM f = .ok out →
      out.length = l.length ∧ ∀ i, i < l.length → f (l.getD i dA) = .ok (out.getD i dB) := by
  intro l
  induction l with
  | nil =>
    intro out h
    rw [List.mapM_nil] at h
    have h2 : (Except.ok ([] : List β) : Except BuildError (List β)) = .ok out := h
    cases h2
    exact ⟨rfl, fun i hi => absurd hi (by simp)⟩
  | cons a as ih =>
    intro out h
    rw [List.mapM_cons] at h
    cases hfa : f a with
    | error e =>
      rw [hfa] at h
      have h2 : (Except.error e : Except BuildError (List β)) = .ok out := h
      cases h2
    | ok b =>
      rw [hfa] at h
      cases hrest : as.mapM f with
      | error e =>
        rw [hrest] at h
        have h2 : (Except.error e : Except BuildError (List β)) = .ok out := h
        cases h2
      | ok bs =>
        rw [hrest] at h
        have h2 : (Except.ok (b :: bs) : Except BuildError (List β)) = .ok out := h
        cases h2
        obtain ⟨hlen, hpt⟩ := ih bs hrest
        refine ⟨by simp [hlen], fun i hi => ?_⟩
        cases i with
        | zero => simpa using hfa
        | succ j =>
          rw [List.getD_cons_succ, List.getD_cons_succ]
          exact hpt j (by simpa using hi)

theorem mapM_range_ok_spec {β : Type} (f : Nat → Except BuildError β) (dB : β)
    {m : Nat} {out : List β} (h : (List.range m).mapM f = .ok out) :
    out.length = m ∧ ∀ b, b < m → f b = .ok (out.getD b dB) := by
  obtain ⟨hlen, hpt⟩ := mapM_ok_spec f 0 dB (List.range m) out h
  refine ⟨by simpa using hlen, fun b hb => ?_⟩
  have := hpt b (by simpa using hb)
  rwa [getD_range hb] at this

/-! ## Phase 1 invariant: the returned pair records the true max bucket length -/

theorem bestFitAux_some_spec (pairs : List (Nat × Nat)) (m : Nat) (cs : Nat → Nat) :
    ∀ (fuel attempt : Nat) (best : Option (Nat × Nat)) (out : Nat × Nat),
      (∀ r, best = some r → r.2 = maxBucketLen pairs r.1 m) →
      bestFitAux pairs m cs attempt fuel best = some out →
      out.2 = maxBucketLen pairs out.1 m := by
  intro fuel
  induction fuel with
  | zero =>
    intro attempt best out hbest hout
    rw [bestFitAux] at hout
    exact hbest out hout
  | succ f ih =>
    intro attempt best out hbest hout
    rw [bestFitAux.eq_def] at hout
    dsimp only [] at hout
    by_cases h13 : maxBucketLen pairs (cs attempt % 0xffffffff) m < 13
    · rw [if_pos h13] at hout
      cases hout
      rfl
    · rw [if_neg h13] at hout
      cases best with
      | none =>
        dsimp only [] at hout
        by_cases hstop : maxBucketLen pairs (cs attempt % 0xffffffff) m < 16 ∧ 50 < attempt
        · rw [if_pos (by simp [hstop.1, hstop.2])] at hout
          cases hout
          rfl
        · rw [if_neg (by
            intro hc
            simp only [Bool.and_eq_true, decide_eq_true_eq] at hc
            exact hstop ⟨hc.1, hc.2⟩)] at hout
          exact ih (attempt + 1) _ out (fun r hr => by cases hr; rfl) hout
      | some p =>
        obtain ⟨s0, bl⟩ := p
        dsimp only [] at hout
        by_cases hlt : maxBucketLen pairs (cs attempt % 0xffffffff) m < bl
        · rw [if_pos hlt] at hout
          by_cases hstop : maxBucketLen pairs (cs attempt % 0xffffffff) m < 16 ∧ 50 < attempt
          · rw [if_pos (by simp [hstop.1, hstop.2])] at hout
            cases hout
            rfl
          · rw [if_neg (by
              intro hc
              simp only [Bool.and_eq_true, decide_eq_true_eq] at hc
              exact hstop ⟨hc.1, hc.2⟩)] at hout
            exact ih (attempt + 1) _ out (fun r hr => by cases hr; rfl) hout
        · rw [if_neg hlt] at hout
          have hbl : bl = maxBucketLen pairs s0 m := hbest (s0, bl) rfl
          by_cases hstop : bl < 16 ∧ 50 < attempt
          · rw [if_pos (by simp [hstop.1, hstop.2])] at hout
            cases hout
            exact hbl
          · rw [if_neg (by
              intro hc
              simp only [Bool.and_eq_true, decide_eq_true_eq] at hc
              exact hstop ⟨hc.1, hc.2⟩)] at hout
            exact ih (attempt + 1) _ out (fun r hr => by cases hr; exact hbl) hout

theorem bestFit_some_spec {pairs : List (Nat × Nat)} {m : Nat} {cs : Nat → Nat}
    {s0 len : Nat} (h : bestFit pairs m cs = some (s0, len)) :
    len = maxBucketLen pairs s0 m := by
  exact bestFitAux_some_spec pairs m cs 2000 0 none (s0, len) (fun r hr => by cases hr) h

/-! ## Phase 3 invariant: a found displacement seed separates the bucket -/

theorem findDispSeedAux_ok_spec (i : Nat) (mem : List (Nat × Nat)) (k cap : Nat) :
    ∀ (fuel s r : Nat), s ≤ cap →
      findDispSeedAux i mem k cap fuel s = .ok r →
      posDistinct mem k r = true ∧ r ≤ cap := by
  intro fuel
  induction fuel with
  | zero =>
    intro s r _ h
    rw [findDispSeedAux] at h
    cases h
  | succ f ih =>
    intro s r hs h
    rw [findDispSeedAux] at h
    by_cases hpd : posDistinct mem k s
    · rw [if_pos hpd] at h
      have h2 : (Except.ok s : Except BuildError Nat) = .ok r := h
      cases h2
      exact ⟨hpd, hs⟩
    · rw [if_neg hpd] at h
      by_cases hcap : cap < s + 1
      · rw [if_pos hcap] at h
        cases h
      · rw [if_neg hcap] at h
        exact ih (s + 1) r (by omega) h

theorem buildSeeds_ok_spec {pairs : List (Nat × Nat)} {seed0 m : Nat}
    {ds : List (Nat × Nat)} (h : buildSeeds pairs seed0 m = .ok ds) :
    ds.length = m ∧ ∀ b, b < m →
      (ds.getD b (0, 0)).1 = (bucketMembers pairs seed0 m b).length ∧
      ((bucketMembers pairs seed0 m b).length ≤ 1 → (ds.getD b (0, 0)).2 = 0) ∧
      (2 ≤ (bucketMembers pairs seed0 m b).length →
        posDistinct (bucketMembers pairs seed0 m b)
          (bucketMembers pairs seed0 m b).length (ds.getD b (0, 0)).2 = true ∧
        (ds.getD b (0, 0)).2 ≤ dispCap (bucketMembers pairs seed0 m b).length) := by
  unfold buildSeeds at h
  obtain ⟨hlen, hpt⟩ := mapM_range_ok_spec _ (0, 0) h
  refine ⟨hlen, fun b hb => ?_⟩
  have hb2 := hpt b hb
  dsimp only [] at hb2
  by_cases hk : (bucketMembers pairs seed0 m b).length ≤ 1
  · rw [if_pos hk] at hb2
    have h3 : ((bucketMembers pairs seed0 m b).length, 0) = ds.getD b (0, 0) :=
      Except.ok.inj hb2
    rw [← h3]
    exact ⟨rfl, fun _ => rfl, fun hge => absurd hge (by omega)⟩
  · rw [if_neg hk] at hb2
    cases hfd : findDispSeedAux b (bucketMembers pairs seed0 m b)
        (bucketMembers pairs seed0 m b).length
        (dispCap (bucketMembers pairs seed0 m b).length)
        (dispCap (bucketMembers pairs seed0 m b).length + 2) 0 with
    | error e =>
      rw [hfd] at hb2
      have h2 : (Except.error e : Except BuildError (Nat × Nat)) = .ok (ds.getD b (0, 0)) := hb2
      cases h2
    | ok s =>
      rw [hfd] at hb2
      have h3 : ((bucketMembers pairs seed0 m b).length, s) = ds.getD b (0, 0) :=
        Except.ok.inj hb2
      rw [← h3]
      obtain ⟨hpd, hcap⟩ := findDispSeedAux_ok_spec b (bucketMembers pairs seed0 m b)
        (bucketMembers pairs seed0 m b).length
        (dispCap (bucketMembers pairs seed0 m b).length)
        (dispCap (bucketMembers pairs seed0 m b).length + 2) 0 s (by omega) hfd
      exact ⟨rfl, fun hle => absurd hle (by omega), fun _ => ⟨hpd, hcap⟩⟩

/-! ## Bitmap round trip -/

theorem byte_test_helper (b0 b1 b2 b3 b4 b5 b6 b7 : Bool) (t : Nat) (ht : t < 8) :
    (((if b0 then 1 <<< 0 else 0) + ((if b1 then 1 <<< 1 else 0) + ((if b2 then 1 <<< 2 else 0) +
      ((if b3 then 1 <<< 3 else 0) + ((if b4 then 1 <<< 4 else 0) + ((if b5 then 1 <<< 5 else 0) +
      ((if b6 then 1 <<< 6 else 0) + ((if b7 then 1 <<< 7 else 0) + 0)))))))) &&& (1 <<< t) != 0)
      = [b0, b1, b2, b3, b4, b5, b6, b7].getD t false := by
  interval_cases t <;> revert b0 b1 b2 b3 b4 b5 b6 b7 <;> decide

theorem bitmapTest_mkBitmap (F : List Bool) (i : Nat) :
    bitmapTest (mkBitmap F) i = F.getD i false := by
  unfold bitmapTest mkBitmap
  have ht : i % 8 < 8 := Nat.mod_lt _ (by norm_num)
  by_cases hj : i / 8 < (F.length + 7) / 8
  · rw [getD_map_of_lt _ _ _ 0 0 (by simpa using hj), getD_range hj]
    have hrange : List.range 8 = [0, 1, 2, 3, 4, 5, 6, 7] := rfl
    rw [hrange]
    simp only [List.map_cons, List.map_nil, List.sum_cons, List.sum_nil]
    rw [byte_test_helper (F.getD (8 * (i / 8) + 0) false) (F.getD (8 * (i / 8) + 1) false)
      (F.getD (8 * (i / 8) + 2) false) (F.getD (8 * (i / 8) + 3) false)
      (F.getD (8 * (i / 8) + 4) false) (F.getD (8 * (i / 8) + 5) false)
      (F.getD (8 * (i / 8) + 6) false) (F.getD (8 * (i / 8) + 7) false) (i % 8) ht]
    obtain ⟨r, hr, hir⟩ : ∃ r, r < 8 ∧ i % 8 = r := ⟨i % 8, ht, rfl⟩
    rw [hir]
    interval_cases r <;>
      simp only [List.getD_cons_succ, List.getD_cons_zero]
    · rw [show 8 * (i / 8) + 0 = i by omega]
    · rw [show 8 * (i / 8) + 1 = i by omega]
    · rw [show 8 * (i / 8) + 2 = i by omega]
    · rw [show 8 * (i / 8) + 3 = i by omega]
    · rw [show 8 * (i / 8) + 4 = i by omega]
    · rw [show 8 * (i / 8) + 5 = i by omega]
    · rw [show 8 * (i / 8) + 6 = i by omega]
    · rw [show 8 * (i / 8) + 7 = i by omega]
  · have hlen : ((List.range ((F.length + 7) / 8)).map fun j =>
        ((List.range 8).map fun r => if F.getD (8 * j + r) false then 1 <<< r else 0).sum).length
        ≤ i / 8 := by
      simpa using (by omega : (F.length + 7) / 8 ≤ i / 8)
    rw [List.getD_eq_getElem?_getD, List.getElem?_eq_none hlen]
    have hFi : F.getD i false = false := by
      rw [List.getD_eq_getElem?_getD, List.getElem?_eq_none (by omega)]
      rfl
    rw [hFi]
    simp

/-! ## Seed-stream round trip -/

theorem mkSeedStream_cons (d : Nat × Nat) (ds : List (Nat × Nat)) :
    mkSeedStream (d :: ds) =
      (if seedOmitted d then [] else varIntEncode d.2) ++ mkSeedStream ds := by
  unfold mkSeedStream
  rw [List.map_cons, List.flatten_cons]

theorem decodeSeedsAux_spec (F : List Bool) (B : List Nat) :
    ∀ (ds : List (Nat × Nat)) (i ptr : Nat) (rest : List Nat),
      (∀ j, j < ds.length → F.getD (i + j) false = seedOmitted (ds.getD j (0, 0))) →
      B.drop ptr = mkSeedStream ds ++ rest →
      (∀ d ∈ ds, d.2 < 2 ^ 32) →
      decodeSeedsAux (some (mkBitmap F)) B ds.length i ptr
        = ds.map (fun d => if seedOmitted d then 0 else d.2) := by
  intro ds
  induction ds with
  | nil =>
    intro i ptr rest _ _ _
    rw [show ([] : List (Nat × Nat)).length = 0 from rfl, decodeSeedsAux, List.map_nil]
  | cons d ds ih =>
    intro i ptr rest hflag hdrop hlt
    rw [show (d :: ds).length = ds.length + 1 from rfl, decodeSeedsAux]
    dsimp only []
    have hbit : bitmapTest (mkBitmap F) i = seedOmitted d := by
      have h0 := hflag 0 (by simp)
      rw [Nat.add_zero] at h0
      rw [bitmapTest_mkBitmap]
      simpa using h0
    have hflag2 : ∀ j, j < ds.length →
        F.getD (i + 1 + j) false = seedOmitted (ds.getD j (0, 0)) := by
      intro j hjl
      have := hflag (j + 1) (by simpa using Nat.succ_lt_succ hjl)
      rw [show i + (j + 1) = i + 1 + j by omega] at this
      rwa [List.getD_cons_succ] at this
    have hlt2 : ∀ q ∈ ds, q.2 < 2 ^ 32 := fun q hq => hlt q (List.mem_cons_of_mem d hq)
    rw [mkSeedStream_cons] at hdrop
    cases hom : seedOmitted d with
    | true =>
      rw [hbit, hom, if_pos rfl]
      rw [if_pos hom] at hdrop
      rw [List.nil_append] at hdrop
      rw [List.map_cons, if_pos hom]
      exact congrArg _ (ih (i + 1) ptr rest hflag2 hdrop hlt2)
    | false =>
      rw [hbit, hom, if_neg (by decide)]
      rw [if_neg (by simp [hom])] at hdrop
      rw [List.append_assoc] at hdrop
      have hfuel : (varIntEncode d.2).length ≤ B.length + 1 := by
        have h1 : (B.drop ptr).length ≤ B.length := by
          rw [List.length_drop]; omega
        rw [hdrop, List.length_append] at h1
        omega
      have hsv := seedVarIntAux_spec d.2 (B.length + 1) 0 0 B
        (mkSeedStream ds ++ rest) ptr hdrop hfuel (by omega)
        (by simpa using hlt d (List.mem_cons_self d ds)) (by norm_num)
      rw [hsv]
      dsimp only []
      rw [List.map_cons, if_neg (by simp [hom])]
      have hval : 0 + d.2 * 2 ^ 0 = d.2 := by omega
      rw [hval]
      have hdrop2 : B.drop (ptr + (varIntEncode d.2).length) = mkSeedStream ds ++ rest := by
        have h2 := congrArg (List.drop (varIntEncode d.2).length) hdrop
        rw [List.drop_drop, List.drop_left] at h2
        exact h2
      exact congrArg _ (ih (i + 1) (ptr + (varIntEncode d.2).length) rest hflag2 hdrop2 hlt2)


theorem decodeSeeds_mkSeedStream (ds : List (Nat × Nat))
    (hlt : ∀ d ∈ ds, d.2 < 2 ^ 32) :
    decodeSeeds (some (mkBitmap (ds.map seedOmitted))) (mkSeedStream ds) ds.length
      = ds.map (fun d => if seedOmitted d then 0 else d.2) := by
  unfold decodeSeeds
  refine decodeSeedsAux_spec (ds.map seedOmitted) (mkSeedStream ds) ds 0 0 [] ?_ ?_ hlt
  · intro j hj
    rw [Nat.zero_add]
    exact getD_map_of_lt seedOmitted ds j (0, 0) false hj
  · rw [List.drop_zero, List.append_nil]

theorem computeM_pos (n : Nat) (level : ℚ) : 0 < computeM n level := by
  unfold computeM
  omega

theorem preHashes_snd_lt (keys : List Str) (s : Nat) :
    ∀ p ∈ preHashes keys s, p.2 < M32 := by
  intro p hp
  unfold preHashes at hp
  obtain ⟨k, -, rfl⟩ := List.mem_map.mp hp
  exact murmurHash3_32_lt k (not32 s)

theorem mem_bucketMembers {pairs : List (Nat × Nat)} {seed m : Nat} {p : Nat × Nat}
    (hp : p ∈ pairs) : p ∈ bucketMembers pairs seed m (bucketIdx p.1 p.2 seed m) := by
  unfold bucketMembers
  rw [List.mem_reverse, List.mem_filter]
  exact ⟨hp, by simp⟩

theorem bucketMembers_sub {pairs : List (Nat × Nat)} {seed m b : Nat} {p : Nat × Nat}
    (hp : p ∈ bucketMembers pairs seed m b) :
    p ∈ pairs ∧ bucketIdx p.1 p.2 seed m = b := by
  unfold bucketMembers at hp
  rw [List.mem_reverse, List.mem_filter] at hp
  exact ⟨hp.1, by simpa using hp.2⟩

theorem bucketLens_length (pairs : List (Nat × Nat)) (seed m : Nat) :
    (bucketLens pairs seed m).length = m := by
  unfold bucketLens
  rw [List.length_map, List.length_range]

theorem bucketLens_getD {pairs : List (Nat × Nat)} {seed m b : Nat} (hb : b < m) :
    (bucketLens pairs seed m).getD b 0 = (bucketMembers pairs seed m b).length := by
  unfold bucketLens
  rw [getD_map_of_lt _ _ _ 0 0 (by simpa using hb), getD_range hb]

theorem bucketMembers_nodup {pairs : List (Nat × Nat)} {seed m b : Nat}
    (h : pairs.Nodup) : (bucketMembers pairs seed m b).Nodup := by
  unfold bucketMembers
  exact List.nodup_reverse.mpr (List.Nodup.filter _ h)

theorem builtDictOf_fingerprints (keys : List Str) (level : ℚ) (vm : VMode)
    (hashSeed seed0 : Nat) (decisions : List (Nat × Nat)) :
    (builtDictOf keys level vm hashSeed seed0 decisions).fingerprints =
      (if vm = .vnone then none
       else some (buildFingerprints keys (dict0Of keys level vm hashSeed seed0 decisions) vm)) := by
  unfold builtDictOf
  by_cases hvm : vm = .vnone
  · rw [if_pos hvm, if_pos hvm]
    rfl
  · rw [if_neg hvm, if_neg hvm]

theorem ofDict_built_fields (keys : List Str) (level : ℚ) (vm : VMode)
    (hs s0 : Nat) (ds : List (Nat × Nat)) (hne : keys.length ≠ 0) :
    (MPH.ofDict (builtDictOf keys level vm hs s0 ds)).n = keys.length ∧
    (MPH.ofDict (builtDictOf keys level vm hs s0 ds)).m = computeM keys.length level ∧
    (MPH.ofDict (builtDictOf keys level vm hs s0 ds)).seed0 = s0 ∧
    (MPH.ofDict (builtDictOf keys level vm hs s0 ds)).hashSeed = hs ∧
    (MPH.ofDict (builtDictOf keys level vm hs s0 ds)).validationMode = vm ∧
    (MPH.ofDict (builtDictOf keys level vm hs s0 ds)).offsets =
      (List.range (computeM keys.length level + 1)).map
        (offsetAt (packNibbles
          (bucketLens (preHashes keys hs) s0 (computeM keys.length level)))) ∧
    (MPH.ofDict (builtDictOf keys level vm hs s0 ds)).seeds =
      decodeSeeds (some (mkBitmap (ds.map seedOmitted))) (mkSeedStream ds)
        (computeM keys.length level) ∧
    (MPH.ofDict (builtDictOf keys level vm hs s0 ds)).fingerprints =
      (if vm = .vnone then none
       else some (buildFingerprints keys (dict0Of keys level vm hs s0 ds) vm)) := by
  obtain ⟨h1, h2, h3, h4, h5, h6, h7, h8⟩ := builtDictOf_fields keys level vm hs s0 ds
  unfold MPH.ofDict
  rw [h1, if_neg hne]
  dsimp only []
  rw [h2, h3, h4, h5, h6, h7, h8, builtDictOf_fingerprints]
  refine ⟨rfl, rfl, rfl, rfl, rfl, rfl, rfl, ?_⟩
  by_cases hvm : vm = .vnone
  · simp [hvm]
  · simp [hvm]

theorem hash_built_formula (pairs : List (Nat × Nat)) (seed0 m : Nat)
    (e : MPH) (x : Str)
    (hm : 0 < m)
    (hn : e.n ≠ 0)
    (hem : e.m = m)
    (hes : e.seed0 = seed0)
    (hoffs : e.offsets = (List.range (m + 1)).map
      (offsetAt (packNibbles (bucketLens pairs seed0 m))))
    (hle15 : ∀ v ∈ bucketLens pairs seed0 m, v ≤ 15) :
    ((bucketLens pairs seed0 m).getD
        (bucketIdx (murmurHash3_32 x e.hashSeed) (murmurHash3_32 x (not32 e.hashSeed))
          seed0 m) 0 = 0 →
      e.hash x = -1) ∧
    ((bucketLens pairs seed0 m).getD
        (bucketIdx (murmurHash3_32 x e.hashSeed) (murmurHash3_32 x (not32 e.hashSeed))
          seed0 m) 0 ≠ 0 →
      (e.validationMode = .vnone ∨ e.fingerprints = none →
        e.hash x = ((slotOf pairs seed0 m e.seeds
          (murmurHash3_32 x e.hashSeed, murmurHash3_32 x (not32 e.hashSeed)) : Nat) : Int)) ∧
      (∀ fps, e.fingerprints = some fps → e.validationMode ≠ .vnone →
        e.hash x = (if fpRead e.validationMode fps
            (slotOf pairs seed0 m e.seeds
              (murmurHash3_32 x e.hashSeed, murmurHash3_32 x (not32 e.hashSeed)))
            = fpMask e.validationMode (murmurHash3_32 x FP_SEED)
          then ((slotOf pairs seed0 m e.seeds
            (murmurHash3_32 x e.hashSeed, murmurHash3_32 x (not32 e.hashSeed)) : Nat) : Int)
          else -1))) := by
  set h1 := murmurHash3_32 x e.hashSeed with hh1
  set h2 := murmurHash3_32 x (not32 e.hashSeed) with hh2
  set b := bucketIdx h1 h2 seed0 m with hbdef
  have hblt : b < m := by
    rw [hbdef]
    exact bucketIdx_lt seed0 (murmurHash3_32_lt x (not32 e.hashSeed)) hm
  have hlensl : (bucketLens pairs seed0 m).length = m := bucketLens_length pairs seed0 m
  have hoff1 : e.offsets.getD b 0 = ((bucketLens pairs seed0 m).take b).sum := by
    rw [hoffs, getD_map_of_lt _ _ _ 0 0 (by simpa using Nat.lt_succ_of_lt hblt),
      getD_range (Nat.lt_succ_of_lt hblt), offsetAt_packNibbles _ hle15]
  have hoff2 : e.offsets.getD (b + 1) 0 = ((bucketLens pairs seed0 m).take (b + 1)).sum := by
    rw [hoffs, getD_map_of_lt _ _ _ 0 0 (by simpa using Nat.succ_lt_succ hblt),
      getD_range (Nat.succ_lt_succ hblt), offsetAt_packNibbles _ hle15]
  unfold MPH.hash
  rw [if_neg hn]
  dsimp only []
  rw [hes, hem]
  rw [show (scramble h1 seed0 ^^^ h2) * m / M32 = bucketIdx h1 h2 seed0 m from rfl, ← hbdef]
  rw [hoff1, hoff2, take_succ_sum _ _ (by rw [hlensl]; exact hblt),
    Nat.add_sub_cancel_left]
  have hslot : (if (bucketLens pairs seed0 m).getD b 0 = 1
        then ((bucketLens pairs seed0 m).take b).sum
        else ((bucketLens pairs seed0 m).take b).sum +
          bucketPos (h1, h2) ((bucketLens pairs seed0 m).getD b 0) (e.seeds.getD b 0)) =
      slotOf pairs seed0 m e.seeds (h1, h2) := by
    unfold slotOf
    dsimp only []
    rw [← hbdef]
    by_cases hk1 : (bucketLens pairs seed0 m).getD b 0 = 1
    · rw [if_pos hk1, if_pos hk1, Nat.add_zero]
    · rw [if_neg hk1, if_neg hk1]
  rw [hslot]
  constructor
  · intro hk0
    rw [if_pos hk0]
  · intro hk0
    rw [if_neg hk0]
    constructor
    · intro hcase
      cases hv : e.validationMode <;> cases hf : e.fingerprints <;>
        dsimp only [] <;>
        first
          | rfl
          | (rcases hcase with hc | hc
             · rw [hv] at hc; cases hc
             · rw [hf] at hc; cases hc)
    · intro fps hf hvm
      rw [hf]
      cases hv : e.validationMode <;> dsimp only [] <;> first | rfl | (exact absurd hv hvm)

/-! ## Slot bounds and injectivity -/

theorem le_slotOf (pairs : List (Nat × Nat)) (seed0 m : Nat) (seeds : List Nat)
    (p : Nat × Nat) :
    ((bucketLens pairs seed0 m).take (bucketIdx p.1 p.2 seed0 m)).sum ≤
      slotOf pairs seed0 m seeds p := by
  unfold slotOf
  dsimp only []
  exact Nat.le_add_right _ _

theorem slotOf_lt_take_succ {pairs : List (Nat × Nat)} {seed0 m : Nat} (seeds : List Nat)
    {p : Nat × Nat} (hp : p ∈ pairs) (hblt : bucketIdx p.1 p.2 seed0 m < m) :
    slotOf pairs seed0 m seeds p <
      ((bucketLens pairs seed0 m).take (bucketIdx p.1 p.2 seed0 m + 1)).sum := by
  unfold slotOf
  dsimp only []
  rw [take_succ_sum _ _ (by rw [bucketLens_length]; exact hblt)]
  have hk1 : 1 ≤ (bucketLens pairs seed0 m).getD (bucketIdx p.1 p.2 seed0 m) 0 := by
    rw [bucketLens_getD hblt]
    exact List.length_pos_of_mem (mem_bucketMembers hp)
  by_cases hk : (bucketLens pairs seed0 m).getD (bucketIdx p.1 p.2 seed0 m) 0 = 1
  · rw [if_pos hk]
    omega
  · rw [if_neg hk]
    have hpos : bucketPos p ((bucketLens pairs seed0 m).getD (bucketIdx p.1 p.2 seed0 m) 0)
        (seeds.getD (bucketIdx p.1 p.2 seed0 m) 0) <
        (bucketLens pairs seed0 m).getD (bucketIdx p.1 p.2 seed0 m) 0 :=
      Nat.mod_lt _ (by omega)
    omega

theorem slotOf_lt {pairs : List (Nat × Nat)} {seed0 m : Nat} (seeds : List Nat)
    {p : Nat × Nat} (hp : p ∈ pairs) (hm : 0 < m)
    (hh2 : ∀ q ∈ pairs, q.2 < M32) :
    slotOf pairs seed0 m seeds p < pairs.length := by
  have hblt : bucketIdx p.1 p.2 seed0 m < m := bucketIdx_lt seed0 (hh2 p hp) hm
  have h1 := slotOf_lt_take_succ seeds hp hblt
  have h2 := take_sum_mono (bucketLens pairs seed0 m)
    (bucketIdx p.1 p.2 seed0 m + 1) (bucketLens pairs seed0 m).length
    (by rw [bucketLens_length]; omega)
  rw [List.take_length] at h2
  have h3 := bucketLens_sum (fun q hq => bucketIdx_lt seed0 (hh2 q hq) hm)
  omega

theorem slotOf_inj {pairs : List (Nat × Nat)} {seed0 m : Nat}
    {ds : List (Nat × Nat)}
    (hm : 0 < m) (hnd : pairs.Nodup)
    (hh2 : ∀ q ∈ pairs, q.2 < M32)
    (hdsl : ds.length = m)
    (hdsk : ∀ b, b < m → (ds.getD b (0, 0)).1 = (bucketMembers pairs seed0 m b).length)
    (hdsp : ∀ b, b < m → 2 ≤ (bucketMembers pairs seed0 m b).length →
      posDistinct (bucketMembers pairs seed0 m b)
        (bucketMembers pairs seed0 m b).length (ds.getD b (0, 0)).2 = true)
    {p q : Nat × Nat} (hp : p ∈ pairs) (hq : q ∈ pairs) (hne : p ≠ q) :
    slotOf pairs seed0 m (ds.map fun dd => if seedOmitted dd then 0 else dd.2) p ≠
    slotOf pairs seed0 m (ds.map fun dd => if seedOmitted dd then 0 else dd.2) q := by
  have hcross : ∀ {p1 q1 : Nat × Nat}, p1 ∈ pairs → q1 ∈ pairs →
      bucketIdx p1.1 p1.2 seed0 m < bucketIdx q1.1 q1.2 seed0 m →
      slotOf pairs seed0 m (ds.map fun dd => if seedOmitted dd then 0 else dd.2) p1 <
      slotOf pairs seed0 m (ds.map fun dd => if seedOmitted dd then 0 else dd.2) q1 := by
    intro p1 q1 hp1 hq1 hlt
    have hq1b : bucketIdx q1.1 q1.2 seed0 m < m := bucketIdx_lt seed0 (hh2 q1 hq1) hm
    have hb1 : bucketIdx p1.1 p1.2 seed0 m < m := by omega
    have h1 := @slotOf_lt_take_succ pairs seed0 m
      (ds.map fun dd => if seedOmitted dd then 0 else dd.2) p1 hp1 hb1
    have h2 := take_sum_mono (bucketLens pairs seed0 m)
      (bucketIdx p1.1 p1.2 seed0 m + 1) (bucketIdx q1.1 q1.2 seed0 m) (by omega)
    have h3 := le_slotOf pairs seed0 m
      (ds.map fun dd => if seedOmitted dd then 0 else dd.2) q1
    omega
  rcases Nat.lt_trichotomy (bucketIdx p.1 p.2 seed0 m) (bucketIdx q.1 q.2 seed0 m)
    with hlt | heq | hgt
  · exact Nat.ne_of_lt (hcross hp hq hlt)
  · -- same bucket: displacement separates the two pairs
    have hblt : bucketIdx p.1 p.2 seed0 m < m := bucketIdx_lt seed0 (hh2 p hp) hm
    have hpmem : p ∈ bucketMembers pairs seed0 m (bucketIdx p.1 p.2 seed0 m) :=
      mem_bucketMembers hp
    have hqmem : q ∈ bucketMembers pairs seed0 m (bucketIdx p.1 p.2 seed0 m) := by
      rw [heq]
      exact mem_bucketMembers hq
    have hk2 : 2 ≤ (bucketMembers pairs seed0 m (bucketIdx p.1 p.2 seed0 m)).length :=
      two_le_length_of_mem_ne hpmem hqmem hne
    have hdd1 : (ds.getD (bucketIdx p.1 p.2 seed0 m) (0, 0)).1 =
        (bucketMembers pairs seed0 m (bucketIdx p.1 p.2 seed0 m)).length :=
      hdsk _ hblt
    have hsv : (ds.map fun dd => if seedOmitted dd then 0 else dd.2).getD
        (bucketIdx p.1 p.2 seed0 m) 0 = (ds.getD (bucketIdx p.1 p.2 seed0 m) (0, 0)).2 := by
      rw [getD_map_of_lt _ _ _ (0, 0) 0 (by omega)]
      by_cases hz : (ds.getD (bucketIdx p.1 p.2 seed0 m) (0, 0)).2 = 0
      · rw [hz]
        by_cases ho : seedOmitted (ds.getD (bucketIdx p.1 p.2 seed0 m) (0, 0)) = true
        · rw [if_pos ho]
        · rw [if_neg ho]
      · have ho : seedOmitted (ds.getD (bucketIdx p.1 p.2 seed0 m) (0, 0)) = false := by
          unfold seedOmitted
          rw [hdd1]
          simp only [Bool.or_eq_false_iff, decide_eq_false_iff_not, beq_eq_false_iff_ne]
          exact ⟨by omega, hz⟩
        rw [ho]
        simp
    have hpd := hdsp _ hblt hk2
    unfold posDistinct at hpd
    have hnodup := of_decide_eq_true hpd
    have hposne := nodup_map_ne hnodup hpmem hqmem hne
    unfold slotOf
    dsimp only []
    rw [← heq]
    rw [bucketLens_getD hblt, hsv]
    rw [if_neg (by omega), if_neg (by omega)]
    intro hcontra
    exact hposne (Nat.add_left_cancel hcontra)
  · exact Nat.ne_of_gt (hcross hq hp hgt)

theorem slot_perm {pairs : List (Nat × Nat)} {seed0 m : Nat}
    {ds : List (Nat × Nat)}
    (hm : 0 < m) (hnd : pairs.Nodup)
    (hh2 : ∀ q ∈ pairs, q.2 < M32)
    (hdsl : ds.length = m)
    (hdsk : ∀ b, b < m → (ds.getD b (0, 0)).1 = (bucketMembers pairs seed0 m b).length)
    (hdsp : ∀ b, b < m → 2 ≤ (bucketMembers pairs seed0 m b).length →
      posDistinct (bucketMembers pairs seed0 m b)
        (bucketMembers pairs seed0 m b).length (ds.getD b (0, 0)).2 = true) :
    (pairs.map (slotOf pairs seed0 m
      (ds.map fun dd => if seedOmitted dd then 0 else dd.2))).Perm
      (List.range pairs.length) := by
  apply List.Subperm.perm_of_length_le
  · apply List.subperm_of_subset
    · apply List.pairwise_map.mpr
      exact List.Pairwise.imp_of_mem
        (fun {a b} ha hb hab => slotOf_inj hm hnd hh2 hdsl hdsk hdsp ha hb hab) hnd
    · intro s hs
      obtain ⟨p, hp, rfl⟩ := List.mem_map.mp hs
      rw [List.mem_range]
      exact slotOf_lt _ hp hm hh2
  · simp

/-! ## Fingerprint write/read correctness -/

theorem shiftLeft_shiftRight_self (b k : Nat) : (b <<< k) >>> k = b := by
  rw [Nat.shiftLeft_eq, Nat.shiftRight_eq_div_pow]
  exact Nat.mul_div_cancel _ (Nat.pos_pow_of_pos _ (by norm_num))

theorem land_3 (x : Nat) : x &&& 3 = x % 4 := by
  have h2 := Nat.and_pow_two_sub_one_eq_mod x 2
  simpa using h2

theorem land_255 (x : Nat) : x &&& 255 = x % 256 := by
  have h2 := Nat.and_pow_two_sub_one_eq_mod x 8
  simpa using h2

theorem field_shift_zero (f v k k2 : Nat) (hv : v < 2 ^ f)
    (hk : k2 + f ≤ k ∨ k + f ≤ k2) : ((v <<< k) >>> k2) &&& (2 ^ f - 1) = 0 := by
  rw [Nat.shiftLeft_eq, Nat.shiftRight_eq_div_pow, Nat.and_pow_two_sub_one_eq_mod]
  rcases hk with hk | hk
  · have hsplit : (2 : Nat) ^ k = 2 ^ (k - k2 - f) * 2 ^ f * 2 ^ k2 := by
      rw [← Nat.pow_add, ← Nat.pow_add]
      congr 1
      omega
    rw [hsplit, ← Nat.mul_assoc, Nat.mul_div_cancel _ (Nat.pos_pow_of_pos _ (by norm_num))]
    rw [← Nat.mul_assoc]
    first
      | exact Nat.mul_mod_left _ _
      | exact Nat.mul_mod_right _ _
  · have hsplit : (2 : Nat) ^ k2 = 2 ^ (k2 - k) * 2 ^ k := by
      rw [← Nat.pow_add]
      congr 1
      omega
    rw [hsplit, Nat.mul_div_mul_right _ _ (Nat.pos_pow_of_pos _ (by norm_num))]
    have hvz : v / 2 ^ (k2 - k) = 0 := by
      apply Nat.div_eq_of_lt
      have hle : (2 : Nat) ^ f ≤ 2 ^ (k2 - k) := Nat.pow_le_pow_right (by norm_num) (by omega)
      omega
    rw [hvz, Nat.zero_mod]

theorem getD_set_self (l : List Nat) (i x : Nat) (h : i < l.length) :
    (l.set i x).getD i 0 = x := by
  rw [List.getD_eq_getElem?_getD, List.getElem?_set_self]
  · rfl
  · exact h

theorem getD_set_ne (l : List Nat) {i j : Nat} (x : Nat) (h : i ≠ j) :
    (l.set i x).getD j 0 = l.getD j 0 := by
  rw [List.getD_eq_getElem?_getD, List.getD_eq_getElem?_getD, List.getElem?_set_ne h]

theorem getD_replicate (n i : Nat) : (List.replicate n (0 : Nat)).getD i 0 = 0 := by
  rw [List.getD_eq_getElem?_getD]
  by_cases h : i < n
  · rw [List.getElem?_eq_getElem (by simpa using h)]
    simp
  · rw [List.getElem?_eq_none (by simpa using Nat.le_of_not_lt h)]
    rfl

theorem fpWrite_length (vm : VMode) (fps : List Nat) (idx h : Nat) :
    (fpWrite vm fps idx h).length = fps.length := by
  unfold fpWrite
  cases vm <;> simp

theorem fpRead_replicate (vm : VMode) (n i : Nat) :
    fpRead vm (List.replicate n 0) i = 0 := by
  unfold fpRead
  cases vm <;> simp [getD_replicate]

theorem fpRead_fpWrite_self (vm : VMode) {fps : List Nat} {n idx : Nat} (h : Nat)
    (hlen : fps.length = fpLen vm n) (hidx : idx < n)
    (h0 : fpRead vm fps idx = 0) :
    fpRead vm (fpWrite vm fps idx h) idx = fpMask vm h := by
  cases vm with
  | v2 =>
    unfold fpRead fpWrite fpMask
    unfold fpRead at h0
    dsimp only [] at h0 ⊢
    have hin : idx / 4 < fps.length := by
      simp only [fpLen] at hlen
      omega
    rw [getD_set_self _ _ _ hin]
    rw [shiftRight_or_distrib, land_or_distrib, h0, shiftLeft_shiftRight_self]
    rw [Nat.zero_or]
    simp only [land_3]
    omega
  | v4 =>
    unfold fpRead fpWrite fpMask
    unfold fpRead at h0
    dsimp only [] at h0 ⊢
    have hin : idx / 2 < fps.length := by
      simp only [fpLen] at hlen
      omega
    by_cases hpar : idx % 2 = 0
    · rw [if_pos hpar] at h0 ⊢
      rw [if_pos hpar]
      rw [getD_set_self _ _ _ hin]
      rw [land_or_distrib, h0, Nat.zero_or]
      simp only [land_15]
      omega
    · rw [if_neg hpar] at h0 ⊢
      rw [if_neg hpar]
      rw [getD_set_self _ _ _ hin]
      rw [shiftRight_or_distrib, land_or_distrib, h0, shiftLeft4_shiftRight4]
      rw [Nat.zero_or]
      simp only [land_15]
      omega
  | v8 =>
    unfold fpRead fpWrite fpMask
    have hin : idx < fps.length := by
      simp only [fpLen] at hlen
      omega
    exact getD_set_self _ _ _ hin
  | v16 =>
    unfold fpRead fpWrite fpMask
    have hin : idx < fps.length := by
      simp only [fpLen] at hlen
      omega
    exact getD_set_self _ _ _ hin
  | v32 =>
    unfold fpRead fpWrite fpMask
    have hin : idx < fps.length := by
      simp only [fpLen] at hlen
      omega
    exact getD_set_self _ _ _ hin
  | vnone =>
    unfold fpRead fpWrite fpMask
    have hin : idx < fps.length := by
      simp only [fpLen] at hlen
      omega
    exact getD_set_self _ _ _ hin

theorem fpRead_fpWrite_ne (vm : VMode) (fps : List Nat) {idx idx2 : Nat} (h : Nat)
    (hne : idx ≠ idx2) :
    fpRead vm (fpWrite vm fps idx h) idx2 = fpRead vm fps idx2 := by
  cases vm with
  | v2 =>
    unfold fpRead fpWrite
    dsimp only []
    by_cases hbyte : idx / 4 = idx2 / 4
    · by_cases hin : idx / 4 < fps.length
      · rw [hbyte, getD_set_self _ _ _ (hbyte ▸ hin), ← hbyte]
        rw [shiftRight_or_distrib, land_or_distrib]
        have hz : (((h &&& 3) <<< (idx % 4 * 2)) >>> (idx2 % 4 * 2)) &&& 3 = 0 := by
          have h3 : h &&& 3 < 2 ^ 2 := by
            rw [land_3]
            omega
          have hfz := field_shift_zero 2 (h &&& 3) (idx % 4 * 2) (idx2 % 4 * 2) h3 (by omega)
          simpa using hfz
        rw [hz, Nat.or_zero, hbyte]
      · rw [List.set_eq_of_length_le (by omega)]
    · rw [getD_set_ne _ _ hbyte]
  | v4 =>
    unfold fpRead fpWrite
    dsimp only []
    by_cases hbyte : idx / 2 = idx2 / 2
    · have hpar : idx % 2 ≠ idx2 % 2 := by omega
      by_cases hin : idx / 2 < fps.length
      · rw [hbyte, getD_set_self _ _ _ (hbyte ▸ hin), ← hbyte]
        have h15 : h &&& 15 < 2 ^ 4 := by
          rw [land_15]
          omega
        by_cases hp2 : idx2 % 2 = 0
        · have hp1 : ¬(idx % 2 = 0) := by omega
          rw [if_pos hp2, if_pos hp2, if_neg hp1]
          rw [land_or_distrib]
          have hz : ((h &&& 15) <<< 4) &&& 15 = 0 := by
            have hfz := field_shift_zero 4 (h &&& 15) 4 0 h15 (by omega)
            simpa using hfz
          rw [hz, Nat.or_zero]
        · have hp1 : idx % 2 = 0 := by omega
          rw [if_neg hp2, if_neg hp2, if_pos hp1]
          rw [shiftRight_or_distrib, land_or_distrib]
          have hz : ((h &&& 15) >>> 4) &&& 15 = 0 := by
            have hfz := field_shift_zero 4 (h &&& 15) 0 4 h15 (by omega)
            simpa using hfz
          rw [hz, Nat.or_zero]
      · rw [List.set_eq_of_length_le (by omega)]
    · rw [getD_set_ne _ _ hbyte]
  | v8 =>
    unfold fpRead fpWrite
    exact getD_set_ne _ _ hne
  | v16 =>
    unfold fpRead fpWrite
    exact getD_set_ne _ _ hne
  | v32 =>
    unfold fpRead fpWrite
    exact getD_set_ne _ _ hne
  | vnone =>
    unfold fpRead fpWrite
    exact getD_set_ne _ _ hne

theorem fp_fold_spec (vm : VMode) (n : Nat) :
    ∀ (ps : List (Nat × Nat)) (fps : List Nat),
      fps.length = fpLen vm n →
      (∀ r ∈ ps, r.1 < n) →
      (∀ r ∈ ps, fpRead vm fps r.1 = 0) →
      (ps.map Prod.fst).Nodup →
      (∀ r ∈ ps, fpRead vm
        (ps.foldl (fun acc r => fpWrite vm acc r.1 r.2) fps) r.1 = fpMask vm r.2) ∧
      (∀ i, (∀ r ∈ ps, r.1 ≠ i) →
        fpRead vm (ps.foldl (fun acc r => fpWrite vm acc r.1 r.2) fps) i
          = fpRead vm fps i) := by
  intro ps
  induction ps with
  | nil =>
    intro fps _ _ _ _
    exact ⟨fun r hr => absurd hr (by simp), fun i _ => by rw [List.foldl_nil]⟩
  | cons r ps ih =>
    intro fps hlen hlt h0 hnd
    rw [List.foldl_cons]
    have hlen2 : (fpWrite vm fps r.1 r.2).length = fpLen vm n := by
      rw [fpWrite_length]
      exact hlen
    rw [List.map_cons, List.nodup_cons] at hnd
    have hr1 : ∀ q ∈ ps, q.1 ≠ r.1 := by
      intro q hq he
      exact hnd.1 (he ▸ List.mem_map_of_mem Prod.fst hq)
    have h02 : ∀ q ∈ ps, fpRead vm (fpWrite vm fps r.1 r.2) q.1 = 0 := by
      intro q hq
      rw [fpRead_fpWrite_ne vm fps r.2 (fun he => hr1 q hq he.symm)]
      exact h0 q (List.mem_cons_of_mem r hq)
    obtain ⟨ihA, ihB⟩ := ih (fpWrite vm fps r.1 r.2) hlen2
      (fun q hq => hlt q (List.mem_cons_of_mem r hq)) h02 hnd.2
    constructor
    · intro q hq
      rcases List.mem_cons.mp hq with he | hmem
      · subst he
        rw [ihB q.1 (fun q2 hq2 => hr1 q2 hq2)]
        exact fpRead_fpWrite_self vm q.2 hlen (hlt q (List.mem_cons_self q ps))
          (h0 q (List.mem_cons_self q ps))
      · exact ihA q hmem
    · intro i hi
      rw [ihB i (fun q hq => hi q (List.mem_cons_of_mem r hq))]
      exact fpRead_fpWrite_ne vm fps r.2 (hi r (List.mem_cons_self r ps))

/-! ## The built evaluator hashes every key to its slot -/

theorem exists_getD_of_mem {α : Type} {l : List α} {a : α} (d : α) (h : a ∈ l) :
    ∃ i, i < l.length ∧ l.getD i d = a := by
  obtain ⟨i, hi, he⟩ := List.mem_iff_getElem.mp h
  refine ⟨i, hi, ?_⟩
  rw [List.getD_eq_getElem?_getD, List.getElem?_eq_getElem hi]
  exact he

theorem buildFingerprints_eq_fold (keys : List Str) (d : Dict) (vm : VMode)
    (slot : Str → Nat)
    (hslot : ∀ key ∈ keys,
      (MPH.ofDict { d with validationMode := .vnone }).hash key = ((slot key : Nat) : Int))
    (hlt : ∀ key ∈ keys, slot key < d.n) :
    buildFingerprints keys d vm =
      (keys.map fun key => (slot key, murmurHash3_32 key FP_SEED)).foldl
        (fun acc r => fpWrite vm acc r.1 r.2) (List.replicate (fpLen vm d.n) 0) := by
  unfold buildFingerprints
  rw [List.foldl_map]
  apply List.foldl_ext
  intro acc key hkey
  dsimp only []
  rw [hslot key hkey]
  rw [if_pos ⟨Int.ofNat_nonneg _, by exact_mod_cast hlt key hkey⟩]
  congr 1

theorem built_hash_eq_slot (keys : List Str) (level : ℚ) (vm : VMode) (cs : Nat → Nat)
    (d : Dict) (hne : keys.length ≠ 0) (hb : build keys level vm cs = .ok d) :
    ∃ hs s0 ds,
      d = builtDictOf keys level vm hs s0 ds ∧
      (∀ v ∈ bucketLens (preHashes keys hs) s0 (computeM keys.length level), v ≤ 15) ∧
      (preHashes keys hs).Nodup ∧
      ((preHashes keys hs).map (slotOf (preHashes keys hs) s0 (computeM keys.length level)
        (ds.map fun dd => if seedOmitted dd then 0 else dd.2))).Perm
        (List.range keys.length) ∧
      (∀ x ∈ keys, (MPH.ofDict d).hash x =
        ((slotOf (preHashes keys hs) s0 (computeM keys.length level)
          (ds.map fun dd => if seedOmitted dd then 0 else dd.2)
          (murmurHash3_32 x hs, murmurHash3_32 x (not32 hs)) : Nat) : Int)) := by
  obtain ⟨hs, s0, mml, ds, hfs, hbf, hmml, hds, hd⟩ := build_ok_inv hne hb
  have hm : 0 < computeM keys.length level := computeM_pos _ _
  have hh2 : ∀ q ∈ preHashes keys hs, q.2 < M32 := preHashes_snd_lt keys hs
  have hplen : (preHashes keys hs).length = keys.length := by
    unfold preHashes
    simp
  have hnd : (preHashes keys hs).Nodup := by
    unfold findHashSeed at hfs
    have hspec := findHashSeedAux_ok_spec keys 101 0 hs (by omega) hfs
    have hpd := hspec.2.2.1
    unfold pairsDistinct at hpd
    exact of_decide_eq_true hpd
  have hle15 : ∀ v ∈ bucketLens (preHashes keys hs) s0 (computeM keys.length level),
      v ≤ 15 := by
    intro v hv
    have h1 := foldr_max_le (bucketLens (preHashes keys hs) s0 (computeM keys.length level)) v hv
    have h2 := bestFit_some_spec hbf
    unfold maxBucketLen at h2
    omega
  obtain ⟨hdsl, hdspec⟩ := buildSeeds_ok_spec hds
  have hdsk : ∀ b, b < computeM keys.length level → (ds.getD b (0, 0)).1 =
      (bucketMembers (preHashes keys hs) s0 (computeM keys.length level) b).length :=
    fun b hb2 => (hdspec b hb2).1
  have hdsp : ∀ b, b < computeM keys.length level →
      2 ≤ (bucketMembers (preHashes keys hs) s0 (computeM keys.length level) b).length →
      posDistinct (bucketMembers (preHashes keys hs) s0 (computeM keys.length level) b)
        (bucketMembers (preHashes keys hs) s0 (computeM keys.length level) b).length
        (ds.getD b (0, 0)).2 = true :=
    fun b hb2 hk2 => ((hdspec b hb2).2.2 hk2).1
  have hdd32 : ∀ dd ∈ ds, dd.2 < 2 ^ 32 := by
    intro dd hdd
    obtain ⟨b, hb2, hgd⟩ := exists_getD_of_mem (0, 0) hdd
    rw [hdsl] at hb2
    obtain ⟨h1, h2, h3⟩ := hdspec b hb2
    by_cases hk : (bucketMembers (preHashes keys hs) s0 (computeM keys.length level) b).length ≤ 1
    · rw [← hgd, h2 hk]
      norm_num
    · have hc := (h3 (by omega)).2
      have hcap : dispCap (bucketMembers (preHashes keys hs) s0
          (computeM keys.length level) b).length ≤ 50000000 := by
        unfold dispCap
        split <;> omega
      rw [← hgd]
      omega
  have hperm := slot_perm hm hnd hh2 hdsl hdsk hdsp
  rw [hplen] at hperm
  obtain ⟨hn_e, hm_e, hs0_e, hhs_e, hvm_e, hoffs_e, hseeds_e, hfps_e⟩ :=
    ofDict_built_fields keys level vm hs s0 ds hne
  have hseedsval : (MPH.ofDict (builtDictOf keys level vm hs s0 ds)).seeds =
      ds.map fun dd => if seedOmitted dd then 0 else dd.2 := by
    rw [hseeds_e, ← hdsl]
    exact decodeSeeds_mkSeedStream ds hdd32
  refine ⟨hs, s0, ds, hd, hle15, hnd, hperm, ?_⟩
  -- per-key slot evaluation
  have hpairmem : ∀ x ∈ keys,
      (murmurHash3_32 x hs, murmurHash3_32 x (not32 hs)) ∈ preHashes keys hs := by
    intro x hx
    unfold preHashes
    exact List.mem_map_of_mem _ hx
  have hkne : ∀ x ∈ keys,
      (bucketLens (preHashes keys hs) s0 (computeM keys.length level)).getD
        (bucketIdx (murmurHash3_32 x hs) (murmurHash3_32 x (not32 hs)) s0
          (computeM keys.length level)) 0 ≠ 0 := by
    intro x hx
    have hblt : bucketIdx (murmurHash3_32 x hs) (murmurHash3_32 x (not32 hs)) s0
        (computeM keys.length level) < computeM keys.length level :=
      bucketIdx_lt s0 (murmurHash3_32_lt x (not32 hs)) hm
    rw [bucketLens_getD hblt]
    have hpos := List.length_pos_of_mem
      (@mem_bucketMembers _ s0 (computeM keys.length level) _ (hpairmem x hx))
    dsimp only [] at hpos
    omega
  -- validation-free slot value for the temporary (and final, when vm = none) evaluator
  have htmpval : ∀ x ∈ keys,
      (MPH.ofDict (builtDictOf keys level .vnone hs s0 ds)).hash x =
        ((slotOf (preHashes keys hs) s0 (computeM keys.length level)
          (ds.map fun dd => if seedOmitted dd then 0 else dd.2)
          (murmurHash3_32 x hs, murmurHash3_32 x (not32 hs)) : Nat) : Int) := by
    intro x hx
    obtain ⟨tn, tm, ts0, ths, tvm, toffs, tseeds, tfps⟩ :=
      ofDict_built_fields keys level .vnone hs s0 ds hne
    have tseedsval : (MPH.ofDict (builtDictOf keys level .vnone hs s0 ds)).seeds =
        ds.map fun dd => if seedOmitted dd then 0 else dd.2 := by
      rw [tseeds, ← hdsl]
      exact decodeSeeds_mkSeedStream ds hdd32
    obtain ⟨tf0, tf1⟩ := hash_built_formula (preHashes keys hs) s0
      (computeM keys.length level) (MPH.ofDict (builtDictOf keys level .vnone hs s0 ds)) x
      hm (by rw [tn]; exact hne) tm ts0 toffs hle15
    rw [ths] at tf1
    have hv := (tf1 (hkne x hx)).1 (Or.inl tvm)
    rw [tseedsval] at hv
    exact hv
  intro x hx
  subst hd
  by_cases hvm : vm = .vnone
  · subst hvm
    exact htmpval x hx
  · -- validation enabled: the stored fingerprint matches
    obtain ⟨hf0, hf1⟩ := hash_built_formula (preHashes keys hs) s0
      (computeM keys.length level) (MPH.ofDict (builtDictOf keys level vm hs s0 ds)) x
      hm (by rw [hn_e]; exact hne) hm_e hs0_e hoffs_e hle15
    rw [hhs_e] at hf1
    have hfps2 : (MPH.ofDict (builtDictOf keys level vm hs s0 ds)).fingerprints =
        some (buildFingerprints keys (dict0Of keys level vm hs s0 ds) vm) := by
      rw [hfps_e, if_neg hvm]
    have hvmne : (MPH.ofDict (builtDictOf keys level vm hs s0 ds)).validationMode ≠
        .vnone := by
      rw [hvm_e]
      exact hvm
    have hcheck := (hf1 (hkne x hx)).2
      (buildFingerprints keys (dict0Of keys level vm hs s0 ds) vm) hfps2 hvmne
    rw [hseedsval, hvm_e] at hcheck
    -- the fingerprint table
    have hdict0 : ({dict0Of keys level vm hs s0 ds with validationMode := VMode.vnone} : Dict)
        = builtDictOf keys level .vnone hs s0 ds := by
      unfold builtDictOf dict0Of
      rw [if_pos rfl]
    have hdn : (dict0Of keys level vm hs s0 ds).n = keys.length := rfl
    have hfold := buildFingerprints_eq_fold keys (dict0Of keys level vm hs s0 ds) vm
      (fun key => slotOf (preHashes keys hs) s0 (computeM keys.length level)
        (ds.map fun dd => if seedOmitted dd then 0 else dd.2)
        (murmurHash3_32 key hs, murmurHash3_32 key (not32 hs)))
      (by
        intro key hkey
        rw [hdict0]
        exact htmpval key hkey)
      (by
        intro key hkey
        have hsl := @slotOf_lt _ s0 _
          (ds.map fun dd => if seedOmitted dd then 0 else dd.2)
          (murmurHash3_32 key hs, murmurHash3_32 key (not32 hs))
          (hpairmem key hkey) hm hh2
        rw [hplen] at hsl
        exact hsl)
    have hmapnd : ((keys.map fun key =>
        (slotOf (preHashes keys hs) s0 (computeM keys.length level)
          (ds.map fun dd => if seedOmitted dd then 0 else dd.2)
          (murmurHash3_32 key hs, murmurHash3_32 key (not32 hs)),
         murmurHash3_32 key FP_SEED)).map Prod.fst).Nodup := by
      rw [List.map_map]
      have hperm2 : (keys.map fun key =>
          slotOf (preHashes keys hs) s0 (computeM keys.length level)
            (ds.map fun dd => if seedOmitted dd then 0 else dd.2)
            (murmurHash3_32 key hs, murmurHash3_32 key (not32 hs))).Perm
          (List.range keys.length) := by
        have hmm : (preHashes keys hs).map (slotOf (preHashes keys hs) s0
            (computeM keys.length level)
            (ds.map fun dd => if seedOmitted dd then 0 else dd.2)) =
            keys.map fun key =>
              slotOf (preHashes keys hs) s0 (computeM keys.length level)
                (ds.map fun dd => if seedOmitted dd then 0 else dd.2)
                (murmurHash3_32 key hs, murmurHash3_32 key (not32 hs)) := by
          unfold preHashes
          rw [List.map_map]
          rfl
        rw [← hmm]
        exact hperm
      have hndr := hperm2.nodup_iff.mpr (List.nodup_range keys.length)
      exact hndr
    obtain ⟨foldA, foldB⟩ := fp_fold_spec vm keys.length
      (keys.map fun key =>
        (slotOf (preHashes keys hs) s0 (computeM keys.length level)
          (ds.map fun dd => if seedOmitted dd then 0 else dd.2)
          (murmurHash3_32 key hs, murmurHash3_32 key (not32 hs)),
         murmurHash3_32 key FP_SEED))
      (List.replicate (fpLen vm keys.length) 0)
      (by simp)
      (by
        intro r hr
        obtain ⟨key, hkey, rfl⟩ := List.mem_map.mp hr
        dsimp only []
        have hsl := @slotOf_lt _ s0 _
          (ds.map fun dd => if seedOmitted dd then 0 else dd.2)
          (murmurHash3_32 key hs, murmurHash3_32 key (not32 hs))
          (hpairmem key hkey) hm hh2
        rw [hplen] at hsl
        exact hsl)
      (fun r _ => fpRead_replicate vm (fpLen vm keys.length) r.1)
      hmapnd
    have hread := foldA
      (slotOf (preHashes keys hs) s0 (computeM keys.length level)
        (ds.map fun dd => if seedOmitted dd then 0 else dd.2)
        (murmurHash3_32 x hs, murmurHash3_32 x (not32 hs)),
       murmurHash3_32 x FP_SEED)
      (List.mem_map_of_mem _ hx)
    dsimp only [] at hread
    rw [hcheck, hfold, hdn]
    rw [if_pos hread]

/-! ## C1 — the hash is a bijection onto `[0, n)` -/

/-- C1 — for every non-empty list of distinct keys whose build succeeds,
evaluating `hash` at each key yields every integer of `[0, n−1]` exactly
once: the multiset of hash values is a permutation of `0 … n−1`. -/
theorem C1_bijection (keys : List Str) (level : ℚ) (vm : VMode) (cs : Nat → Nat)
    (d : Dict) (hne : keys ≠ []) (hdist : keys.Nodup)
    (hb : build keys level vm cs = .ok d) :
    (keys.map fun k => (MPH.ofDict d).hash k).Perm
      ((List.range keys.length).map (fun i : Nat => (i : Int))) := by
  have hne2 : keys.length ≠ 0 := fun h => hne (List.length_eq_zero.mp h)
  obtain ⟨hs, s0, ds, hd, hle15, hnd, hperm, hval⟩ :=
    built_hash_eq_slot keys level vm cs d hne2 hb
  have hmap : keys.map (fun k => (MPH.ofDict d).hash k) =
      ((preHashes keys hs).map (slotOf (preHashes keys hs) s0 (computeM keys.length level)
        (ds.map fun dd => if seedOmitted dd then 0 else dd.2))).map
          (fun s : Nat => (s : Int)) := by
    unfold preHashes
    rw [List.map_map, List.map_map]
    apply List.map_congr_left
    intro x hx
    exact hval x hx
  rw [hmap]
  exact hperm.map (fun s : Nat => (s : Int))

/-- C1 witness: the single-key build hashes its key onto `{0}`. -/
theorem C1_bijection_witness :
    ([[97]] : List Str) ≠ [] ∧ ([[97]] : List Str).Nodup ∧
    (([[97]] : List Str).map fun k =>
      (MPH.ofDict ((build [[97]] 5 .vnone fun _ => 0).toOption.getD emptyDict)).hash k).Perm
      ((List.range ([[97]] : List Str).length).map (fun i : Nat => (i : Int))) := by
  refine ⟨by decide, by decide, ?_⟩
  exact C1_bijection [[97]] 5 .vnone (fun _ => 0) _ (by decide) (by decide) (by rfl)

/-! ## C3 — hash range -/

theorem slotOf_lt_sum {pairs : List (Nat × Nat)} {seed0 m : Nat} (seeds : List Nat)
    {p : Nat × Nat} (hblt : bucketIdx p.1 p.2 seed0 m < m)
    (hk : (bucketLens pairs seed0 m).getD (bucketIdx p.1 p.2 seed0 m) 0 ≠ 0) :
    slotOf pairs seed0 m seeds p < (bucketLens pairs seed0 m).sum := by
  have hsucc : slotOf pairs seed0 m seeds p <
      ((bucketLens pairs seed0 m).take (bucketIdx p.1 p.2 seed0 m + 1)).sum := by
    unfold slotOf
    dsimp only []
    rw [take_succ_sum _ _ (by rw [bucketLens_length]; exact hblt)]
    by_cases hk1 : (bucketLens pairs seed0 m).getD (bucketIdx p.1 p.2 seed0 m) 0 = 1
    · rw [if_pos hk1]
      omega
    · rw [if_neg hk1]
      have hpos : bucketPos p ((bucketLens pairs seed0 m).getD (bucketIdx p.1 p.2 seed0 m) 0)
          (seeds.getD (bucketIdx p.1 p.2 seed0 m) 0) <
          (bucketLens pairs seed0 m).getD (bucketIdx p.1 p.2 seed0 m) 0 :=
        Nat.mod_lt _ (by omega)
      omega
  have hmono := take_sum_mono (bucketLens pairs seed0 m)
    (bucketIdx p.1 p.2 seed0 m + 1) (bucketLens pairs seed0 m).length
    (by rw [bucketLens_length]; omega)
  rw [List.take_length] at hmono
  omega

/-- C3 — COUNTEREXAMPLE.  The spec says a non-member input gets "a
consistent in-range value" when validation is off; but a non-member
whose bucket is empty gets −1 even with validation off: keys "a","b" at
level 1 give two buckets with both keys in bucket 0, and input "c" falls
into the empty bucket 1. -/
theorem C3_counterexample :
    (build [[97], [98]] 1 .vnone (fun _ => 0)).isOk = true ∧
    ((build [[97], [98]] 1 .vnone (fun _ => 0)).toOption.getD
      emptyDict).validationMode = .vnone ∧
    ([99] : Str) ∉ ([[97], [98]] : List Str) ∧
    (MPH.ofDict ((build [[97], [98]] 1 .vnone (fun _ => 0)).toOption.getD
      emptyDict)).hash [99] = -1 := by
  exact ⟨by decide, by decide, by decide, by decide⟩

/-- C3 (amended) — on every successfully built dictionary, `hash` returns
−1 or a value in `[0, n−1]`; members of the key set always get a value in
`[0, n−1]`; the dictionary built from an empty key set returns −1 on every
input.  (A non-member may get −1 even with validation off, when its bucket
is empty — see the counterexample.) -/
theorem C3_hash_range (keys : List Str) (level : ℚ) (vm : VMode) (cs : Nat → Nat)
    (d : Dict) (x : Str) (hb : build keys level vm cs = .ok d) :
    ((MPH.ofDict d).hash x = -1 ∨
      (0 ≤ (MPH.ofDict d).hash x ∧ (MPH.ofDict d).hash x < (keys.length : Int))) ∧
    (x ∈ keys → 0 ≤ (MPH.ofDict d).hash x ∧
      (MPH.ofDict d).hash x < (keys.length : Int)) ∧
    (keys = [] → (MPH.ofDict d).hash x = -1) := by
  by_cases hne : keys.length = 0
  · -- empty key set
    have hkeys : keys = [] := List.length_eq_zero.mp hne
    subst hkeys
    unfold build at hb
    dsimp only [] at hb
    rw [if_pos hne] at hb
    have hd : emptyDict = d := Except.ok.inj hb
    subst hd
    have hzero : (MPH.ofDict emptyDict).n = 0 := rfl
    have hm1 : (MPH.ofDict emptyDict).hash x = -1 := by
      unfold MPH.hash
      rw [if_pos hzero]
    exact ⟨Or.inl hm1, fun hx => absurd hx (by simp), fun _ => hm1⟩
  · obtain ⟨hs, s0, mml, ds, hfs, hbf, hmml, hds, hd⟩ := build_ok_inv hne hb
    obtain ⟨hs2, s02, ds2, hd2, hle15, hnd, hperm, hval⟩ :=
      built_hash_eq_slot keys level vm cs d hne hb
    have hm : 0 < computeM keys.length level := computeM_pos _ _
    have hh2 : ∀ q ∈ preHashes keys hs2, q.2 < M32 := preHashes_snd_lt keys hs2
    have hplen : (preHashes keys hs2).length = keys.length := by
      unfold preHashes
      simp
    have hsum : (bucketLens (preHashes keys hs2) s02 (computeM keys.length level)).sum =
        keys.length := by
      rw [bucketLens_sum (fun q hq => bucketIdx_lt s02 (hh2 q hq) hm)]
      exact hplen
    -- membership part, from the slot evaluation
    have hmem_part : x ∈ keys → 0 ≤ (MPH.ofDict d).hash x ∧
        (MPH.ofDict d).hash x < (keys.length : Int) := by
      intro hx
      rw [hval x hx]
      have hlt := @slotOf_lt _ s02 _
        (ds2.map fun dd => if seedOmitted dd then 0 else dd.2)
        (murmurHash3_32 x hs2, murmurHash3_32 x (not32 hs2))
        (by unfold preHashes; exact List.mem_map_of_mem _ hx) hm hh2
      rw [hplen] at hlt
      exact ⟨Int.ofNat_nonneg _, by exact_mod_cast hlt⟩
    -- general range part, from the evaluation formula
    obtain ⟨tn, tm, ts0, ths, tvm, toffs, tseeds, tfps⟩ :=
      ofDict_built_fields keys level vm hs2 s02 ds2 hne
    rw [← hd2] at tn tm ts0 ths tvm toffs tseeds tfps
    obtain ⟨hf0, hf1⟩ := hash_built_formula (preHashes keys hs2) s02
      (computeM keys.length level) (MPH.ofDict d) x hm (by rw [tn]; exact hne)
      tm ts0 toffs hle15
    rw [ths] at hf0 hf1
    have hrange : (MPH.ofDict d).hash x = -1 ∨
        (0 ≤ (MPH.ofDict d).hash x ∧ (MPH.ofDict d).hash x < (keys.length : Int)) := by
      by_cases hk : (bucketLens (preHashes keys hs2) s02 (computeM keys.length level)).getD
          (bucketIdx (murmurHash3_32 x hs2) (murmurHash3_32 x (not32 hs2)) s02
            (computeM keys.length level)) 0 = 0
      · exact Or.inl (hf0 hk)
      · have hblt : bucketIdx (murmurHash3_32 x hs2) (murmurHash3_32 x (not32 hs2)) s02
            (computeM keys.length level) < computeM keys.length level :=
          bucketIdx_lt s02 (murmurHash3_32_lt x (not32 hs2)) hm
        have hslt := @slotOf_lt_sum (preHashes keys hs2) _ _
          ((MPH.ofDict d).seeds) (murmurHash3_32 x hs2, murmurHash3_32 x (not32 hs2))
          hblt hk
        rw [hsum] at hslt
        by_cases hv : (MPH.ofDict d).validationMode = .vnone
        · have hval2 := (hf1 hk).1 (Or.inl hv)
          rw [hval2]
          exact Or.inr ⟨Int.ofNat_nonneg _, by exact_mod_cast hslt⟩
        · cases hfp : (MPH.ofDict d).fingerprints with
          | none =>
            have hval2 := (hf1 hk).1 (Or.inr hfp)
            rw [hval2]
            exact Or.inr ⟨Int.ofNat_nonneg _, by exact_mod_cast hslt⟩
          | some fps =>
            have hval2 := (hf1 hk).2 fps hfp hv
            rw [hval2]
            by_cases hchk : fpRead (MPH.ofDict d).validationMode fps
                (slotOf (preHashes keys hs2) s02 (computeM keys.length level)
                  (MPH.ofDict d).seeds
                  (murmurHash3_32 x hs2, murmurHash3_32 x (not32 hs2)))
                = fpMask (MPH.ofDict d).validationMode (murmurHash3_32 x FP_SEED)
            · rw [if_pos hchk]
              exact Or.inr ⟨Int.ofNat_nonneg _, by exact_mod_cast hslt⟩
            · rw [if_neg hchk]
              exact Or.inl rfl
    exact ⟨hrange, hmem_part, fun hk => absurd (congrArg List.length hk) (by simpa using hne)⟩

/-- C3 witness: the amended theorem at the two-key build and the member
input "a". -/
theorem C3_hash_range_witness :
    ((MPH.ofDict ((build [[97], [98]] 1 .vnone (fun _ => 0)).toOption.getD
        emptyDict)).hash [97] = -1 ∨
      (0 ≤ (MPH.ofDict ((build [[97], [98]] 1 .vnone (fun _ => 0)).toOption.getD
        emptyDict)).hash [97] ∧
       (MPH.ofDict ((build [[97], [98]] 1 .vnone (fun _ => 0)).toOption.getD
        emptyDict)).hash [97] < (([[97], [98]] : List Str).length : Int))) ∧
    (([97] : Str) ∈ ([[97], [98]] : List Str) →
      0 ≤ (MPH.ofDict ((build [[97], [98]] 1 .vnone (fun _ => 0)).toOption.getD
        emptyDict)).hash [97] ∧
      (MPH.ofDict ((build [[97], [98]] 1 .vnone (fun _ => 0)).toOption.getD
        emptyDict)).hash [97] < (([[97], [98]] : List Str).length : Int)) ∧
    (([[97], [98]] : List Str) = [] →
      (MPH.ofDict ((build [[97], [98]] 1 .vnone (fun _ => 0)).toOption.getD
        emptyDict)).hash [97] = -1) :=
  C3_hash_range [[97], [98]] 1 .vnone (fun _ => 0) _ [97] (by rfl)

/-! ## C4 — the 4-bit bucket-size cap -/

/-- C4 — if the best distribution Phase 1 finds still has a bucket of 16
or more, the build fails with `bucketOverflow`; and on every successful
build the unpacked 4-bit counters are all ≤ 15 and sum to `n`. -/
theorem C4_bucket_cap (keys : List Str) (level : ℚ) (vm : VMode) (cs : Nat → Nat)
    (hs s0 len : Nat) (hne : keys ≠ [])
    (hfs : findHashSeed keys = .ok hs)
    (hbf : bestFit (preHashes keys hs) (computeM keys.length level) cs = some (s0, len)) :
    (16 ≤ len → build keys level vm cs = .error (.bucketOverflow len)) ∧
    (∀ d, build keys level vm cs = .ok d →
      (∀ i, nibbleAt d.bucketSizes i ≤ 15) ∧
      ((List.range d.m).map (nibbleAt d.bucketSizes)).sum = d.n) := by
  have hne2 : keys.length ≠ 0 := fun h => hne (List.length_eq_zero.mp h)
  constructor
  · intro h16
    unfold build
    rw [if_neg hne2, hfs]
    dsimp only []
    rw [hbf]
    dsimp only []
    rw [if_pos h16]
  · intro d hb
    obtain ⟨hs2, s02, ds2, hd2, hle15, hnd, hperm, hval⟩ :=
      built_hash_eq_slot keys level vm cs d hne2 hb
    have hm : 0 < computeM keys.length level := computeM_pos _ _
    have hh2 : ∀ q ∈ preHashes keys hs2, q.2 < M32 := preHashes_snd_lt keys hs2
    obtain ⟨fn, fm2, -, -, -, fbs, -, -⟩ := builtDictOf_fields keys level vm hs2 s02 ds2
    rw [← hd2] at fn fm2 fbs
    constructor
    · intro i
      rw [fbs, nibbleAt_packNibbles _ hle15 i]
      by_cases hi : i < (bucketLens (preHashes keys hs2) s02
          (computeM keys.length level)).length
      · exact hle15 _ (by
          rw [List.getD_eq_getElem?_getD, List.getElem?_eq_getElem hi]
          exact List.getElem_mem hi)
      · rw [List.getD_eq_getElem?_getD, List.getElem?_eq_none (by omega)]
        norm_num
    · have hoff : ((List.range d.m).map (nibbleAt d.bucketSizes)).sum =
          offsetAt d.bucketSizes d.m := rfl
      rw [hoff, fbs, fm2, offsetAt_packNibbles _ hle15]
      have hlen : (bucketLens (preHashes keys hs2) s02
          (computeM keys.length level)).length = computeM keys.length level :=
        bucketLens_length _ _ _
      have htake : (bucketLens (preHashes keys hs2) s02 (computeM keys.length level)).take
          (computeM keys.length level) =
          bucketLens (preHashes keys hs2) s02 (computeM keys.length level) :=
        List.take_of_length_le (le_of_eq hlen)
      rw [htake]
      rw [bucketLens_sum (fun q hq => bucketIdx_lt s02 (hh2 q hq) hm), fn]
      unfold preHashes
      simp


/-- With the constant candidate stream and a single bucket of size 16,
every Phase 1 attempt records best `(0, 16)` and no early exit fires,
so the loop keeps that record to the end of its fuel. -/
theorem bestFitAux_const16 (pairs : List (Nat × Nat))
    (h : maxBucketLen pairs 0 1 = 16) :
    ∀ (fuel attempt : Nat),
      bestFitAux pairs 1 (fun _ => 0) attempt fuel (some (0, 16)) = some (0, 16) := by
  intro fuel
  induction fuel with
  | zero => intro attempt; rfl
  | succ n ih =>
    intro attempt
    rw [bestFitAux]
    dsimp only []
    rw [Nat.zero_mod, h]
    rw [if_neg (by norm_num)]
    rw [if_neg (lt_irrefl 16)]
    rw [if_neg (by simp)]
    exact ih attempt.succ

theorem bestFit_const16 (pairs : List (Nat × Nat))
    (h : maxBucketLen pairs 0 1 = 16) :
    bestFit pairs 1 (fun _ => 0) = some (0, 16) := by
  unfold bestFit
  rw [bestFitAux]
  dsimp only []
  rw [Nat.zero_mod, h]
  rw [if_neg (by norm_num)]
  rw [if_neg (by simp)]
  exact bestFitAux_const16 pairs h 1999 1

/-- C4 witness: sixteen one-character keys at level 100 give a single
bucket of size 16, so Phase 1 records best `maxLen = 16` and the build
fails with `bucketOverflow 16`. -/
theorem C4_bucket_cap_witness :
    ((16 : Nat) ≤ 16 → build [[97], [98], [99], [100], [101], [102], [103], [104],
      [105], [106], [107], [108], [109], [110], [111], [112]] 100 .vnone (fun _ => 0) =
      .error (.bucketOverflow 16)) ∧
    (∀ d, build [[97], [98], [99], [100], [101], [102], [103], [104],
      [105], [106], [107], [108], [109], [110], [111], [112]] 100 .vnone (fun _ => 0) =
      .ok d →
      (∀ i, nibbleAt d.bucketSizes i ≤ 15) ∧
      ((List.range d.m).map (nibbleAt d.bucketSizes)).sum = d.n) :=
  C4_bucket_cap [[97], [98], [99], [100], [101], [102], [103], [104],
      [105], [106], [107], [108], [109], [110], [111], [112]] 100 .vnone (fun _ => 0)
    0 0 16 (by decide) (by rfl)
    (by
      rw [show computeM [[97], [98], [99], [100], [101], [102], [103], [104],
        [105], [106], [107], [108], [109], [110], [111], [112]].length 100 = 1 from by rfl]
      exact bestFit_const16 _ (by rfl))

/-! ## CBOR decode specifications (C2) -/

theorem except_bind_ok {alpha beta : Type} (a : alpha)
    (f : alpha → Except DecodeError beta) :
    (Except.ok a : Except DecodeError alpha) >>= f = f a := rfl

theorem land_31 (x : Nat) : x &&& 31 = x % 32 := by
  have h2 := Nat.and_pow_two_sub_one_eq_mod x 5
  simpa using h2

theorem drop_advance {buf seg rest : List Nat} {pos : Nat}
    (h : buf.drop pos = seg ++ rest) : buf.drop (pos + seg.length) = rest := by
  have h2 := congrArg (List.drop seg.length) h
  rw [List.drop_drop, List.drop_left] at h2
  exact h2

theorem getU8_of_drop {buf rest : List Nat} {pos b : Nat}
    (h : buf.drop pos = b :: rest) : getU8 buf pos = .ok b := by
  obtain ⟨hb, -⟩ := drop_eq_cons_getD h
  have hlen := congrArg List.length h
  rw [List.length_drop, List.length_cons] at hlen
  unfold getU8
  rw [if_pos (by omega), hb]

theorem getU16_of_drop {buf rest : List Nat} {pos b0 b1 : Nat}
    (h : buf.drop pos = b0 :: b1 :: rest) : getU16 buf pos = .ok (b0 * 256 + b1) := by
  obtain ⟨hb0, hr⟩ := drop_eq_cons_getD h
  obtain ⟨hb1, -⟩ := drop_eq_cons_getD hr
  have hlen := congrArg List.length h
  rw [List.length_drop, List.length_cons, List.length_cons] at hlen
  unfold getU16
  rw [if_pos (by omega), hb0, hb1]

theorem getU32_of_drop {buf rest : List Nat} {pos b0 b1 b2 b3 : Nat}
    (h : buf.drop pos = b0 :: b1 :: b2 :: b3 :: rest) :
    getU32 buf pos = .ok (b0 * 16777216 + b1 * 65536 + b2 * 256 + b3) := by
  obtain ⟨hb0, hr0⟩ := drop_eq_cons_getD h
  obtain ⟨hb1, hr1⟩ := drop_eq_cons_getD hr0
  obtain ⟨hb2, hr2⟩ := drop_eq_cons_getD hr1
  obtain ⟨hb3, -⟩ := drop_eq_cons_getD hr2
  have hlen := congrArg List.length h
  rw [List.length_drop, List.length_cons, List.length_cons, List.length_cons,
    List.length_cons] at hlen
  unfold getU32
  rw [if_pos (by omega), hb0, hb1]
  rw [show pos + 1 + 1 = pos + 2 by omega] at hb2
  rw [show pos + 1 + 1 + 1 = pos + 3 by omega] at hb3
  rw [hb2, hb3]


theorem cborDecode_int_spec (v : Nat) (hv : v < 2 ^ 32) (buf rest : List Nat)
    (pos fuel : Nat) (hdrop : buf.drop pos = cborEncodeInt v ++ rest) :
    cborDecode buf (fuel + 1) pos = .ok (.cint v, pos + (cborEncodeInt v).length) := by
  unfold cborEncodeInt at hdrop ⊢
  by_cases h24 : v < 24
  · rw [if_pos h24] at hdrop ⊢
    rw [List.cons_append, List.nil_append] at hdrop
    rw [cborDecode, getU8_of_drop hdrop, except_bind_ok]
    dsimp only []
    have hmaj : v &&& 0xe0 = 0 :=
      land_shiftLeft_eq_zero 7 5 (show v < 2 ^ 5 by omega)
    have hadd : v &&& 0x1f = v := by
      rw [show (0x1f : Nat) = 31 from rfl, land_31]
      omega
    rw [hmaj, hadd]
    have hrl : cborReadLen buf v (pos + 1) = .ok (v, pos + 1) := by
      unfold cborReadLen
      rw [if_pos h24]
    rw [hrl, except_bind_ok]
    dsimp only []
    rw [if_pos rfl]
    rfl
  · rw [if_neg h24] at hdrop ⊢
    by_cases h255 : v ≤ 0xff
    · rw [if_pos h255] at hdrop ⊢
      rw [List.cons_append, List.cons_append, List.nil_append] at hdrop
      obtain ⟨-, hr0⟩ := drop_eq_cons_getD hdrop
      rw [cborDecode, getU8_of_drop hdrop, except_bind_ok]
      dsimp only []
      rw [show (24 : Nat) &&& 0xe0 = 0 from rfl, show (24 : Nat) &&& 0x1f = 24 from rfl]
      have hrl : cborReadLen buf 24 (pos + 1) = .ok (v, pos + 2) := by
        unfold cborReadLen
        rw [if_neg (by omega), if_pos rfl, getU8_of_drop hr0]
        rfl
      rw [hrl, except_bind_ok]
      dsimp only []
      rw [if_pos rfl]
      rfl
    · rw [if_neg h255] at hdrop ⊢
      by_cases h16 : v ≤ 0xffff
      · rw [if_pos h16] at hdrop ⊢
        rw [List.cons_append, List.cons_append, List.cons_append,
          List.nil_append] at hdrop
        obtain ⟨-, hr0⟩ := drop_eq_cons_getD hdrop
        rw [cborDecode, getU8_of_drop hdrop, except_bind_ok]
        dsimp only []
        rw [show (25 : Nat) &&& 0xe0 = 0 from rfl, show (25 : Nat) &&& 0x1f = 25 from rfl]
        have hval : (v >>> 8) * 256 + (v &&& 255) = v := by
          rw [Nat.shiftRight_eq_div_pow, land_255]
          have h28 : (2 : Nat) ^ 8 = 256 := by norm_num
          rw [h28]
          omega
        have hrl : cborReadLen buf 25 (pos + 1) = .ok (v, pos + 3) := by
          unfold cborReadLen
          rw [if_neg (by omega), if_neg (by omega), if_pos rfl, getU16_of_drop hr0]
          dsimp only [Except.map]
          rw [hval]
        rw [hrl, except_bind_ok]
        dsimp only []
        rw [if_pos rfl]
        rfl
      · rw [if_neg h16] at hdrop ⊢
        rw [List.cons_append, List.cons_append, List.cons_append, List.cons_append,
          List.cons_append, List.nil_append] at hdrop
        obtain ⟨-, hr0⟩ := drop_eq_cons_getD hdrop
        rw [cborDecode, getU8_of_drop hdrop, except_bind_ok]
        dsimp only []
        rw [show (26 : Nat) &&& 0xe0 = 0 from rfl, show (26 : Nat) &&& 0x1f = 26 from rfl]
        have hval : ((v >>> 24) &&& 255) * 16777216 + ((v >>> 16) &&& 255) * 65536 +
            ((v >>> 8) &&& 255) * 256 + (v &&& 255) = v := by
          rw [land_255, land_255, land_255, land_255]
          rw [Nat.shiftRight_eq_div_pow, Nat.shiftRight_eq_div_pow,
            Nat.shiftRight_eq_div_pow]
          rw [show (2 : Nat) ^ 24 = 16777216 by norm_num,
            show (2 : Nat) ^ 16 = 65536 by norm_num,
            show (2 : Nat) ^ 8 = 256 by norm_num]
          omega
        have hrl : cborReadLen buf 26 (pos + 1) = .ok (v, pos + 5) := by
          unfold cborReadLen
          rw [if_neg (by omega), if_neg (by omega), if_neg (by omega), if_pos rfl,
            getU32_of_drop hr0]
          dsimp only [Except.map]
          rw [hval]
        rw [hrl, except_bind_ok]
        dsimp only []
        rw [if_pos rfl]
        rfl

theorem cborDecode_null_spec (buf rest : List Nat) (pos fuel : Nat)
    (hdrop : buf.drop pos = 0xf6 :: rest) :
    cborDecode buf (fuel + 1) pos = .ok (.cnull, pos + 1) := by
  rw [cborDecode, getU8_of_drop hdrop, except_bind_ok]
  dsimp only []
  rw [show (0xf6 : Nat) &&& 0xe0 = 0xe0 from rfl, show (0xf6 : Nat) &&& 0x1f = 22 from rfl]
  have hrl : cborReadLen buf 22 (pos + 1) = .ok (22, pos + 1) := by
    unfold cborReadLen
    rw [if_pos (by omega)]
  rw [hrl, except_bind_ok]
  dsimp only []
  rw [if_neg (by decide), if_neg (by decide), if_neg (by decide), if_pos rfl]

theorem cborDecode_bytes_spec (bytes : List Nat) (hlen : bytes.length < 2 ^ 32)
    (buf rest : List Nat) (pos fuel : Nat)
    (hdrop : buf.drop pos = cborEncodeBytes bytes ++ rest) :
    cborDecode buf (fuel + 1) pos =
      .ok (.cbytes bytes, pos + (cborEncodeBytes bytes).length) := by
  unfold cborEncodeBytes cborBytesHead at hdrop ⊢
  by_cases h24 : bytes.length < 24
  · rw [if_pos h24] at hdrop ⊢
    have hdropc : buf.drop pos = (0x40 ||| bytes.length) :: (bytes ++ rest) := by
      rw [List.append_assoc] at hdrop
      exact hdrop
    have hdata : buf.drop (pos + 1) = bytes ++ rest := (drop_eq_cons_getD hdropc).2
    rw [cborDecode, getU8_of_drop hdropc, except_bind_ok]
    dsimp only []
    have hlen32 : bytes.length < 32 := by omega
    have hmaj : (0x40 ||| bytes.length) &&& 0xe0 = 0x40 := by
      rw [land_or_distrib, show (0x40 : Nat) &&& 0xe0 = 0x40 from rfl,
        show (0xe0 : Nat) = 7 <<< 5 from rfl,
        land_shiftLeft_eq_zero 7 5 (show bytes.length < 2 ^ 5 by omega)]
      rfl
    have hadd : (0x40 ||| bytes.length) &&& 0x1f = bytes.length := by
      rw [land_or_distrib, show (0x40 : Nat) &&& 0x1f = 0 from rfl,
        show (0x1f : Nat) = 31 from rfl, land_31, Nat.mod_eq_of_lt hlen32]
      rw [Nat.zero_or]
    rw [hmaj, hadd]
    have hrl : cborReadLen buf bytes.length (pos + 1) = .ok (bytes.length, pos + 1) := by
      unfold cborReadLen
      rw [if_pos h24]
    rw [hrl, except_bind_ok]
    dsimp only []
    rw [if_neg (by decide), if_pos rfl]
    rw [hdata, List.take_left]
    simp only [Except.ok.injEq, Prod.mk.injEq, List.length_append, List.length_cons,
      List.length_nil, true_and]
    omega
  · rw [if_neg h24] at hdrop ⊢
    by_cases h255 : bytes.length ≤ 0xff
    · rw [if_pos h255] at hdrop ⊢
      have hdropc : buf.drop pos =
          (0x40 ||| 24) :: bytes.length :: (bytes ++ rest) := by
        rw [List.append_assoc] at hdrop
        exact hdrop
      obtain ⟨-, hr0⟩ := drop_eq_cons_getD hdropc
      have hdata : buf.drop (pos + 1 + 1) = bytes ++ rest := (drop_eq_cons_getD hr0).2
      rw [cborDecode, getU8_of_drop hdropc, except_bind_ok]
      dsimp only []
      rw [show (0x40 ||| 24 : Nat) &&& 0xe0 = 0x40 from rfl,
        show (0x40 ||| 24 : Nat) &&& 0x1f = 24 from rfl]
      have hrl : cborReadLen buf 24 (pos + 1) = .ok (bytes.length, pos + 2) := by
        unfold cborReadLen
        rw [if_neg (by omega), if_pos rfl, getU8_of_drop hr0]
        rfl
      rw [hrl, except_bind_ok]
      dsimp only []
      rw [if_neg (by decide), if_pos rfl]
      rw [show pos + 1 + 1 = pos + 2 from by omega] at hdata
      rw [hdata, List.take_left]
      simp only [Except.ok.injEq, Prod.mk.injEq, List.length_append, List.length_cons,
        List.length_nil, true_and]
      omega
    · by_cases h16 : bytes.length ≤ 0xffff
      · rw [if_neg h255, if_pos h16] at hdrop ⊢
        have hdropc : buf.drop pos = (0x40 ||| 25) :: bytes.length >>> 8 ::
            (bytes.length &&& 255) :: (bytes ++ rest) := by
          rw [List.append_assoc] at hdrop
          exact hdrop
        obtain ⟨-, hr0⟩ := drop_eq_cons_getD hdropc
        obtain ⟨-, hr1⟩ := drop_eq_cons_getD hr0
        have hdata : buf.drop (pos + 1 + 1 + 1) = bytes ++ rest :=
          (drop_eq_cons_getD hr1).2
        rw [cborDecode, getU8_of_drop hdropc, except_bind_ok]
        dsimp only []
        rw [show (0x40 ||| 25 : Nat) &&& 0xe0 = 0x40 from rfl,
          show (0x40 ||| 25 : Nat) &&& 0x1f = 25 from rfl]
        have hval : (bytes.length >>> 8) * 256 + (bytes.length &&& 255) =
            bytes.length := by
          rw [Nat.shiftRight_eq_div_pow, land_255, show (2 : Nat) ^ 8 = 256 by norm_num]
          omega
        have hrl : cborReadLen buf 25 (pos + 1) = .ok (bytes.length, pos + 3) := by
          unfold cborReadLen
          rw [if_neg (by omega), if_neg (by omega), if_pos rfl, getU16_of_drop hr0]
          dsimp only [Except.map]
          rw [hval]
        rw [hrl, except_bind_ok]
        dsimp only []
        rw [if_neg (by decide), if_pos rfl]
        rw [show pos + 1 + 1 + 1 = pos + 3 from by omega] at hdata
        rw [hdata, List.take_left]
        simp only [Except.ok.injEq, Prod.mk.injEq, List.length_append, List.length_cons,
          List.length_nil, true_and]
        omega
      · rw [if_neg h255, if_neg h16] at hdrop ⊢
        have hdropc : buf.drop pos = (0x40 ||| 26) ::
            ((bytes.length >>> 24) &&& 255) :: ((bytes.length >>> 16) &&& 255) ::
            ((bytes.length >>> 8) &&& 255) :: (bytes.length &&& 255) ::
            (bytes ++ rest) := by
          rw [List.append_assoc] at hdrop
          exact hdrop
        obtain ⟨-, hr0⟩ := drop_eq_cons_getD hdropc
        obtain ⟨-, hr1⟩ := drop_eq_cons_getD hr0
        obtain ⟨-, hr2⟩ := drop_eq_cons_getD hr1
        obtain ⟨-, hr3⟩ := drop_eq_cons_getD hr2
        have hdata : buf.drop (pos + 1 + 1 + 1 + 1 + 1) = bytes ++ rest :=
          (drop_eq_cons_getD hr3).2
        rw [cborDecode, getU8_of_drop hdropc, except_bind_ok]
        dsimp only []
        rw [show (0x40 ||| 26 : Nat) &&& 0xe0 = 0x40 from rfl,
          show (0x40 ||| 26 : Nat) &&& 0x1f = 26 from rfl]
        have hval : ((bytes.length >>> 24) &&& 255) * 16777216 +
            ((bytes.length >>> 16) &&& 255) * 65536 +
            ((bytes.length >>> 8) &&& 255) * 256 + (bytes.length &&& 255) =
            bytes.length := by
          rw [land_255, land_255, land_255, land_255]
          rw [Nat.shiftRight_eq_div_pow, Nat.shiftRight_eq_div_pow,
            Nat.shiftRight_eq_div_pow]
          rw [show (2 : Nat) ^ 24 = 16777216 by norm_num,
            show (2 : Nat) ^ 16 = 65536 by norm_num,
            show (2 : Nat) ^ 8 = 256 by norm_num]
          omega
        have hrl : cborReadLen buf 26 (pos + 1) = .ok (bytes.length, pos + 5) := by
          unfold cborReadLen
          rw [if_neg (by omega), if_neg (by omega), if_neg (by omega), if_pos rfl,
            getU32_of_drop hr0]
          dsimp only [Except.map]
          rw [hval]
        rw [hrl, except_bind_ok]
        dsimp only []
        rw [if_neg (by decide), if_pos rfl]
        rw [show pos + 1 + 1 + 1 + 1 + 1 = pos + 5 from by omega] at hdata
        rw [hdata, List.take_left]
        simp only [Except.ok.injEq, Prod.mk.injEq, List.length_append, List.length_cons,
          List.length_nil, true_and]
        omega

theorem cborItems_cons (dec : Nat → Except DecodeError (CVal × Nat))
    (cnt pos pos2 pos3 : Nat) (v : CVal) (vs : List CVal)
    (h1 : dec pos = .ok (v, pos2))
    (h2 : cborItemsWith dec cnt pos2 = .ok (vs, pos3)) :
    cborItemsWith dec (cnt + 1) pos = .ok (v :: vs, pos3) := by
  rw [cborItemsWith, h1, except_bind_ok]
  dsimp only []
  rw [h2, except_bind_ok]

theorem cborDecode_arr9_spec (buf rest : List Nat) (pos fuel : Nat)
    (items : List CVal) (pos2 : Nat)
    (hdrop : buf.drop pos = 0x89 :: rest)
    (hitems : cborItemsWith (cborDecode buf fuel) 9 (pos + 1) = .ok (items, pos2)) :
    cborDecode buf (fuel + 1) pos = .ok (.carr items, pos2) := by
  rw [cborDecode, getU8_of_drop hdrop, except_bind_ok]
  dsimp only []
  rw [show (0x89 : Nat) &&& 0xe0 = 0x80 from rfl, show (0x89 : Nat) &&& 0x1f = 9 from rfl]
  have hrl : cborReadLen buf 9 (pos + 1) = .ok (9, pos + 1) := by
    unfold cborReadLen
    rw [if_pos (by omega)]
  rw [hrl, except_bind_ok]
  dsimp only []
  rw [if_neg (by decide), if_neg (by decide), if_pos rfl, hitems]
  rfl

/-! ## Size bounds of the serialised fields (C2) -/

theorem varIntEncode_length_le : ∀ (k v : Nat), 0 < k → v < 2 ^ (7 * k) →
    (varIntEncode v).length ≤ k := by
  intro k
  induction k with
  | zero => omega
  | succ j ih =>
    intro v _ hv
    rw [varIntEncode_eq]
    by_cases h128 : 128 ≤ v
    · have hj : 0 < j := by
        rcases Nat.eq_zero_or_pos j with hj0 | hj0
        · subst hj0
          simp at hv
          omega
        · exact hj0
      rw [if_pos h128, List.length_cons]
      have hv2 : v / 128 < 2 ^ (7 * j) := by
        have h1 : v < 2 ^ (7 * j) * 128 := by
          rw [show (128 : Nat) = 2 ^ 7 by norm_num, ← Nat.pow_add]
          rw [show 7 * j + 7 = 7 * (j + 1) by ring]
          exact hv
        omega
      have := ih (v / 128) hj hv2
      omega
    · rw [if_neg h128]
      simp

theorem mkSeedStream_length_le (ds : List (Nat × Nat))
    (hlt : ∀ d ∈ ds, d.2 < 2 ^ 32) :
    (mkSeedStream ds).length ≤ 5 * ds.length := by
  induction ds with
  | nil => simp [mkSeedStream]
  | cons d rest ih =>
    rw [mkSeedStream_cons, List.length_append]
    have hrest := ih (fun q hq => hlt q (List.mem_cons_of_mem d hq))
    have hhead : (if seedOmitted d then [] else varIntEncode d.2).length ≤ 5 := by
      by_cases ho : seedOmitted d
      · simp [ho]
      · rw [if_neg ho]
        apply varIntEncode_length_le 5 d.2 (by norm_num)
        have := hlt d (List.mem_cons_self d rest)
        calc d.2 < 2 ^ 32 := this
          _ ≤ 2 ^ (7 * 5) := Nat.pow_le_pow_right (by norm_num) (by norm_num)
    rw [List.length_cons]
    omega

theorem packNibbles_length : ∀ l : List Nat,
    (packNibbles l).length = (l.length + 1) / 2 := by
  intro l
  induction l using packNibbles.induct with
  | case1 => rfl
  | case2 a =>
    simp [packNibbles]
  | case3 a b rest ih =>
    rw [packNibbles, List.length_cons, ih]
    simp only [List.length_cons]
    omega

theorem mkBitmap_length (flags : List Bool) :
    (mkBitmap flags).length = (flags.length + 7) / 8 := by
  unfold mkBitmap
  rw [List.length_map, List.length_range]

theorem bestFitAux_seed_lt (pairs : List (Nat × Nat)) (m : Nat) (cs : Nat → Nat) :
    ∀ (fuel attempt : Nat) (best : Option (Nat × Nat)) (out : Nat × Nat),
      (∀ r, best = some r → r.1 < 0xffffffff) →
      bestFitAux pairs m cs attempt fuel best = some out →
      out.1 < 0xffffffff := by
  intro fuel
  induction fuel with
  | zero =>
    intro attempt best out hbest hout
    rw [bestFitAux] at hout
    exact hbest out hout
  | succ f ih =>
    intro attempt best out hbest hout
    rw [bestFitAux.eq_def] at hout
    dsimp only [] at hout
    have hmod : cs attempt % 0xffffffff < 0xffffffff := Nat.mod_lt _ (by norm_num)
    by_cases h13 : maxBucketLen pairs (cs attempt % 0xffffffff) m < 13
    · rw [if_pos h13] at hout
      cases hout
      exact hmod
    · rw [if_neg h13] at hout
      cases best with
      | none =>
        dsimp only [] at hout
        by_cases hstop : maxBucketLen pairs (cs attempt % 0xffffffff) m < 16 ∧ 50 < attempt
        · rw [if_pos (by simp [hstop.1, hstop.2])] at hout
          cases hout
          exact hmod
        · rw [if_neg (by
            intro hc
            simp only [Bool.and_eq_true, decide_eq_true_eq] at hc
            exact hstop ⟨hc.1, hc.2⟩)] at hout
          exact ih (attempt + 1) _ out (fun r hr => by cases hr; exact hmod) hout
      | some p =>
        obtain ⟨s0, bl⟩ := p
        dsimp only [] at hout
        have hs0 : s0 < 0xffffffff := hbest (s0, bl) rfl
        by_cases hlt : maxBucketLen pairs (cs attempt % 0xffffffff) m < bl
        · rw [if_pos hlt] at hout
          by_cases hstop : maxBucketLen pairs (cs attempt % 0xffffffff) m < 16 ∧ 50 < attempt
          · rw [if_pos (by simp [hstop.1, hstop.2])] at hout
            cases hout
            exact hmod
          · rw [if_neg (by
              intro hc
              simp only [Bool.and_eq_true, decide_eq_true_eq] at hc
              exact hstop ⟨hc.1, hc.2⟩)] at hout
            exact ih (attempt + 1) _ out (fun r hr => by cases hr; exact hmod) hout
        · rw [if_neg hlt] at hout
          by_cases hstop : bl < 16 ∧ 50 < attempt
          · rw [if_pos (by simp [hstop.1, hstop.2])] at hout
            cases hout
            exact hs0
          · rw [if_neg (by
              intro hc
              simp only [Bool.and_eq_true, decide_eq_true_eq] at hc
              exact hstop ⟨hc.1, hc.2⟩)] at hout
            exact ih (attempt + 1) _ out (fun r hr => by cases hr; exact hs0) hout

theorem bestFit_seed_lt {pairs : List (Nat × Nat)} {m : Nat} {cs : Nat → Nat}
    {s0 len : Nat} (h : bestFit pairs m cs = some (s0, len)) : s0 < 0xffffffff :=
  bestFitAux_seed_lt pairs m cs 2000 0 none (s0, len) (fun r hr => by cases hr) h

theorem adjustedRate_ge_one (n : Nat) (level : ℚ) (hlevel : 1 ≤ level) :
    1 ≤ adjustedRate n level := by
  rw [adjustedRate_eq]
  by_cases h5 : 500000 < n
  · rw [if_pos h5]
    exact le_max_left _ _
  · rw [if_neg h5]
    exact hlevel

theorem computeM_le (n : Nat) (level : ℚ) (hlevel : 1 ≤ level) :
    computeM n level ≤ max 1 n := by
  rw [computeM_eq]
  have hrate := adjustedRate_ge_one n level hlevel
  have hdiv : (n : ℚ) / adjustedRate n level ≤ (n : ℚ) :=
    div_le_self (by positivity) hrate
  have hceil : ⌈(n : ℚ) / adjustedRate n level⌉ ≤ (n : Int) := by
    rw [Int.ceil_le]
    exact_mod_cast hdiv
  have htn : (ceilQ ((n : ℚ) / adjustedRate n level)).toNat ≤ n := by
    rw [ceilQ_eq_ceil]
    omega
  omega

theorem foldl_preserve {α β : Type} (P : β → Prop) (f : β → α → β)
    (hstep : ∀ b a, P b → P (f b a)) :
    ∀ (l : List α) (b : β), P b → P (l.foldl f b) := by
  intro l
  induction l with
  | nil => intro b hb; exact hb
  | cons a as ih =>
    intro b hb
    rw [List.foldl_cons]
    exact ih (f b a) (hstep b a hb)

theorem buildFingerprints_length (keys : List Str) (d : Dict) (vm : VMode) :
    (buildFingerprints keys d vm).length = fpLen vm d.n := by
  unfold buildFingerprints
  have := foldl_preserve (fun fps : List Nat => fps.length = fpLen vm d.n)
    (fun fps key =>
      let idx := (MPH.ofDict { d with validationMode := .vnone }).hash key
      if 0 ≤ idx ∧ idx < (d.n : Int) then
        fpWrite vm fps idx.toNat (murmurHash3_32 key FP_SEED)
      else fps)
    (by
      intro fps key hlen
      dsimp only []
      by_cases hg : 0 ≤ (MPH.ofDict { d with validationMode := .vnone }).hash key ∧
          (MPH.ofDict { d with validationMode := .vnone }).hash key < (d.n : Int)
      · rw [if_pos hg, fpWrite_length]
        exact hlen
      · rw [if_neg hg]
        exact hlen)
    keys (List.replicate (fpLen vm d.n) 0) (by simp)
  exact this

theorem buildFingerprints_bound (keys : List Str) (d : Dict) (vm : VMode) (B : Nat)
    (hB : 0 < B)
    (hw : ∀ (fps : List Nat) (idx h : Nat), (∀ y ∈ fps, y < B) →
      ∀ y ∈ fpWrite vm fps idx h, y < B) :
    ∀ y ∈ buildFingerprints keys d vm, y < B := by
  unfold buildFingerprints
  have := foldl_preserve (fun fps : List Nat => ∀ y ∈ fps, y < B)
    (fun fps key =>
      let idx := (MPH.ofDict { d with validationMode := .vnone }).hash key
      if 0 ≤ idx ∧ idx < (d.n : Int) then
        fpWrite vm fps idx.toNat (murmurHash3_32 key FP_SEED)
      else fps)
    (by
      intro fps key hmem
      dsimp only []
      by_cases hg : 0 ≤ (MPH.ofDict { d with validationMode := .vnone }).hash key ∧
          (MPH.ofDict { d with validationMode := .vnone }).hash key < (d.n : Int)
      · rw [if_pos hg]
        exact hw fps _ _ hmem
      · rw [if_neg hg]
        exact hmem)
    keys (List.replicate (fpLen vm d.n) 0)
    (by
      intro y hy
      rw [List.eq_of_mem_replicate hy]
      exact hB)
  exact this

theorem toLE2_length (xs : List Nat) : (toLE2 xs).length = 2 * xs.length := by
  unfold toLE2
  induction xs with
  | nil => simp
  | cons x rest ih =>
    rw [List.map_cons, List.flatten_cons, List.length_append, ih]
    simp
    omega

theorem toLE4_length (xs : List Nat) : (toLE4 xs).length = 4 * xs.length := by
  unfold toLE4
  induction xs with
  | nil => simp
  | cons x rest ih =>
    rw [List.map_cons, List.flatten_cons, List.length_append, ih]
    simp
    omega

theorem fromLE2_toLE2 (xs : List Nat) (hlt : ∀ x ∈ xs, x < 65536) :
    fromLE2 (toLE2 xs) = xs := by
  induction xs with
  | nil => rfl
  | cons x rest ih =>
    have hx := hlt x (List.mem_cons_self x rest)
    unfold toLE2
    rw [List.map_cons, List.flatten_cons]
    show fromLE2 (x % 256 :: x / 256 % 256 :: toLE2 rest) = x :: rest
    rw [fromLE2]
    rw [ih (fun y hy => hlt y (List.mem_cons_of_mem x hy))]
    congr 1
    omega

theorem fromLE4_toLE4 (xs : List Nat) (hlt : ∀ x ∈ xs, x < 2 ^ 32) :
    fromLE4 (toLE4 xs) = xs := by
  induction xs with
  | nil => rfl
  | cons x rest ih =>
    have hx := hlt x (List.mem_cons_self x rest)
    unfold toLE4
    rw [List.map_cons, List.flatten_cons]
    show fromLE4 (x % 256 :: x / 256 % 256 :: x / 65536 % 256 :: x / 16777216 % 256 ::
      toLE4 rest) = x :: rest
    rw [fromLE4]
    rw [ih (fun y hy => hlt y (List.mem_cons_of_mem x hy))]
    congr 1
    have h32 : x < 4294967296 := by
      have : (2 : Nat) ^ 32 = 4294967296 := by norm_num
      omega
    omega

theorem INT_TO_MODE_MODE_TO_INT (vm : VMode) : INT_TO_MODE (MODE_TO_INT vm) = vm := by
  cases vm <;> rfl

/-! ## CBOR round trip of a well-formed dictionary (C2) -/

theorem C2_layout (n m s0 hsv : Nat) (ss bs bm : List Nat) (ofp : Option (List Nat))
    (vm : VMode) (fpseg : List Nat) (fpv : CVal)
    (hn : n < 2 ^ 32) (hm : m < 2 ^ 32) (hs0 : s0 < 2 ^ 32) (hh32 : hsv < 2 ^ 32)
    (hbs : bs.length < 2 ^ 32) (hss : ss.length < 2 ^ 32) (hbm32 : bm.length < 2 ^ 32)
    (hfpseg : (match ofp with
        | some fps => if vm = .vnone then [0xf6] else cborEncodeBytes (fpToBytes vm fps)
        | none => [0xf6]) = fpseg)
    (hfpdec : ∀ (buf rest : List Nat) (pos fuel : Nat),
      buf.drop pos = fpseg ++ rest →
      cborDecode buf (fuel + 1) pos = .ok (fpv, pos + fpseg.length))
    (hfpval : (match fpv, vm with
        | .cbytes b, .v2 => some b
        | .cbytes b, .v4 => some b
        | .cbytes b, .v8 => some b
        | .cbytes b, .v16 => some (fromLE2 b)
        | .cbytes b, .v32 => some (fromLE4 b)
        | _, _ => (none : Option (List Nat))) = ofp) :
    dictFromCBOR (dictToCBOR ⟨n, m, s0, some hsv, ss, bs, some bm, ofp, vm⟩) =
      .ok ⟨n, m, s0, some hsv, ss, bs, some bm, ofp, vm⟩ := by
  have hbin : dictToCBOR ⟨n, m, s0, some hsv, ss, bs, some bm, ofp, vm⟩ = 0x89 ::
      (cborEncodeInt n ++ (cborEncodeInt m ++ (cborEncodeInt s0 ++
       (cborEncodeBytes bs ++ (cborEncodeBytes ss ++
       (cborEncodeInt (MODE_TO_INT vm) ++ (fpseg ++
       (cborEncodeBytes bm ++ cborEncodeInt hsv)))))))) := by
    unfold dictToCBOR
    dsimp only []
    cases ofp with
    | none =>
      dsimp only [] at hfpseg ⊢
      rw [hfpseg]
      simp [List.append_assoc]
    | some fps =>
      dsimp only [] at hfpseg ⊢
      rw [hfpseg]
      simp [List.append_assoc]
  obtain ⟨F, hF⟩ : ∃ F, (dictToCBOR ⟨n, m, s0, some hsv, ss, bs, some bm, ofp, vm⟩).length
      = F + 1 := by
    rw [hbin, List.length_cons]
    exact ⟨_, rfl⟩
  have h1 : (dictToCBOR ⟨n, m, s0, some hsv, ss, bs, some bm, ofp, vm⟩).drop 1 =
      cborEncodeInt n ++ (cborEncodeInt m ++ (cborEncodeInt s0 ++
       (cborEncodeBytes bs ++ (cborEncodeBytes ss ++
       (cborEncodeInt (MODE_TO_INT vm) ++ (fpseg ++
       (cborEncodeBytes bm ++ cborEncodeInt hsv))))))) := by
    rw [hbin]
    simp
  have e1 := cborDecode_int_spec n hn _ _ 1 F h1
  have h2 := drop_advance h1
  have e2 := cborDecode_int_spec m hm _ _ _ F h2
  have h3 := drop_advance h2
  have e3 := cborDecode_int_spec s0 hs0 _ _ _ F h3
  have h4 := drop_advance h3
  have e4 := cborDecode_bytes_spec bs hbs _ _ _ F h4
  have h5 := drop_advance h4
  have e5 := cborDecode_bytes_spec ss hss _ _ _ F h5
  have h6 := drop_advance h5
  have e6 := cborDecode_int_spec (MODE_TO_INT vm) (by cases vm <;> decide)
    _ _ _ F h6
  have h7 := drop_advance h6
  have e7 := hfpdec _ _ _ F h7
  have h8 := drop_advance h7
  have e8 := cborDecode_bytes_spec bm hbm32 _ _ _ F h8
  have h9 := drop_advance h8
  rw [← List.append_nil (cborEncodeInt hsv)] at h9
  have e9 := cborDecode_int_spec hsv hh32 _ _ _ F h9
  have i0 : cborItemsWith
      (cborDecode (dictToCBOR ⟨n, m, s0, some hsv, ss, bs, some bm, ofp, vm⟩) (F + 1)) 0
      (1 + (cborEncodeInt n).length + (cborEncodeInt m).length +
       (cborEncodeInt s0).length + (cborEncodeBytes bs).length +
       (cborEncodeBytes ss).length + (cborEncodeInt (MODE_TO_INT vm)).length +
       fpseg.length + (cborEncodeBytes bm).length + (cborEncodeInt hsv).length) =
      .ok ([], 1 + (cborEncodeInt n).length + (cborEncodeInt m).length +
       (cborEncodeInt s0).length + (cborEncodeBytes bs).length +
       (cborEncodeBytes ss).length + (cborEncodeInt (MODE_TO_INT vm)).length +
       fpseg.length + (cborEncodeBytes bm).length + (cborEncodeInt hsv).length) := by
    rw [cborItemsWith]
  have c9 := cborItems_cons _ 0 _ _ _ _ _ e9 i0
  have c8 := cborItems_cons _ 1 _ _ _ _ _ e8 c9
  have c7 := cborItems_cons _ 2 _ _ _ _ _ e7 c8
  have c6 := cborItems_cons _ 3 _ _ _ _ _ e6 c7
  have c5 := cborItems_cons _ 4 _ _ _ _ _ e5 c6
  have c4 := cborItems_cons _ 5 _ _ _ _ _ e4 c5
  have c3 := cborItems_cons _ 6 _ _ _ _ _ e3 c4
  have c2 := cborItems_cons _ 7 _ _ _ _ _ e2 c3
  have c1 := cborItems_cons _ 8 _ _ _ _ _ e1 c2
  have hdr : (dictToCBOR ⟨n, m, s0, some hsv, ss, bs, some bm, ofp, vm⟩).drop 0 =
      0x89 :: (cborEncodeInt n ++ (cborEncodeInt m ++ (cborEncodeInt s0 ++
       (cborEncodeBytes bs ++ (cborEncodeBytes ss ++
       (cborEncodeInt (MODE_TO_INT vm) ++ (fpseg ++
       (cborEncodeBytes bm ++ cborEncodeInt hsv)))))))) := by
    rw [List.drop_zero, hbin]
  have harr := cborDecode_arr9_spec _ _ 0 (F + 1) _ _ hdr c1
  unfold dictFromCBOR
  rw [show (dictToCBOR ⟨n, m, s0, some hsv, ss, bs, some bm, ofp, vm⟩).length + 1 =
    (F + 1) + 1 by omega]
  rw [harr, except_bind_ok]
  dsimp only []
  rw [if_neg (by simp)]
  congr 1
  simp only [List.getD_cons_zero, List.getD_cons_succ]
  dsimp only [asNat, asBytes]
  rw [INT_TO_MODE_MODE_TO_INT]
  cases vm <;> cases fpv <;> dsimp only [] at hfpval ⊢ <;> rw [hfpval]

theorem C2_core (d : Dict)
    (hn : d.n < 2 ^ 32) (hm : d.m < 2 ^ 32) (hs0 : d.seed0 < 2 ^ 32)
    (hhs : ∃ h, d.hashSeed = some h ∧ h < 2 ^ 32)
    (hbs : d.bucketSizes.length < 2 ^ 32)
    (hss : d.seedStream.length < 2 ^ 32)
    (hbm : ∃ b, d.seedZeroBitmap = some b ∧ b.length < 2 ^ 32)
    (hfp1 : d.validationMode = .vnone → d.fingerprints = none)
    (hfp2 : d.validationMode ≠ .vnone →
      ∃ f, d.fingerprints = some f ∧
        (fpToBytes d.validationMode f).length < 2 ^ 32 ∧
        (d.validationMode = .v16 → ∀ y ∈ f, y < 65536) ∧
        (d.validationMode = .v32 → ∀ y ∈ f, y < 2 ^ 32)) :
    dictFromCBOR (dictToCBOR d) = .ok d := by
  obtain ⟨n, m, s0, ohs, ss, bs, obm, ofp, vm⟩ := d
  dsimp only [] at hn hm hs0 hhs hbs hss hbm hfp1 hfp2
  obtain ⟨hsv, rfl, hh32⟩ := hhs
  obtain ⟨bm, rfl, hbm32⟩ := hbm
  cases vm with
  | vnone =>
    have hofp : ofp = none := hfp1 rfl
    subst hofp
    exact C2_layout n m s0 hsv ss bs bm none .vnone [0xf6] .cnull
      hn hm hs0 hh32 hbs hss hbm32 rfl
      (fun buf rest pos fuel hdrop => by
        rw [List.cons_append, List.nil_append] at hdrop
        simpa using cborDecode_null_spec buf _ pos fuel hdrop)
      rfl
  | v2 =>
    obtain ⟨f, rfl, hfb32, -, -⟩ := hfp2 (by simp)
    exact C2_layout n m s0 hsv ss bs bm (some f) .v2
      (cborEncodeBytes f) (.cbytes f)
      hn hm hs0 hh32 hbs hss hbm32 rfl
      (fun buf rest pos fuel hdrop => cborDecode_bytes_spec f hfb32 buf rest pos fuel hdrop)
      rfl
  | v4 =>
    obtain ⟨f, rfl, hfb32, -, -⟩ := hfp2 (by simp)
    exact C2_layout n m s0 hsv ss bs bm (some f) .v4
      (cborEncodeBytes f) (.cbytes f)
      hn hm hs0 hh32 hbs hss hbm32 rfl
      (fun buf rest pos fuel hdrop => cborDecode_bytes_spec f hfb32 buf rest pos fuel hdrop)
      rfl
  | v8 =>
    obtain ⟨f, rfl, hfb32, -, -⟩ := hfp2 (by simp)
    exact C2_layout n m s0 hsv ss bs bm (some f) .v8
      (cborEncodeBytes f) (.cbytes f)
      hn hm hs0 hh32 hbs hss hbm32 rfl
      (fun buf rest pos fuel hdrop => cborDecode_bytes_spec f hfb32 buf rest pos fuel hdrop)
      rfl
  | v16 =>
    obtain ⟨f, rfl, hfb32, h16, -⟩ := hfp2 (by simp)
    refine C2_layout n m s0 hsv ss bs bm (some f) .v16
      (cborEncodeBytes (toLE2 f)) (.cbytes (toLE2 f))
      hn hm hs0 hh32 hbs hss hbm32 rfl
      (fun buf rest pos fuel hdrop =>
        cborDecode_bytes_spec (toLE2 f) hfb32 buf rest pos fuel hdrop)
      ?_
    dsimp only []
    rw [fromLE2_toLE2 f (h16 rfl)]
  | v32 =>
    obtain ⟨f, rfl, hfb32, -, h32⟩ := hfp2 (by simp)
    refine C2_layout n m s0 hsv ss bs bm (some f) .v32
      (cborEncodeBytes (toLE4 f)) (.cbytes (toLE4 f))
      hn hm hs0 hh32 hbs hss hbm32 rfl
      (fun buf rest pos fuel hdrop =>
        cborDecode_bytes_spec (toLE4 f) hfb32 buf rest pos fuel hdrop)
      ?_
    dsimp only []
    rw [fromLE4_toLE4 f (h32 rfl)]

theorem built_dict_wf (keys : List Str) (level : ℚ) (vm : VMode) (cs : Nat → Nat)
    (d : Dict) (hn : keys.length < 2 ^ 29) (hlevel : 1 ≤ level)
    (hne : keys.length ≠ 0) (hb : build keys level vm cs = .ok d) :
    d.n < 2 ^ 32 ∧ d.m < 2 ^ 32 ∧ d.seed0 < 2 ^ 32 ∧
    (∃ h, d.hashSeed = some h ∧ h < 2 ^ 32) ∧
    d.bucketSizes.length < 2 ^ 32 ∧ d.seedStream.length < 2 ^ 32 ∧
    (∃ b, d.seedZeroBitmap = some b ∧ b.length < 2 ^ 32) ∧
    (d.validationMode = .vnone → d.fingerprints = none) ∧
    (d.validationMode ≠ .vnone → ∃ f, d.fingerprints = some f ∧
      (fpToBytes d.validationMode f).length < 2 ^ 32 ∧
      (d.validationMode = .v16 → ∀ y ∈ f, y < 65536) ∧
      (d.validationMode = .v32 → ∀ y ∈ f, y < 2 ^ 32)) := by
  obtain ⟨hs, s0, mml, ds, hfs, hbf, hmml, hds, hd⟩ := build_ok_inv hne hb
  have hm := computeM_pos keys.length level
  have hmle := computeM_le keys.length level hlevel
  have hmn : computeM keys.length level ≤ keys.length := by
    have hmax : max 1 keys.length = keys.length := max_eq_right (by omega)
    omega
  have h29_32 : (2 : Nat) ^ 29 < 2 ^ 32 := by norm_num
  have hhsle : hs ≤ 100 := by
    unfold findHashSeed at hfs
    exact (findHashSeedAux_ok_spec keys 101 0 hs (by omega) hfs).2.1
  obtain ⟨hdsl, hdspec⟩ := buildSeeds_ok_spec hds
  have hdd32 : ∀ dd ∈ ds, dd.2 < 2 ^ 32 := by
    intro dd hdd
    obtain ⟨b, hb2, hgd⟩ := exists_getD_of_mem (0, 0) hdd
    rw [hdsl] at hb2
    obtain ⟨h1, h2, h3⟩ := hdspec b hb2
    by_cases hk : (bucketMembers (preHashes keys hs) s0
        (computeM keys.length level) b).length ≤ 1
    · rw [← hgd, h2 hk]
      norm_num
    · have hc := (h3 (by omega)).2
      have hcap : dispCap (bucketMembers (preHashes keys hs) s0
          (computeM keys.length level) b).length ≤ 50000000 := by
        unfold dispCap
        split <;> omega
      rw [← hgd]
      omega
  obtain ⟨f1, f2, f3, f4, f5, f6, f7, f8⟩ := builtDictOf_fields keys level vm hs s0 ds
  subst hd
  refine ⟨?_, ?_, ?_, ?_, ?_, ?_, ?_, ?_, ?_⟩
  · rw [f1]
    omega
  · rw [f2]
    omega
  · rw [f3]
    have := bestFit_seed_lt hbf
    omega
  · exact ⟨hs, f4, by omega⟩
  · rw [f6, packNibbles_length, bucketLens_length]
    omega
  · rw [f5]
    have hsl := mkSeedStream_length_le ds hdd32
    omega
  · refine ⟨mkBitmap (ds.map seedOmitted), f7, ?_⟩
    rw [mkBitmap_length, List.length_map, hdsl]
    omega
  · intro hvm
    rw [f8] at hvm
    rw [builtDictOf_fingerprints, if_pos hvm]
  · intro hvm
    rw [f8] at hvm
    rw [builtDictOf_fingerprints, if_neg hvm, f8]
    refine ⟨buildFingerprints keys (dict0Of keys level vm hs s0 ds) vm, rfl, ?_, ?_, ?_⟩
    · have hfl := buildFingerprints_length keys (dict0Of keys level vm hs s0 ds) vm
      have hdn : (dict0Of keys level vm hs s0 ds).n = keys.length := rfl
      rw [hdn] at hfl
      cases vm with
      | vnone => exact absurd rfl hvm
      | v2 =>
        unfold fpToBytes
        dsimp only []
        rw [hfl]
        unfold fpLen
        dsimp only []
        omega
      | v4 =>
        unfold fpToBytes
        dsimp only []
        rw [hfl]
        unfold fpLen
        dsimp only []
        omega
      | v8 =>
        unfold fpToBytes
        dsimp only []
        rw [hfl]
        unfold fpLen
        dsimp only []
        omega
      | v16 =>
        unfold fpToBytes
        dsimp only []
        rw [toLE2_length, hfl]
        unfold fpLen
        dsimp only []
        omega
      | v32 =>
        unfold fpToBytes
        dsimp only []
        rw [toLE4_length, hfl]
        unfold fpLen
        dsimp only []
        omega
    · intro hv16
      subst hv16
      apply buildFingerprints_bound _ _ _ 65536 (by norm_num)
      intro fps idx h hmem y hy
      unfold fpWrite at hy
      dsimp only [] at hy
      rcases List.mem_or_eq_of_mem_set hy with hyy | hyy
      · exact hmem y hyy
      · rw [hyy, show (65535 : Nat) = 2 ^ 16 - 1 from rfl,
          Nat.and_pow_two_sub_one_eq_mod]
        have := Nat.mod_lt h (show 0 < 2 ^ 16 by norm_num)
        omega
    · intro hv32
      subst hv32
      apply buildFingerprints_bound _ _ _ (2 ^ 32) (by norm_num)
      intro fps idx h hmem y hy
      unfold fpWrite at hy
      dsimp only [] at hy
      rcases List.mem_or_eq_of_mem_set hy with hyy | hyy
      · exact hmem y hyy
      · rw [hyy]
        have := mask32_lt h
        rw [M32_eq] at this
        exact this

/-- C2 — for every key set within the 32-bit format limits and every
successfully built dictionary, serializing with `dictToCBOR` and decoding
with `dictFromCBOR` succeeds and yields an evaluator equal on every
input to the one built directly from the dictionary. -/
theorem C2_roundtrip (keys : List Str) (level : ℚ) (vm : VMode) (cs : Nat → Nat)
    (d : Dict) (hn : keys.length < 2 ^ 29) (hlevel : 1 ≤ level)
    (hb : build keys level vm cs = .ok d) :
    ∃ d2, dictFromCBOR (dictToCBOR d) = .ok d2 ∧
      ∀ x : Str, (MPH.ofDict d2).hash x = (MPH.ofDict d).hash x := by
  by_cases hne : keys.length = 0
  · have hkeys := List.length_eq_zero.mp hne
    subst hkeys
    unfold build at hb
    dsimp only [] at hb
    rw [if_pos hne] at hb
    have hd : emptyDict = d := Except.ok.inj hb
    subst hd
    refine ⟨⟨0, 0, 0, some 0, [], [], none, none, .vnone⟩, by rfl, ?_⟩
    intro x
    have hmph : MPH.ofDict ⟨0, 0, 0, some 0, [], [], none, none, .vnone⟩ =
        MPH.ofDict emptyDict := by decide
    rw [hmph]
  · obtain ⟨w1, w2, w3, w4, w5, w6, w7, w8, w9⟩ :=
      built_dict_wf keys level vm cs d hn hlevel hne hb
    exact ⟨d, C2_core d w1 w2 w3 w4 w5 w6 w7 w8 w9, fun x => rfl⟩

/-- C2 witness: the round trip at a concrete three-key build with 8-bit
fingerprints. -/
theorem C2_roundtrip_witness :
    ([[97], [98], [99]] : List Str).length < 2 ^ 29 ∧ (1 : ℚ) ≤ 5 ∧
    ∃ d2, dictFromCBOR (dictToCBOR ((build [[97], [98], [99]] 5 .v8
        (fun _ => 0)).toOption.getD emptyDict)) = .ok d2 ∧
      ∀ x : Str, (MPH.ofDict d2).hash x =
        (MPH.ofDict ((build [[97], [98], [99]] 5 .v8
          (fun _ => 0)).toOption.getD emptyDict)).hash x := by
  refine ⟨by norm_num, by norm_num, ?_⟩
  exact C2_roundtrip [[97], [98], [99]] 5 .v8 (fun _ => 0) _ (by norm_num)
    (by norm_num) (by rfl)

/-! ## Truncated inputs (C6) -/

theorem except_bind_error {alpha beta : Type} (e : DecodeError)
    (f : alpha → Except DecodeError beta) :
    (Except.error e : Except DecodeError alpha) >>= f = .error e := rfl

theorem getD_take {buf : List Nat} {k pos : Nat} (h : pos < k) :
    (buf.take k).getD pos 0 = buf.getD pos 0 := by
  rw [List.getD_eq_getElem?_getD, List.getD_eq_getElem?_getD, List.getElem?_take]
  rw [if_pos h]

theorem getU8_take {buf : List Nat} {pos b : Nat} (k : Nat) (h : getU8 buf pos = .ok b) :
    getU8 (buf.take k) pos = .ok b ∨ getU8 (buf.take k) pos = .error .rangeError := by
  unfold getU8 at h ⊢
  by_cases hin : pos < buf.length
  · rw [if_pos hin] at h
    by_cases hk : pos < (buf.take k).length
    · left
      rw [if_pos hk]
      have hkk : pos < k := by
        rw [List.length_take] at hk
        omega
      rw [getD_take hkk]
      exact h
    · right
      rw [if_neg hk]
  · rw [if_neg hin] at h
    cases h

theorem getU16_take {buf : List Nat} {pos b : Nat} (k : Nat) (h : getU16 buf pos = .ok b) :
    getU16 (buf.take k) pos = .ok b ∨ getU16 (buf.take k) pos = .error .rangeError := by
  unfold getU16 at h ⊢
  by_cases hin : pos + 2 ≤ buf.length
  · rw [if_pos hin] at h
    by_cases hk : pos + 2 ≤ (buf.take k).length
    · left
      rw [if_pos hk]
      have hkk : pos + 2 ≤ k := by
        rw [List.length_take] at hk
        omega
      rw [getD_take (by omega), getD_take (by omega)]
      exact h
    · right
      rw [if_neg hk]
  · rw [if_neg hin] at h
    cases h

theorem getU32_take {buf : List Nat} {pos b : Nat} (k : Nat) (h : getU32 buf pos = .ok b) :
    getU32 (buf.take k) pos = .ok b ∨ getU32 (buf.take k) pos = .error .rangeError := by
  unfold getU32 at h ⊢
  by_cases hin : pos + 4 ≤ buf.length
  · rw [if_pos hin] at h
    by_cases hk : pos + 4 ≤ (buf.take k).length
    · left
      rw [if_pos hk]
      have hkk : pos + 4 ≤ k := by
        rw [List.length_take] at hk
        omega
      rw [getD_take (by omega), getD_take (by omega), getD_take (by omega),
        getD_take (by omega)]
      exact h
    · right
      rw [if_neg hk]
  · rw [if_neg hin] at h
    cases h

theorem cborReadLen_take {buf : List Nat} {a pos val pos2 : Nat} (k : Nat)
    (h : cborReadLen buf a pos = .ok (val, pos2)) :
    cborReadLen (buf.take k) a pos = .ok (val, pos2) ∨
    ∃ e, cborReadLen (buf.take k) a pos = .error e := by
  unfold cborReadLen at h ⊢
  by_cases h24 : a < 24
  · rw [if_pos h24] at h ⊢
    exact Or.inl h
  · rw [if_neg h24] at h ⊢
    by_cases he24 : a = 24
    · rw [if_pos he24] at h ⊢
      cases hg : getU8 buf pos with
      | error e => rw [hg] at h; cases h
      | ok b =>
        rw [hg] at h
        rcases getU8_take k hg with hgt | hgt
        · rw [hgt]
          exact Or.inl h
        · rw [hgt]
          exact Or.inr ⟨.rangeError, rfl⟩
    · rw [if_neg he24] at h ⊢
      by_cases he25 : a = 25
      · rw [if_pos he25] at h ⊢
        cases hg : getU16 buf pos with
        | error e => rw [hg] at h; cases h
        | ok b =>
          rw [hg] at h
          rcases getU16_take k hg with hgt | hgt
          · rw [hgt]
            exact Or.inl h
          · rw [hgt]
            exact Or.inr ⟨.rangeError, rfl⟩
      · rw [if_neg he25] at h ⊢
        by_cases he26 : a = 26
        · rw [if_pos he26] at h ⊢
          cases hg : getU32 buf pos with
          | error e => rw [hg] at h; cases h
          | ok b =>
            rw [hg] at h
            rcases getU32_take k hg with hgt | hgt
            · rw [hgt]
              exact Or.inl h
            · rw [hgt]
              exact Or.inr ⟨.rangeError, rfl⟩
        · rw [if_neg he26] at h
          cases h

theorem cborItemsWith_take
    (dec dec2 : Nat → Except DecodeError (CVal × Nat))
    (hdec : ∀ pos v pos2, dec pos = .ok (v, pos2) →
      (∃ v2, dec2 pos = .ok (v2, pos2)) ∨ (∃ e, dec2 pos = .error e)) :
    ∀ (cnt pos : Nat) (vs : List CVal) (pos2 : Nat),
      cborItemsWith dec cnt pos = .ok (vs, pos2) →
      (∃ vs2, cborItemsWith dec2 cnt pos = .ok (vs2, pos2)) ∨
      (∃ e, cborItemsWith dec2 cnt pos = .error e) := by
  intro cnt
  induction cnt with
  | zero =>
    intro pos vs pos2 h
    rw [cborItemsWith] at h ⊢
    have h2 : (Except.ok (([] : List CVal), pos) :
        Except DecodeError (List CVal × Nat)) = .ok (vs, pos2) := h
    cases h2
    exact Or.inl ⟨[], rfl⟩
  | succ c ih =>
    intro pos vs pos2 h
    rw [cborItemsWith] at h ⊢
    cases hd : dec pos with
    | error e =>
      rw [hd, except_bind_error] at h
      cases h
    | ok p =>
      obtain ⟨v, posA⟩ := p
      rw [hd, except_bind_ok] at h
      dsimp only [] at h
      cases hrest : cborItemsWith dec c posA with
      | error e =>
        rw [hrest, except_bind_error] at h
        cases h
      | ok q =>
        obtain ⟨vsA, posB⟩ := q
        rw [hrest, except_bind_ok] at h
        dsimp only [] at h
        have h3 := Except.ok.inj (show (Except.ok (v :: vsA, posB) :
            Except DecodeError (List CVal × Nat)) = .ok (vs, pos2) from h)
        have hvs : vs = v :: vsA := (congrArg Prod.fst h3).symm
        have hpos : pos2 = posB := (congrArg Prod.snd h3).symm
        subst hvs
        rw [hpos]
        rcases hdec pos v posA hd with ⟨v2, hd2⟩ | ⟨e, hd2⟩
        · rw [hd2, except_bind_ok]
          dsimp only []
          rcases ih posA vsA posB hrest with ⟨vs2, hr2⟩ | ⟨e, hr2⟩
          · rw [hr2, except_bind_ok]
            exact Or.inl ⟨v2 :: vs2, rfl⟩
          · rw [hr2, except_bind_error]
            exact Or.inr ⟨e, rfl⟩
        · rw [hd2, except_bind_error]
          exact Or.inr ⟨e, rfl⟩

theorem cborDecode_take : ∀ (fuel : Nat) (buf : List Nat) (k pos : Nat)
    (v : CVal) (pos2 : Nat),
    cborDecode buf fuel pos = .ok (v, pos2) →
    (∃ v2, cborDecode (buf.take k) fuel pos = .ok (v2, pos2)) ∨
    (∃ e, cborDecode (buf.take k) fuel pos = .error e) := by
  intro fuel
  induction fuel with
  | zero =>
    intro buf k pos v pos2 h
    rw [cborDecode] at h
    cases h
  | succ f ih =>
    intro buf k pos v pos2 h
    rw [cborDecode] at h ⊢
    cases hg : getU8 buf pos with
    | error e =>
      rw [hg, except_bind_error] at h
      cases h
    | ok byte =>
      rw [hg, except_bind_ok] at h
      dsimp only [] at h
      rcases getU8_take k hg with hgt | hgt
      rotate_left
      · rw [hgt, except_bind_error]
        exact Or.inr ⟨.rangeError, rfl⟩
      rw [hgt, except_bind_ok]
      dsimp only []
      cases hrl : cborReadLen buf (byte &&& 0x1f) (pos + 1) with
      | error e =>
        rw [hrl, except_bind_error] at h
        cases h
      | ok p =>
        obtain ⟨val, posA⟩ := p
        rw [hrl, except_bind_ok] at h
        dsimp only [] at h
        rcases cborReadLen_take k hrl with hrlt | ⟨e, hrlt⟩
        rotate_left
        · rw [hrlt, except_bind_error]
          exact Or.inr ⟨e, rfl⟩
        rw [hrlt, except_bind_ok]
        dsimp only []
        by_cases hmaj0 : byte &&& 0xe0 = 0
        · rw [if_pos hmaj0] at h ⊢
          have h2 : (Except.ok (CVal.cint val, posA) :
              Except DecodeError (CVal × Nat)) = .ok (v, pos2) := h
          cases h2
          exact Or.inl ⟨.cint val, rfl⟩
        · rw [if_neg hmaj0] at h ⊢
          by_cases hmaj4 : byte &&& 0xe0 = 0x40
          · rw [if_pos hmaj4] at h ⊢
            have h2 : (Except.ok (CVal.cbytes ((buf.drop posA).take val), posA + val) :
                Except DecodeError (CVal × Nat)) = .ok (v, pos2) := h
            cases h2
            exact Or.inl ⟨.cbytes (((buf.take k).drop posA).take val), rfl⟩
          · rw [if_neg hmaj4] at h ⊢
            by_cases hmaj8 : byte &&& 0xe0 = 0x80
            · rw [if_pos hmaj8] at h ⊢
              cases hit : cborItemsWith (cborDecode buf f) val posA with
              | error e =>
                rw [hit] at h
                cases h
              | ok q =>
                obtain ⟨vsA, posB⟩ := q
                rw [hit] at h
                have h3 := Except.ok.inj (show (Except.ok (CVal.carr vsA, posB) :
                    Except DecodeError (CVal × Nat)) = .ok (v, pos2) from h)
                have hv : v = CVal.carr vsA := (congrArg Prod.fst h3).symm
                have hpos : pos2 = posB := (congrArg Prod.snd h3).symm
                subst hv
                rw [hpos]
                rcases cborItemsWith_take (cborDecode buf f) (cborDecode (buf.take k) f)
                    (fun p1 v1 p2 hh => ih buf k p1 v1 p2 hh) val posA vsA posB hit with
                  ⟨vs2, hit2⟩ | ⟨e, hit2⟩
                · rw [hit2]
                  exact Or.inl ⟨.carr vs2, rfl⟩
                · rw [hit2]
                  exact Or.inr ⟨e, rfl⟩
            · rw [if_neg hmaj8] at h ⊢
              by_cases hf6 : byte = 0xf6
              · rw [if_pos hf6] at h ⊢
                have h2 : (Except.ok (CVal.cnull, posA) :
                    Except DecodeError (CVal × Nat)) = .ok (v, pos2) := h
                cases h2
                exact Or.inl ⟨.cnull, rfl⟩
              · rw [if_neg hf6] at h
                cases h

theorem cborReadLen_ok_le {buf : List Nat} {a pos val pos2 : Nat}
    (h : cborReadLen buf a pos = .ok (val, pos2)) (hp : pos ≤ buf.length) :
    pos2 ≤ buf.length := by
  unfold cborReadLen at h
  by_cases h24 : a < 24
  · rw [if_pos h24] at h
    have h2 : (Except.ok (a, pos) : Except DecodeError (Nat × Nat)) = .ok (val, pos2) := h
    cases h2
    exact hp
  · rw [if_neg h24] at h
    by_cases he24 : a = 24
    · rw [if_pos he24] at h
      cases hg : getU8 buf pos with
      | error e => rw [hg] at h; cases h
      | ok b =>
        rw [hg] at h
        have h2 : (Except.ok (b, pos + 1) : Except DecodeError (Nat × Nat)) =
            .ok (val, pos2) := h
        cases h2
        unfold getU8 at hg
        by_cases hin : pos < buf.length
        · omega
        · rw [if_neg hin] at hg
          cases hg
    · rw [if_neg he24] at h
      by_cases he25 : a = 25
      · rw [if_pos he25] at h
        cases hg : getU16 buf pos with
        | error e => rw [hg] at h; cases h
        | ok b =>
          rw [hg] at h
          have h2 : (Except.ok (b, pos + 2) : Except DecodeError (Nat × Nat)) =
              .ok (val, pos2) := h
          cases h2
          unfold getU16 at hg
          by_cases hin : pos + 2 ≤ buf.length
          · omega
          · rw [if_neg hin] at hg
            cases hg
      · rw [if_neg he25] at h
        by_cases he26 : a = 26
        · rw [if_pos he26] at h
          cases hg : getU32 buf pos with
          | error e => rw [hg] at h; cases h
          | ok b =>
            rw [hg] at h
            have h2 : (Except.ok (b, pos + 4) : Except DecodeError (Nat × Nat)) =
                .ok (val, pos2) := h
            cases h2
            unfold getU32 at hg
            by_cases hin : pos + 4 ≤ buf.length
            · omega
            · rw [if_neg hin] at hg
              cases hg
        · rw [if_neg he26] at h
          cases h

theorem cborDecode_int_ok_le {buf : List Nat} {fuel pos : Nat} {v : CVal} {pos2 : Nat}
    (h : cborDecode buf fuel pos = .ok (v, pos2))
    (hmaj : buf.getD pos 0 &&& 0xe0 = 0) :
    pos2 ≤ buf.length := by
  cases fuel with
  | zero => rw [cborDecode] at h; cases h
  | succ f =>
    rw [cborDecode] at h
    cases hg : getU8 buf pos with
    | error e =>
      rw [hg, except_bind_error] at h
      cases h
    | ok byte =>
      rw [hg, except_bind_ok] at h
      dsimp only [] at h
      have hbyte : byte = buf.getD pos 0 ∧ pos < buf.length := by
        unfold getU8 at hg
        by_cases hin : pos < buf.length
        · rw [if_pos hin] at hg
          exact ⟨(Except.ok.inj hg).symm, hin⟩
        · rw [if_neg hin] at hg
          cases hg
      cases hrl : cborReadLen buf (byte &&& 0x1f) (pos + 1) with
      | error e =>
        rw [hrl, except_bind_error] at h
        cases h
      | ok p =>
        obtain ⟨val, posA⟩ := p
        rw [hrl, except_bind_ok] at h
        dsimp only [] at h
        have hle := cborReadLen_ok_le hrl (by omega)
        rw [hbyte.1, hmaj] at h
        rw [if_pos rfl] at h
        have h2 : (Except.ok (CVal.cint val, posA) :
            Except DecodeError (CVal × Nat)) = .ok (v, pos2) := h
        cases h2
        exact hle

theorem cborEncodeInt_head (v : Nat) :
    ∃ b t, cborEncodeInt v = b :: t ∧ b &&& 0xe0 = 0 := by
  unfold cborEncodeInt
  by_cases h24 : v < 24
  · rw [if_pos h24]
    exact ⟨v, [], rfl, land_shiftLeft_eq_zero 7 5 (show v < 2 ^ 5 by omega)⟩
  · rw [if_neg h24]
    by_cases h255 : v ≤ 0xff
    · rw [if_pos h255]
      exact ⟨24, [v], rfl, by decide⟩
    · rw [if_neg h255]
      by_cases h16 : v ≤ 0xffff
      · rw [if_pos h16]
        exact ⟨25, _, rfl, by decide⟩
      · rw [if_neg h16]
        exact ⟨26, _, rfl, by decide⟩

theorem cborItems_err_head (dec : Nat → Except DecodeError (CVal × Nat))
    (cnt pos : Nat) (e : DecodeError) (h : dec pos = .error e) :
    cborItemsWith dec (cnt + 1) pos = .error e := by
  rw [cborItemsWith, h, except_bind_error]

theorem cborItems_err_tail (dec : Nat → Except DecodeError (CVal × Nat))
    (cnt pos posA : Nat) (v : CVal) (e : DecodeError)
    (h1 : dec pos = .ok (v, posA))
    (h2 : cborItemsWith dec cnt posA = .error e) :
    cborItemsWith dec (cnt + 1) pos = .error e := by
  rw [cborItemsWith, h1, except_bind_ok]
  dsimp only []
  rw [h2, except_bind_error]

theorem trunc_int_le {bin : List Nat} {p9 hsv k fuel pos2 : Nat} {v : CVal}
    (h9 : bin.drop p9 = cborEncodeInt hsv)
    (hd9 : cborDecode (bin.take k) fuel p9 = .ok (v, pos2)) :
    pos2 ≤ k := by
  obtain ⟨b, t, hbt, hbmaj⟩ := cborEncodeInt_head hsv
  rw [hbt] at h9
  obtain ⟨hb9, -⟩ := drop_eq_cons_getD h9
  have hmaj : (bin.take k).getD p9 0 &&& 0xe0 = 0 := by
    by_cases hp : p9 < k
    · rw [getD_take hp, hb9]
      exact hbmaj
    · rw [List.getD_eq_getElem?_getD, List.getElem?_eq_none (by
        rw [List.length_take]
        omega)]
      rfl
  have hle := cborDecode_int_ok_le hd9 hmaj
  rw [List.length_take] at hle
  omega

theorem C6_trunc_layout (n m s0 hsv : Nat) (ss bs bm : List Nat) (ofp : Option (List Nat))
    (vm : VMode) (fpseg : List Nat) (fpv : CVal)
    (hn : n < 2 ^ 32) (hm : m < 2 ^ 32) (hs0 : s0 < 2 ^ 32) (hh32 : hsv < 2 ^ 32)
    (hbs : bs.length < 2 ^ 32) (hss : ss.length < 2 ^ 32) (hbm32 : bm.length < 2 ^ 32)
    (hfpseg : (match ofp with
        | some fps => if vm = .vnone then [0xf6] else cborEncodeBytes (fpToBytes vm fps)
        | none => [0xf6]) = fpseg)
    (hfpdec : ∀ (buf rest : List Nat) (pos fuel : Nat),
      buf.drop pos = fpseg ++ rest →
      cborDecode buf (fuel + 1) pos = .ok (fpv, pos + fpseg.length)) :
    ∀ k, k < (dictToCBOR ⟨n, m, s0, some hsv, ss, bs, some bm, ofp, vm⟩).length →
      ∃ e, dictFromCBOR ((dictToCBOR ⟨n, m, s0, some hsv, ss, bs, some bm, ofp, vm⟩).take k)
        = .error e := by
  have hbin : dictToCBOR ⟨n, m, s0, some hsv, ss, bs, some bm, ofp, vm⟩ = 0x89 ::
      (cborEncodeInt n ++ (cborEncodeInt m ++ (cborEncodeInt s0 ++
       (cborEncodeBytes bs ++ (cborEncodeBytes ss ++
       (cborEncodeInt (MODE_TO_INT vm) ++ (fpseg ++
       (cborEncodeBytes bm ++ cborEncodeInt hsv)))))))) := by
    unfold dictToCBOR
    dsimp only []
    cases ofp with
    | none =>
      dsimp only [] at hfpseg ⊢
      rw [hfpseg]
      simp [List.append_assoc]
    | some fps =>
      dsimp only [] at hfpseg ⊢
      rw [hfpseg]
      simp [List.append_assoc]
  intro k hk
  rcases Nat.eq_zero_or_pos k with hk0 | hkpos
  · subst hk0
    rw [List.take_zero]
    exact ⟨.rangeError, by rfl⟩
  obtain ⟨j, rfl⟩ : ∃ j, k = j + 1 := ⟨k - 1, by omega⟩
  have h1 : (dictToCBOR ⟨n, m, s0, some hsv, ss, bs, some bm, ofp, vm⟩).drop 1 =
      cborEncodeInt n ++ (cborEncodeInt m ++ (cborEncodeInt s0 ++
       (cborEncodeBytes bs ++ (cborEncodeBytes ss ++
       (cborEncodeInt (MODE_TO_INT vm) ++ (fpseg ++
       (cborEncodeBytes bm ++ cborEncodeInt hsv))))))) := by
    rw [hbin]
    simp
  have e1 := cborDecode_int_spec n hn _ _ 1 j h1
  have h2 := drop_advance h1
  have e2 := cborDecode_int_spec m hm _ _ _ j h2
  have h3 := drop_advance h2
  have e3 := cborDecode_int_spec s0 hs0 _ _ _ j h3
  have h4 := drop_advance h3
  have e4 := cborDecode_bytes_spec bs hbs _ _ _ j h4
  have h5 := drop_advance h4
  have e5 := cborDecode_bytes_spec ss hss _ _ _ j h5
  have h6 := drop_advance h5
  have e6 := cborDecode_int_spec (MODE_TO_INT vm) (by cases vm <;> decide)
    _ _ _ j h6
  have h7 := drop_advance h6
  have e7 := hfpdec _ _ _ j h7
  have h8 := drop_advance h7
  have e8 := cborDecode_bytes_spec bm hbm32 _ _ _ j h8
  have h9 := drop_advance h8
  rw [← List.append_nil (cborEncodeInt hsv)] at h9
  have e9 := cborDecode_int_spec hsv hh32 _ _ _ j h9
  have h9x := h9
  rw [List.append_nil] at h9x
  have hlenend := congrArg List.length h9x
  rw [List.length_drop] at hlenend
  have hheadlen : 0 < (cborEncodeInt hsv).length := by
    obtain ⟨b, t, hbt, -⟩ := cborEncodeInt_head hsv
    rw [hbt]
    simp
  set bin := dictToCBOR ⟨n, m, s0, some hsv, ss, bs, some bm, ofp, vm⟩ with hbdef
  have herr_items : ∃ e,
      cborItemsWith (cborDecode (bin.take (j + 1)) (j + 1)) 9 1 = .error e := by
    rcases cborDecode_take (j + 1) bin (j + 1) _ _ _ e1 with ⟨v1, d1⟩ | ⟨e, d1⟩
    · rcases cborDecode_take (j + 1) bin (j + 1) _ _ _ e2 with ⟨v2, d2⟩ | ⟨e, d2⟩
      · rcases cborDecode_take (j + 1) bin (j + 1) _ _ _ e3 with ⟨v3, d3⟩ | ⟨e, d3⟩
        · rcases cborDecode_take (j + 1) bin (j + 1) _ _ _ e4 with ⟨v4, d4⟩ | ⟨e, d4⟩
          · rcases cborDecode_take (j + 1) bin (j + 1) _ _ _ e5 with ⟨v5, d5⟩ | ⟨e, d5⟩
            · rcases cborDecode_take (j + 1) bin (j + 1) _ _ _ e6 with ⟨v6, d6⟩ | ⟨e, d6⟩
              · rcases cborDecode_take (j + 1) bin (j + 1) _ _ _ e7 with ⟨v7, d7⟩ | ⟨e, d7⟩
                · rcases cborDecode_take (j + 1) bin (j + 1) _ _ _ e8 with
                    ⟨v8, d8⟩ | ⟨e, d8⟩
                  · rcases cborDecode_take (j + 1) bin (j + 1) _ _ _ e9 with
                      ⟨v9, d9⟩ | ⟨e, d9⟩
                    · exfalso
                      have hle := trunc_int_le h9x d9
                      omega
                    · exact ⟨e, cborItems_err_tail _ 8 _ _ _ _ d1
                        (cborItems_err_tail _ 7 _ _ _ _ d2
                        (cborItems_err_tail _ 6 _ _ _ _ d3
                        (cborItems_err_tail _ 5 _ _ _ _ d4
                        (cborItems_err_tail _ 4 _ _ _ _ d5
                        (cborItems_err_tail _ 3 _ _ _ _ d6
                        (cborItems_err_tail _ 2 _ _ _ _ d7
                        (cborItems_err_tail _ 1 _ _ _ _ d8
                        (cborItems_err_head _ 0 _ e d9))))))))⟩
                  · exact ⟨e, cborItems_err_tail _ 8 _ _ _ _ d1
                      (cborItems_err_tail _ 7 _ _ _ _ d2
                      (cborItems_err_tail _ 6 _ _ _ _ d3
                      (cborItems_err_tail _ 5 _ _ _ _ d4
                      (cborItems_err_tail _ 4 _ _ _ _ d5
                      (cborItems_err_tail _ 3 _ _ _ _ d6
                      (cborItems_err_tail _ 2 _ _ _ _ d7
                      (cborItems_err_head _ 1 _ e d8)))))))⟩
                · exact ⟨e, cborItems_err_tail _ 8 _ _ _ _ d1
                    (cborItems_err_tail _ 7 _ _ _ _ d2
                    (cborItems_err_tail _ 6 _ _ _ _ d3
                    (cborItems_err_tail _ 5 _ _ _ _ d4
                    (cborItems_err_tail _ 4 _ _ _ _ d5
                    (cborItems_err_tail _ 3 _ _ _ _ d6
                    (cborItems_err_head _ 2 _ e d7))))))⟩
              · exact ⟨e, cborItems_err_tail _ 8 _ _ _ _ d1
                  (cborItems_err_tail _ 7 _ _ _ _ d2
                  (cborItems_err_tail _ 6 _ _ _ _ d3
                  (cborItems_err_tail _ 5 _ _ _ _ d4
                  (cborItems_err_tail _ 4 _ _ _ _ d5
                  (cborItems_err_head _ 3 _ e d6)))))⟩
            · exact ⟨e, cborItems_err_tail _ 8 _ _ _ _ d1
                (cborItems_err_tail _ 7 _ _ _ _ d2
                (cborItems_err_tail _ 6 _ _ _ _ d3
                (cborItems_err_tail _ 5 _ _ _ _ d4
                (cborItems_err_head _ 4 _ e d5))))⟩
          · exact ⟨e, cborItems_err_tail _ 8 _ _ _ _ d1
              (cborItems_err_tail _ 7 _ _ _ _ d2
              (cborItems_err_tail _ 6 _ _ _ _ d3
              (cborItems_err_head _ 5 _ e d4)))⟩
        · exact ⟨e, cborItems_err_tail _ 8 _ _ _ _ d1
            (cborItems_err_tail _ 7 _ _ _ _ d2
            (cborItems_err_head _ 6 _ e d3))⟩
      · exact ⟨e, cborItems_err_tail _ 8 _ _ _ _ d1 (cborItems_err_head _ 7 _ e d2)⟩
    · exact ⟨e, cborItems_err_head _ 8 _ e d1⟩
  obtain ⟨e, herr⟩ := herr_items
  refine ⟨e, ?_⟩
  have hBlen : (bin.take (j + 1)).length = j + 1 := by
    rw [List.length_take]
    omega
  unfold dictFromCBOR
  rw [hBlen]
  have hg0 : getU8 (bin.take (j + 1)) 0 = .ok 0x89 := by
    unfold getU8
    rw [if_pos (by omega), getD_take (by omega)]
    rw [hbin]
    rfl
  rw [cborDecode, hg0, except_bind_ok]
  dsimp only []
  rw [show (0x89 : Nat) &&& 0xe0 = 0x80 from rfl, show (0x89 : Nat) &&& 0x1f = 9 from rfl]
  have hrl : cborReadLen (bin.take (j + 1)) 9 1 = .ok (9, 1) := by
    unfold cborReadLen
    rw [if_pos (by omega)]
  rw [hrl, except_bind_ok]
  dsimp only []
  rw [if_neg (by decide), if_neg (by decide), if_pos rfl, herr]
  rfl

theorem C6_core (d : Dict)
    (hn : d.n < 2 ^ 32) (hm : d.m < 2 ^ 32) (hs0 : d.seed0 < 2 ^ 32)
    (hhs : ∃ h, d.hashSeed = some h ∧ h < 2 ^ 32)
    (hbs : d.bucketSizes.length < 2 ^ 32)
    (hss : d.seedStream.length < 2 ^ 32)
    (hbm : ∃ b, d.seedZeroBitmap = some b ∧ b.length < 2 ^ 32)
    (hfp1 : d.validationMode = .vnone → d.fingerprints = none)
    (hfp2 : d.validationMode ≠ .vnone →
      ∃ f, d.fingerprints = some f ∧
        (fpToBytes d.validationMode f).length < 2 ^ 32 ∧
        (d.validationMode = .v16 → ∀ y ∈ f, y < 65536) ∧
        (d.validationMode = .v32 → ∀ y ∈ f, y < 2 ^ 32)) :
    ∀ k, k < (dictToCBOR d).length →
      ∃ e, dictFromCBOR ((dictToCBOR d).take k) = .error e := by
  obtain ⟨n, m, s0, ohs, ss, bs, obm, ofp, vm⟩ := d
  dsimp only [] at hn hm hs0 hhs hbs hss hbm hfp1 hfp2
  obtain ⟨hsv, rfl, hh32⟩ := hhs
  obtain ⟨bm, rfl, hbm32⟩ := hbm
  cases vm with
  | vnone =>
    have hofp : ofp = none := hfp1 rfl
    subst hofp
    exact C6_trunc_layout n m s0 hsv ss bs bm none .vnone [0xf6] .cnull
      hn hm hs0 hh32 hbs hss hbm32 rfl
      (fun buf rest pos fuel hdrop => by
        rw [List.cons_append, List.nil_append] at hdrop
        simpa using cborDecode_null_spec buf _ pos fuel hdrop)
  | v2 =>
    obtain ⟨f, rfl, hfb32, -, -⟩ := hfp2 (by simp)
    exact C6_trunc_layout n m s0 hsv ss bs bm (some f) .v2
      (cborEncodeBytes f) (.cbytes f)
      hn hm hs0 hh32 hbs hss hbm32 rfl
      (fun buf rest pos fuel hdrop => cborDecode_bytes_spec f hfb32 buf rest pos fuel hdrop)
  | v4 =>
    obtain ⟨f, rfl, hfb32, -, -⟩ := hfp2 (by simp)
    exact C6_trunc_layout n m s0 hsv ss bs bm (some f) .v4
      (cborEncodeBytes f) (.cbytes f)
      hn hm hs0 hh32 hbs hss hbm32 rfl
      (fun buf rest pos fuel hdrop => cborDecode_bytes_spec f hfb32 buf rest pos fuel hdrop)
  | v8 =>
    obtain ⟨f, rfl, hfb32, -, -⟩ := hfp2 (by simp)
    exact C6_trunc_layout n m s0 hsv ss bs bm (some f) .v8
      (cborEncodeBytes f) (.cbytes f)
      hn hm hs0 hh32 hbs hss hbm32 rfl
      (fun buf rest pos fuel hdrop => cborDecode_bytes_spec f hfb32 buf rest pos fuel hdrop)
  | v16 =>
    obtain ⟨f, rfl, hfb32, -, -⟩ := hfp2 (by simp)
    exact C6_trunc_layout n m s0 hsv ss bs bm (some f) .v16
      (cborEncodeBytes (toLE2 f)) (.cbytes (toLE2 f))
      hn hm hs0 hh32 hbs hss hbm32 rfl
      (fun buf rest pos fuel hdrop =>
        cborDecode_bytes_spec (toLE2 f) hfb32 buf rest pos fuel hdrop)
  | v32 =>
    obtain ⟨f, rfl, hfb32, -, -⟩ := hfp2 (by simp)
    exact C6_trunc_layout n m s0 hsv ss bs bm (some f) .v32
      (cborEncodeBytes (toLE4 f)) (.cbytes (toLE4 f))
      hn hm hs0 hh32 hbs hss hbm32 rfl
      (fun buf rest pos fuel hdrop =>
        cborDecode_bytes_spec (toLE4 f) hfb32 buf rest pos fuel hdrop)

/-- C6 — COUNTEREXAMPLE.  The mode int is never validated: byte 9 is not
a known mode int (the known ones are 0–5), yet decoding succeeds, silently
defaulting the validation mode to "none" instead of raising a decode
error. -/
theorem C6_counterexample :
    dictFromCBOR [0x89, 0, 0, 0, 0x40, 0x40, 9, 0xf6, 0xf6, 0] =
      .ok ⟨0, 0, 0, some 0, [], [], none, none, .vnone⟩ ∧
    (9 : Nat) ∉ [ MODE_TO_INT .vnone, MODE_TO_INT .v4, MODE_TO_INT .v8,
      MODE_TO_INT .v16, MODE_TO_INT .v32, MODE_TO_INT .v2] := by
  exact ⟨by rfl, by decide⟩

/-- C6 (amended) — truncation IS rejected: decoding any strict prefix of
a built dictionary's serialization raises a typed decode error; but an
unknown mode int is NOT rejected — every int above 5 silently decodes to
validation mode "none" (see the counterexample). -/
theorem C6_truncation (keys : List Str) (level : ℚ) (vm : VMode) (cs : Nat → Nat)
    (d : Dict) (hn : keys.length < 2 ^ 29) (hlevel : 1 ≤ level)
    (hb : build keys level vm cs = .ok d) :
    (∀ k, k < (dictToCBOR d).length →
      ∃ e, dictFromCBOR ((dictToCBOR d).take k) = .error e) ∧
    (∀ i, 5 < i → INT_TO_MODE i = .vnone) := by
  constructor
  · by_cases hne : keys.length = 0
    · have hkeys := List.length_eq_zero.mp hne
      subst hkeys
      unfold build at hb
      dsimp only [] at hb
      rw [if_pos hne] at hb
      have hd : emptyDict = d := Except.ok.inj hb
      subst hd
      intro k hk
      cases hres : dictFromCBOR ((dictToCBOR emptyDict).take k) with
      | error e => exact ⟨e, rfl⟩
      | ok dd =>
        exfalso
        have hall : ∀ k2, k2 < 10 →
            (dictFromCBOR ((dictToCBOR emptyDict).take k2)).isOk = false := by decide
        have hlen10 : (dictToCBOR emptyDict).length = 10 := by decide
        have h2 := hall k (by omega)
        rw [hres] at h2
        simp [Except.isOk, Except.toBool] at h2
    · obtain ⟨w1, w2, w3, w4, w5, w6, w7, w8, w9⟩ :=
        built_dict_wf keys level vm cs d hn hlevel hne hb
      exact C6_core d w1 w2 w3 w4 w5 w6 w7 w8 w9
  · intro i hi
    obtain ⟨ii, rfl⟩ : ∃ ii, i = ii + 6 := ⟨i - 6, by omega⟩
    rfl

/-- C6 witness: the amended theorem at the three-key build. -/
theorem C6_truncation_witness :
    ((∀ k, k < (dictToCBOR ((build [[97], [98], [99]] 5 .v8
        (fun _ => 0)).toOption.getD emptyDict)).length →
      ∃ e, dictFromCBOR ((dictToCBOR ((build [[97], [98], [99]] 5 .v8
        (fun _ => 0)).toOption.getD emptyDict)).take k) = .error e) ∧
    (∀ i, 5 < i → INT_TO_MODE i = .vnone)) :=
  C6_truncation [[97], [98], [99]] 5 .v8 (fun _ => 0) _ (by norm_num) (by norm_num) (by rfl)

/-! ## Lookup layer: query versus queryAll (C10) -/

theorem except_bind_ok2 {eps alpha beta : Type} (a : alpha) (f : alpha → Except eps beta) :
    (Except.ok a : Except eps alpha) >>= f = f a := rfl

theorem except_bind_error2 {eps alpha beta : Type} (e : eps)
    (f : alpha → Except eps beta) :
    (Except.error e : Except eps alpha) >>= f = .error e := rfl

theorem foldl_preserve_mem {α β : Type} (P : β → Prop) (f : β → α → β) :
    ∀ (l : List α) (b : β), P b → (∀ b2 a, a ∈ l → P b2 → P (f b2 a)) →
      P (l.foldl f b) := by
  intro l
  induction l with
  | nil => intro b hb _; exact hb
  | cons a as ih =>
    intro b hb hstep
    rw [List.foldl_cons]
    exact ih (f b a) (hstep b a (List.mem_cons_self a as) hb)
      (fun b2 a2 ha2 hb2 => hstep b2 a2 (List.mem_cons_of_mem a ha2) hb2)

theorem vkUpsert_nonempty {acc : List (Str × List Nat)} {v : Str} {i : Nat}
    (h : ∀ e ∈ acc, 1 ≤ e.2.length) : ∀ e ∈ vkUpsert acc v i, 1 ≤ e.2.length := by
  intro e he
  unfold vkUpsert at he
  by_cases hmem : acc.any (fun e2 => e2.1 == v)
  · rw [if_pos hmem] at he
    obtain ⟨e0, he0, heq⟩ := List.mem_map.mp he
    by_cases hv : e0.1 == v
    · rw [if_pos hv] at heq
      subst heq
      dsimp only []
      rw [List.length_append]
      have := h e0 he0
      omega
    · rw [if_neg hv] at heq
      subst heq
      exact h e0 he0
  · rw [if_neg hmem] at he
    rcases List.mem_append.mp he with he2 | he2
    · exact h e he2
    · rw [List.mem_singleton] at he2
      subst he2
      norm_num

theorem valueToKeysOf_nonempty (M : List (Str × List Str)) :
    ∀ e ∈ valueToKeysOf M, 1 ≤ e.2.length := by
  unfold valueToKeysOf
  apply foldl_preserve (fun acc : List (Str × List Nat) => ∀ e ∈ acc, 1 ≤ e.2.length)
  · intro acc ik hacc
    apply foldl_preserve (fun a : List (Str × List Nat) => ∀ e ∈ a, 1 ≤ e.2.length)
    · intro a v ha
      exact vkUpsert_nonempty ha
    · exact hacc
  · intro e he
    cases he

theorem cmSet_ge {acc : List (Nat × List Nat)} {h : Nat} {ks : List Nat} {c : Nat}
    (hacc : ∀ e ∈ acc, c ≤ e.2.length) (hks : c ≤ ks.length) :
    ∀ e ∈ cmSet acc h ks, c ≤ e.2.length := by
  intro e he
  unfold cmSet at he
  by_cases hmem : acc.any (fun e2 => e2.1 == h)
  · rw [if_pos hmem] at he
    obtain ⟨e0, he0, heq⟩ := List.mem_map.mp he
    by_cases hv : e0.1 == h
    · rw [if_pos hv] at heq
      subst heq
      exact hks
    · rw [if_neg hv] at heq
      subst heq
      exact hacc e0 he0
  · rw [if_neg hmem] at he
    rcases List.mem_append.mp he with he2 | he2
    · exact hacc e he2
    · rw [List.mem_singleton] at he2
      subst he2
      exact hks

theorem mode1Collisions_ge2 (mph : MPH) (vks : List (Str × List Nat))
    (hvks : ∀ e ∈ vks, 1 ≤ e.2.length) :
    ∀ e ∈ mode1Collisions mph vks, 2 ≤ e.2.length := by
  unfold mode1Collisions
  apply foldl_preserve_mem (fun acc : List (Nat × List Nat) => ∀ e ∈ acc, 2 ≤ e.2.length)
  · intro e he
    cases he
  · intro acc e2 he2 hacc
    dsimp only []
    by_cases hg : 0 ≤ mph.hash e2.1 ∧ e2.2.length ≠ 1
    · rw [if_pos hg]
      apply cmSet_ge hacc
      have := hvks e2 he2
      omega
    · rw [if_neg hg]
      exact hacc

theorem cmGet_mem {cm : List (Nat × List Nat)} {h : Nat} {indices : List Nat}
    (hg : cmGet cm h = some indices) : ∃ e ∈ cm, e.2 = indices := by
  unfold cmGet at hg
  cases hf : cm.find? (fun e => e.1 == h) with
  | none => rw [hf] at hg; cases hg
  | some e =>
    rw [hf] at hg
    have h2 : some e.2 = some indices := hg
    cases h2
    exact ⟨e, List.mem_of_find?_eq_some hf, rfl⟩

theorem buildLookup_ok_inv {M : List (Str × List Str)} {level : ℚ} {vm : VMode}
    {cs : Nat → Nat} {d : LookupDict} (h : buildLookup M level vm cs = .ok d) :
    ∃ mphDict, build (allValuesOf M) level vm cs = .ok mphDict ∧
      (d = { mmpHashDictBin := dictToCBOR mphDict, keys := M.map Prod.fst,
             keyToHashes := none,
             valueToKeyIndexes := some (mode1Packed
               (mode1Map (mphOfBin (dictToCBOR mphDict)) (M.map Prod.fst).length
                 (valueToKeysOf M))
               (Nat.clog 2 ((M.map Prod.fst).length + 1))),
             bitsPerKey := some (Nat.clog 2 ((M.map Prod.fst).length + 1)),
             collisionMap := if 0 < (mode1Collisions (mphOfBin (dictToCBOR mphDict))
                 (valueToKeysOf M)).length
               then some (mode1Collisions (mphOfBin (dictToCBOR mphDict))
                 (valueToKeysOf M))
               else none } ∨
       d = { mmpHashDictBin := dictToCBOR mphDict, keys := M.map Prod.fst,
             keyToHashes := some (mode0KeyToHashes (mphOfBin (dictToCBOR mphDict)) M),
             valueToKeyIndexes := none, bitsPerKey := none, collisionMap := none }) := by
  unfold buildLookup at h
  dsimp only [] at h
  cases hbm : build (allValuesOf M) level vm cs with
  | error e =>
    rw [hbm, except_bind_error2] at h
    cases h
  | ok mphDict =>
    rw [hbm, except_bind_ok2] at h
    refine ⟨mphDict, rfl, ?_⟩
    by_cases hthr : ((valueToKeysOf M).countP fun e => decide (1 < e.2.length) : ℚ) <
        ((allValuesOf M).length : ℚ) * (1 / 10)
    · rw [if_pos hthr] at h
      exact Or.inl (Except.ok.inj h).symm
    · rw [if_neg hthr] at h
      exact Or.inr (Except.ok.inj h).symm

theorem mode1Active_eq (d : LookupDict) :
    mode1Active d = (d.valueToKeyIndexes.isSome && (d.bitsPerKey.getD 0 != 0)) := rfl

theorem query_inactive_none (d : LookupDict) (v : Str)
    (hact : mode1Active d = false) (hqa : queryAll d v = none) : query d v = none := by
  unfold query
  rw [if_neg (by simp [hact]), hqa]

theorem query_inactive_some (d : LookupDict) (v : Str) (l : List Str)
    (hact : mode1Active d = false) (hqa : queryAll d v = some l) :
    query d v = if 0 < l.length then some (l.getD 0 []) else none := by
  unfold query
  rw [if_neg (by simp [hact]), hqa]

theorem queryAll_inactive_none (d : LookupDict) (v : Str)
    (hact : mode1Active d = false) (hkth : d.keyToHashes = none) :
    queryAll d v = none := by
  unfold queryAll
  rw [if_neg (by simp [hact])]
  dsimp only []
  rw [hkth]

theorem queryAll_inactive_nonempty (d : LookupDict) (v : Str)
    (hact : mode1Active d = false) {l : List Str}
    (hl : queryAll d v = some l) : 0 < l.length := by
  unfold queryAll at hl
  rw [if_neg (by simp [hact])] at hl
  dsimp only [] at hl
  cases hkth : d.keyToHashes with
  | none =>
    rw [hkth] at hl
    cases hl
  | some kth =>
    rw [hkth] at hl
    dsimp only [] at hl
    by_cases hneg : (mphOfBin d.mmpHashDictBin).hash v < 0
    · rw [if_pos hneg] at hl
      cases hl
    · rw [if_neg hneg] at hl
      by_cases hlen : (invertedIndexOf (mphOfBin d.mmpHashDictBin).n kth).length ≤
          ((mphOfBin d.mmpHashDictBin).hash v).toNat
      · rw [if_pos hlen] at hl
        cases hl
      · rw [if_neg hlen] at hl
        by_cases hemp : ((invertedIndexOf (mphOfBin d.mmpHashDictBin).n kth).getD
            ((mphOfBin d.mmpHashDictBin).hash v).toNat []).length = 0
        · rw [if_pos hemp] at hl
          cases hl
        · rw [if_neg hemp] at hl
          have h3 : some (((invertedIndexOf (mphOfBin d.mmpHashDictBin).n kth).getD
              ((mphOfBin d.mmpHashDictBin).hash v).toNat []).map
              fun i => d.keys.getD i []) = some l := hl
          have h4 := Option.some.inj h3
          rw [← h4, List.length_map]
          omega

theorem query_queryAll_active (d : LookupDict) (v : Str)
    (hact : mode1Active d = true)
    (hcm : ∀ cm, d.collisionMap = some cm → ∀ e ∈ cm, 2 ≤ e.2.length) :
    (query d v = none ↔ queryAll d v = none) ∧
    (∀ l, queryAll d v = some l → query d v = some (l.getD 0 [])) := by
  unfold query queryAll
  rw [if_pos hact, if_pos hact]
  dsimp only []
  by_cases hguard : (mphOfBin d.mmpHashDictBin).hash v < 0 ∨
      ((mphOfBin d.mmpHashDictBin).n : Int) ≤ (mphOfBin d.mmpHashDictBin).hash v
  · rw [if_pos hguard, if_pos hguard]
    exact ⟨iff_of_true rfl rfl, fun l hl => by cases hl⟩
  · rw [if_neg hguard, if_neg hguard]
    by_cases hsent : readBitsAt (d.valueToKeyIndexes.getD [])
        (((mphOfBin d.mmpHashDictBin).hash v).toNat * d.bitsPerKey.getD 0)
        (d.bitsPerKey.getD 0) = d.keys.length
    · rw [if_pos hsent, if_pos hsent]
      cases hcmv : d.collisionMap with
      | none =>
        dsimp only []
        exact ⟨iff_of_true rfl rfl, fun l hl => by cases hl⟩
      | some cm =>
        dsimp only []
        cases hget : cmGet cm ((mphOfBin d.mmpHashDictBin).hash v).toNat with
        | none =>
          dsimp only []
          exact ⟨iff_of_true rfl rfl, fun l hl => by cases hl⟩
        | some indices =>
          dsimp only []
          obtain ⟨e, hecm, heq⟩ := cmGet_mem hget
          have hlen : 2 ≤ indices.length := heq ▸ hcm cm hcmv e hecm
          rw [if_pos (show 0 < indices.length by omega)]
          refine ⟨by constructor <;> (intro hc; cases hc), ?_⟩
          intro l hl
          have h2 := Option.some.inj hl
          rw [← h2]
          congr 1
          rw [getD_map_of_lt _ _ _ 0 _ (by omega)]
    · rw [if_neg hsent, if_neg hsent]
      by_cases hover : d.keys.length ≤ readBitsAt (d.valueToKeyIndexes.getD [])
          (((mphOfBin d.mmpHashDictBin).hash v).toNat * d.bitsPerKey.getD 0)
          (d.bitsPerKey.getD 0)
      · rw [if_pos hover, if_pos hover]
        exact ⟨iff_of_true rfl rfl, fun l hl => by cases hl⟩
      · rw [if_neg hover, if_neg hover]
        refine ⟨by constructor <;> (intro hc; cases hc), ?_⟩
        intro l hl
        have h2 := Option.some.inj hl
        rw [← h2]
        rfl

/-- C10 — on every builder-produced lookup dictionary, `query` is null
exactly when `queryAll` is null, and on a non-empty `queryAll` result
`query` returns its first element. -/
theorem C10_query_consistent (M : List (Str × List Str)) (level : ℚ) (vm : VMode)
    (cs : Nat → Nat) (d : LookupDict) (v : Str)
    (hb : buildLookup M level vm cs = .ok d) :
    (query d v = none ↔ queryAll d v = none) ∧
    (∀ l, queryAll d v = some l → 0 < l.length → query d v = some (l.getD 0 [])) := by
  obtain ⟨mphDict, hbm, hd | hd⟩ := buildLookup_ok_inv hb
  · -- Mode 1 record
    have hvki : d.valueToKeyIndexes.isSome = true := by
      rw [hd]
      rfl
    have hbpk : d.bitsPerKey = some (Nat.clog 2 ((M.map Prod.fst).length + 1)) := by
      rw [hd]
    have hkth : d.keyToHashes = none := by
      rw [hd]
    have hcmf : ∀ cm, d.collisionMap = some cm → ∀ e ∈ cm, 2 ≤ e.2.length := by
      rw [hd]
      intro cm hcm e he
      dsimp only [] at hcm
      by_cases h0 : 0 < (mode1Collisions (mphOfBin (dictToCBOR mphDict))
          (valueToKeysOf M)).length
      · rw [if_pos h0] at hcm
        have h1 := Option.some.inj hcm
        rw [← h1] at he
        exact mode1Collisions_ge2 _ _ (valueToKeysOf_nonempty M) e he
      · rw [if_neg h0] at hcm
        cases hcm
    by_cases hbits : Nat.clog 2 (M.length + 1) = 0
    · have hact : mode1Active d = false := by
        rw [mode1Active_eq, hvki, hbpk]
        simp [hbits]
      have hqa := queryAll_inactive_none d v hact hkth
      rw [query_inactive_none d v hact hqa, hqa]
      exact ⟨iff_of_true rfl rfl, fun l hl => by cases hl⟩
    · have hact : mode1Active d = true := by
        rw [mode1Active_eq, hvki, hbpk]
        simp [hbits]
      obtain ⟨h1, h2⟩ := query_queryAll_active d v hact hcmf
      exact ⟨h1, fun l hl _ => h2 l hl⟩
  · -- Mode 0 record
    have hact : mode1Active d = false := by
      rw [hd]
      rfl
    constructor
    · cases hqa : queryAll d v with
      | none =>
        rw [query_inactive_none d v hact hqa]
        exact iff_of_true rfl rfl
      | some l =>
        rw [query_inactive_some d v l hact hqa,
          if_pos (queryAll_inactive_nonempty d v hact hqa)]
        constructor
        · intro hc
          cases hc
        · intro hc
          cases hc
    · intro l hl _
      rw [query_inactive_some d v l hact hl,
        if_pos (queryAll_inactive_nonempty d v hact hl)]

/-- C10 witness: the key "A" owning the value "v" twice builds a Mode 0
lookup dictionary; both halves are instantiated at input "v". -/
theorem C10_query_consistent_witness :
    let R : LookupDict :=
      { mmpHashDictBin := dictToCBOR ((build [[118]] 5 VMode.v8 (fun _ => 0)).toOption.getD
          ⟨0, 0, 0, some 0, [], [], none, none, .vnone⟩),
        keys := [[65]],
        keyToHashes := some (mode0KeyToHashes (mphOfBin (dictToCBOR ((build [[118]] 5
          VMode.v8 (fun _ => 0)).toOption.getD ⟨0, 0, 0, some 0, [], [], none, none,
          .vnone⟩))) [([65], [[118], [118]])]),
        valueToKeyIndexes := none, bitsPerKey := none, collisionMap := none }
    (query R [118] = none ↔ queryAll R [118] = none) ∧
    (∀ l, queryAll R [118] = some l → 0 < l.length →
      query R [118] = some (l.getD 0 [])) := by
  intro R
  exact C10_query_consistent [([65], [[118], [118]])] 5 .v8 (fun _ => 0) R [118] (by
    unfold buildLookup
    dsimp only []
    rw [show build (allValuesOf [([65], [[118], [118]])]) 5 VMode.v8 (fun _ => 0) =
      .ok ((build [[118]] 5 VMode.v8 (fun _ => 0)).toOption.getD
        ⟨0, 0, 0, some 0, [], [], none, none, .vnone⟩) from by rfl, except_bind_ok2]
    rw [if_neg (show ¬(((List.countP (fun e => decide (1 < e.2.length))
        (valueToKeysOf [([65], [[118], [118]])]) : Nat) : ℚ) <
        (((allValuesOf [([65], [[118], [118]])]).length : Nat) : ℚ) * (1 / 10)) from by
      rw [show List.countP (fun e => decide (1 < e.2.length))
          (valueToKeysOf [([65], [[118], [118]])]) = 1 from by rfl,
        show (allValuesOf [([65], [[118], [118]])]).length = 1 from by rfl]
      norm_num)]
    rfl)

/-! ## The `valueToKeys` insertion-ordered multimap (C8) -/

theorem dedupFirst_concat (l : List Str) (w : Str) :
    dedupFirst (l ++ [w]) =
      if w ∈ dedupFirst l then dedupFirst l else dedupFirst l ++ [w] := by
  unfold dedupFirst
  rw [List.foldl_concat]

theorem mem_dedupFirst (l : List Str) (x : Str) : x ∈ dedupFirst l ↔ x ∈ l := by
  induction l using List.reverseRecOn with
  | nil => exact Iff.rfl
  | append_singleton t w ih =>
    rw [dedupFirst_concat]
    by_cases hw : w ∈ dedupFirst t
    · rw [if_pos hw, List.mem_append, List.mem_singleton]
      constructor
      · intro h
        exact Or.inl (ih.mp h)
      · intro h
        rcases h with h | h
        · exact ih.mpr h
        · rw [h]
          exact hw
    · rw [if_neg hw, List.mem_append, List.mem_append]
      simp [ih]

theorem dedupFirst_nodup (l : List Str) : (dedupFirst l).Nodup := by
  induction l using List.reverseRecOn with
  | nil => exact List.nodup_nil
  | append_singleton t w ih =>
    rw [dedupFirst_concat]
    by_cases hw : w ∈ dedupFirst t
    · rw [if_pos hw]
      exact ih
    · rw [if_neg hw]
      exact List.Nodup.append ih (List.nodup_singleton w)
        (by
          intro a ha hb
          rw [List.mem_singleton] at hb
          subst hb
          exact hw ha)

theorem vk_fold_spec (S : List (Nat × Str)) :
    S.foldl (fun a p => vkUpsert a p.2 p.1) [] =
      (dedupFirst (S.map Prod.snd)).map
        (fun v => (v, (S.filter (fun p => p.2 == v)).map Prod.fst)) := by
  induction S using List.reverseRecOn with
  | nil => rfl
  | append_singleton T q ih =>
    rw [List.foldl_concat, ih, List.map_append, List.map_singleton, dedupFirst_concat]
    by_cases hw : q.2 ∈ dedupFirst (T.map Prod.snd)
    · rw [if_pos hw]
      unfold vkUpsert
      rw [if_pos (by
        rw [List.any_eq_true]
        refine ⟨(q.2, ((T.filter (fun p => p.2 == q.2)).map Prod.fst)), ?_, by simp⟩
        rw [List.mem_map]
        exact ⟨q.2, hw, rfl⟩)]
      rw [List.map_map]
      apply List.map_congr_left
      intro v hv
      dsimp only [Function.comp]
      by_cases hvq : v = q.2
      · subst hvq
        simp [List.filter_append, List.filter_singleton]
      · simp [List.filter_append, List.filter_singleton, hvq, Ne.symm hvq]
    · rw [if_neg hw]
      unfold vkUpsert
      rw [if_neg (by
        rw [Bool.not_eq_true, ← Bool.not_eq_true, List.any_eq_true]
        intro hexists
        obtain ⟨e, he, heq⟩ := hexists
        rw [List.mem_map] at he
        obtain ⟨v, hv, rfl⟩ := he
        rw [beq_iff_eq] at heq
        dsimp only [] at heq
        exact hw (heq ▸ hv))]
      rw [List.map_append]
      congr 1
      · apply List.map_congr_left
        intro v hv
        have hvq : ¬ q.2 = v := fun h => hw (h ▸ hv)
        simp [List.filter_append, List.filter_singleton, hvq]
      · rw [List.map_singleton]
        have hTq : List.filter (fun p => p.2 == q.2) T = [] := by
          rw [List.filter_eq_nil_iff]
          intro p hp hpq
          rw [beq_iff_eq] at hpq
          exact hw (by
            rw [mem_dedupFirst]
            exact hpq ▸ List.mem_map_of_mem Prod.snd hp)
        simp [List.filter_append, List.filter_singleton, hTq]

theorem vk_outer_fold (L : List (Nat × List Str)) :
    ∀ acc : List (Str × List Nat),
      L.foldl (fun acc2 il => il.2.foldl (fun a v => vkUpsert a v il.1) acc2) acc =
      ((L.map fun il => il.2.map fun v => (il.1, v)).flatten).foldl
        (fun a p => vkUpsert a p.2 p.1) acc := by
  induction L with
  | nil =>
    intro acc
    rfl
  | cons e L ih =>
    intro acc
    rw [List.foldl_cons, List.map_cons, show ((e.2.map fun v => (e.1, v)) ::
        (L.map fun il => il.2.map fun v => (il.1, v))).flatten =
      (e.2.map fun v => (e.1, v)) ++
        (L.map fun il => il.2.map fun v => (il.1, v)).flatten from rfl,
      List.foldl_append, ih, List.foldl_map]

theorem valueToKeysOf_spec (M : List (Str × List Str)) :
    valueToKeysOf M = (allValuesOf M).map
      (fun v => (v, (M.enum.map fun ie =>
        List.replicate (ie.2.2.count v) ie.1).flatten)) := by
  unfold valueToKeysOf
  have h1 : M.enum.foldl (fun acc ik => ik.2.2.foldl (fun a v => vkUpsert a v ik.1) acc)
      ([] : List (Str × List Nat)) =
      (M.enum.map fun ik => (ik.1, ik.2.2)).foldl
        (fun acc il => il.2.foldl (fun a v => vkUpsert a v il.1) acc) [] := by
    rw [List.foldl_map]
  rw [h1, vk_outer_fold, vk_fold_spec]
  have hmm : ((M.enum.map fun ik => ((ik.1, ik.2.2) : Nat × List Str)).map
      fun il => il.2.map fun v => (il.1, v)) =
      M.enum.map fun ik => ik.2.2.map fun v => (ik.1, v) := by
    rw [List.map_map]
    rfl
  rw [hmm]
  have hsnd : ((M.enum.map fun ik => ik.2.2.map fun v => (ik.1, v)).flatten).map Prod.snd =
      (M.map Prod.snd).flatten := by
    rw [List.map_flatten, List.map_map]
    congr 1
    have h2 : (M.enum.map fun ik => (ik.2.2.map fun v => (ik.1, v)).map Prod.snd) =
        M.enum.map fun ik => ik.2.2 := by
      apply List.map_congr_left
      intro ik _
      rw [List.map_map]
      exact List.map_id ik.2.2
    have h3 : (List.map Prod.snd ∘ fun ik : Nat × (Str × List Str) =>
        ik.2.2.map fun v => (ik.1, v)) = fun ik => (ik.2.2.map fun v => (ik.1, v)).map
        Prod.snd := rfl
    rw [h3, h2]
    have h4 : (M.enum.map fun ik => ik.2.2) = (M.enum.map Prod.snd).map Prod.snd := by
      rw [List.map_map]
      rfl
    rw [h4, List.enum_map_snd]
  rw [show (M.map Prod.snd).flatten = (M.map Prod.snd).flatten from rfl] at hsnd
  rw [hsnd]
  have hall : dedupFirst ((M.map Prod.snd).flatten) = allValuesOf M := rfl
  rw [hall]
  apply List.map_congr_left
  intro v hv
  congr 1
  rw [List.filter_flatten, List.map_flatten, List.map_map, List.map_map]
  congr 1
  apply List.map_congr_left
  intro ik _
  dsimp only [Function.comp]
  rw [List.map_filter, List.map_map]
  show (List.filter ((fun p : Nat × Str => p.2 == v) ∘ fun w => (ik.1, w)) ik.2.2).map
      (fun _ => ik.1) = List.replicate (ik.2.2.count v) ik.1
  rw [List.map_const']
  congr 1
  rw [List.count_eq_countP, List.countP_eq_length_filter]
  rfl

/-! ## The embedded MPHF through its serialized form (C8) -/

theorem mph_n_ofDict (d : Dict) : (MPH.ofDict d).n = d.n := by
  unfold MPH.ofDict
  by_cases h : d.n = 0
  · rw [if_pos h, h]
  · rw [if_neg h]

theorem mphOfBin_built (keys : List Str) (level : ℚ) (vm : VMode) (cs : Nat → Nat)
    (D : Dict) (hn : keys.length < 2 ^ 29) (hlevel : 1 ≤ level)
    (hne : keys.length ≠ 0) (hb : build keys level vm cs = .ok D) :
    mphOfBin (dictToCBOR D) = MPH.ofDict D := by
  obtain ⟨h1, h2, h3, h4, h5, h6, h7, h8, h9⟩ :=
    built_dict_wf keys level vm cs D hn hlevel hne hb
  have hdec := C2_core D h1 h2 h3 h4 h5 h6 h7 h8 h9
  unfold mphOfBin
  rw [hdec]
  rfl

theorem built_mph_facts (keys : List Str) (level : ℚ) (vm : VMode) (cs : Nat → Nat)
    (D : Dict) (hne : keys.length ≠ 0) (hb : build keys level vm cs = .ok D) :
    (MPH.ofDict D).n = keys.length ∧
    ∃ slot : Str → Nat,
      (∀ x ∈ keys, (MPH.ofDict D).hash x = ((slot x : Nat) : Int)) ∧
      (∀ x ∈ keys, slot x < keys.length) ∧
      (∀ x ∈ keys, ∀ y ∈ keys, x ≠ y → slot x ≠ slot y) := by
  obtain ⟨hs, s0, ds, hd, hle15, hnd, hperm, hval⟩ :=
    built_hash_eq_slot keys level vm cs D hne hb
  have hn : (MPH.ofDict D).n = keys.length := by
    rw [mph_n_ofDict, hd]
    exact (builtDictOf_fields keys level vm hs s0 ds).1
  have hpre : preHashes keys hs = keys.map
      (fun x => (murmurHash3_32 x hs, murmurHash3_32 x (not32 hs))) := rfl
  have hmapped : ((preHashes keys hs).map (slotOf (preHashes keys hs) s0
      (computeM keys.length level)
      (ds.map fun dd => if seedOmitted dd then 0 else dd.2))) =
      keys.map (fun x => slotOf (preHashes keys hs) s0 (computeM keys.length level)
        (ds.map fun dd => if seedOmitted dd then 0 else dd.2)
        (murmurHash3_32 x hs, murmurHash3_32 x (not32 hs))) := by
    rw [hpre, List.map_map]
    rfl
  have hmem : ∀ x ∈ keys, slotOf (preHashes keys hs) s0 (computeM keys.length level)
      (ds.map fun dd => if seedOmitted dd then 0 else dd.2)
      (murmurHash3_32 x hs, murmurHash3_32 x (not32 hs)) < keys.length := by
    intro x hx
    have h1 : slotOf (preHashes keys hs) s0 (computeM keys.length level)
        (ds.map fun dd => if seedOmitted dd then 0 else dd.2)
        (murmurHash3_32 x hs, murmurHash3_32 x (not32 hs)) ∈
        keys.map (fun x => slotOf (preHashes keys hs) s0 (computeM keys.length level)
          (ds.map fun dd => if seedOmitted dd then 0 else dd.2)
          (murmurHash3_32 x hs, murmurHash3_32 x (not32 hs))) :=
      List.mem_map_of_mem _ hx
    rw [← hmapped] at h1
    have h2 := (hperm.mem_iff).mp h1
    exact List.mem_range.mp h2
  have hinj : ∀ x ∈ keys, ∀ y ∈ keys, x ≠ y →
      slotOf (preHashes keys hs) s0 (computeM keys.length level)
        (ds.map fun dd => if seedOmitted dd then 0 else dd.2)
        (murmurHash3_32 x hs, murmurHash3_32 x (not32 hs)) ≠
      slotOf (preHashes keys hs) s0 (computeM keys.length level)
        (ds.map fun dd => if seedOmitted dd then 0 else dd.2)
        (murmurHash3_32 y hs, murmurHash3_32 y (not32 hs)) := by
    have hndm : (keys.map (fun x => slotOf (preHashes keys hs) s0
        (computeM keys.length level)
        (ds.map fun dd => if seedOmitted dd then 0 else dd.2)
        (murmurHash3_32 x hs, murmurHash3_32 x (not32 hs)))).Nodup := by
      rw [← hmapped]
      exact hperm.nodup_iff.mpr (List.nodup_range keys.length)
    intro x hx y hy hxy heq
    exact hxy (List.inj_on_of_nodup_map hndm hx hy heq)
  exact ⟨hn, _, hval, hmem, hinj⟩

/-! ## Mode 0: sorted hash lists and the inverted index (C8) -/

theorem getD_set_ne2 {α : Type} (l : List α) {i j : Nat} (x d : α) (h : i ≠ j) :
    (l.set i x).getD j d = l.getD j d := by
  rw [List.getD_eq_getElem?_getD, List.getD_eq_getElem?_getD, List.getElem?_set_ne h]

theorem getD_set_self2 {α : Type} (l : List α) (i : Nat) (x d : α) (h : i < l.length) :
    (l.set i x).getD i d = x := by
  rw [List.getD_eq_getElem?_getD, List.getElem?_set_self]
  · rfl
  · exact h

theorem getD_replicate2 {α : Type} (n i : Nat) (d : α) :
    (List.replicate n d).getD i d = d := by
  rw [List.getD_eq_getElem?_getD]
  by_cases h : i < n
  · rw [List.getElem?_eq_getElem (by simpa using h)]
    simp
  · rw [List.getElem?_eq_none (by simpa using h)]
    rfl

theorem count_insertAsc (x y : Nat) : ∀ l : List Nat,
    (insertAsc x l).count y = (x :: l).count y := by
  intro l
  induction l with
  | nil => rfl
  | cons y0 ys ih =>
    rw [insertAsc]
    by_cases hle : x ≤ y0
    · rw [if_pos hle]
    · rw [if_neg hle]
      rw [List.count_cons, ih, List.count_cons, List.count_cons, List.count_cons]
      omega

theorem count_sortAsc (l : List Nat) (y : Nat) : (sortAsc l).count y = l.count y := by
  unfold sortAsc
  induction l with
  | nil => rfl
  | cons x xs ih =>
    rw [List.foldr_cons, count_insertAsc, List.count_cons, List.count_cons, ih]

theorem inv_inner_fold (n s : Nat) (i : Nat) :
    ∀ (l : List Nat) (acc : List (List Nat)), acc.length = n → s < n →
      (l.foldl (fun a h => if h < n then a.set h (a.getD h [] ++ [i]) else a) acc).length
        = n ∧
      (l.foldl (fun a h => if h < n then a.set h (a.getD h [] ++ [i]) else a) acc).getD s []
        = acc.getD s [] ++ List.replicate (l.count s) i := by
  intro l
  induction l with
  | nil =>
    intro acc hlen hs
    exact ⟨hlen, by rw [List.count_nil, List.replicate_zero, List.append_nil]; rfl⟩
  | cons h t ih =>
    intro acc hlen hs
    rw [List.foldl_cons]
    by_cases hhn : h < n
    · rw [if_pos hhn]
      have hlen2 : (acc.set h (acc.getD h [] ++ [i])).length = n := by
        rw [List.length_set]
        exact hlen
      obtain ⟨hl3, hg3⟩ := ih (acc.set h (acc.getD h [] ++ [i])) hlen2 hs
      refine ⟨hl3, ?_⟩
      rw [hg3]
      by_cases hhs : h = s
      · subst hhs
        rw [getD_set_self2 _ _ _ _ (by omega)]
        simp [List.count_cons, List.append_assoc, List.replicate_succ]
      · rw [getD_set_ne2 _ _ _ hhs]
        rw [List.count_cons, if_neg (by simp [hhs]), Nat.add_zero]
    · rw [if_neg hhn]
      obtain ⟨hl3, hg3⟩ := ih acc hlen hs
      refine ⟨hl3, ?_⟩
      rw [hg3]
      have hhs : ¬ h = s := fun hc => hhn (hc ▸ hs)
      rw [List.count_cons, if_neg (by simp [hhs]), Nat.add_zero]

theorem inv_outer_fold (n s : Nat) :
    ∀ (kth : List (List Nat)) (j : Nat) (acc : List (List Nat)), acc.length = n → s < n →
      ((List.enumFrom j kth).foldl (fun acc2 ih2 => ih2.2.foldl
        (fun a h => if h < n then a.set h (a.getD h [] ++ [ih2.1]) else a) acc2)
        acc).length = n ∧
      ((List.enumFrom j kth).foldl (fun acc2 ih2 => ih2.2.foldl
        (fun a h => if h < n then a.set h (a.getD h [] ++ [ih2.1]) else a) acc2)
        acc).getD s [] =
        acc.getD s [] ++
          ((List.enumFrom j kth).map fun il => List.replicate (il.2.count s) il.1).flatten
      := by
  intro kth
  induction kth with
  | nil =>
    intro j acc hlen hs
    refine ⟨hlen, ?_⟩
    rw [show (List.enumFrom j ([] : List (List Nat))).map
      (fun il => List.replicate (il.2.count s) il.1) = [] from rfl]
    rw [show ([] : List (List Nat)).flatten = [] from rfl, List.append_nil]
    rfl
  | cons l rest ih =>
    intro j acc hlen hs
    rw [show List.enumFrom j (l :: rest) = (j, l) :: List.enumFrom (j + 1) rest from rfl]
    rw [List.foldl_cons]
    obtain ⟨hl1, hg1⟩ := inv_inner_fold n s j l acc hlen hs
    obtain ⟨hl2, hg2⟩ := ih (j + 1)
      (l.foldl (fun a h => if h < n then a.set h (a.getD h [] ++ [j]) else a) acc) hl1 hs
    refine ⟨hl2, ?_⟩
    rw [hg2, hg1]
    rw [List.map_cons, show (List.replicate (l.count s) j ::
      (List.enumFrom (j + 1) rest).map fun il => List.replicate (il.2.count s) il.1).flatten
      = List.replicate (l.count s) j ++
        ((List.enumFrom (j + 1) rest).map fun il =>
          List.replicate (il.2.count s) il.1).flatten from rfl]
    rw [List.append_assoc]

theorem invertedIndexOf_spec (n : Nat) (kth : List (List Nat)) :
    (invertedIndexOf n kth).length = n ∧
    ∀ s, s < n → (invertedIndexOf n kth).getD s [] =
      (kth.enum.map fun il => List.replicate (il.2.count s) il.1).flatten := by
  unfold invertedIndexOf
  constructor
  · by_cases hn0 : 0 < n
    · exact (inv_outer_fold n 0 kth 0 (List.replicate n []) (by simp) hn0).1
    · have hn : n = 0 := by omega
      subst hn
      have : ∀ (L : List (Nat × List Nat)) (acc : List (List Nat)), acc.length = 0 →
          (L.foldl (fun acc2 ih2 => ih2.2.foldl
            (fun a h => if h < 0 then a.set h (a.getD h [] ++ [ih2.1]) else a) acc2)
            acc).length = 0 := by
        intro L
        induction L with
        | nil => intro acc h; exact h
        | cons e rest ih =>
          intro acc h
          rw [List.foldl_cons]
          apply ih
          have : ∀ (l2 : List Nat) (a2 : List (List Nat)), a2.length = 0 →
              (l2.foldl (fun a h => if h < 0 then a.set h (a.getD h [] ++ [e.1]) else a)
                a2).length = 0 := by
            intro l2
            induction l2 with
            | nil => intro a2 h2; exact h2
            | cons x xs ih2 =>
              intro a2 h2
              rw [List.foldl_cons, if_neg (by omega)]
              exact ih2 a2 h2
          exact this e.2 acc h
      exact this kth.enum (List.replicate 0 []) (by simp)
  · intro s hs
    have h1 := (inv_outer_fold n s kth 0 (List.replicate n []) (by simp) hs).2
    rw [show List.enum kth = List.enumFrom 0 kth from rfl]
    rw [h1, getD_replicate2, List.nil_append]

/-! ## Mode 0 `queryAll` returns the owners with multiplicity (C8) -/

theorem countP_congr_mem {α : Type} (l : List α) (p q : α → Bool)
    (h : ∀ a ∈ l, p a = q a) : l.countP p = l.countP q := by
  induction l with
  | nil => rfl
  | cons x xs ih =>
    rw [List.countP_cons, List.countP_cons, h x (List.mem_cons_self x xs),
      ih (fun a ha => h a (List.mem_cons_of_mem x ha))]

theorem mem_allValuesOf (M : List (Str × List Str)) (v : Str) :
    v ∈ allValuesOf M ↔ ∃ e ∈ M, v ∈ e.2 := by
  unfold allValuesOf
  rw [mem_dedupFirst, List.mem_flatten]
  constructor
  · intro h
    obtain ⟨l, hl, hvl⟩ := h
    obtain ⟨e, he, rfl⟩ := List.mem_map.mp hl
    exact ⟨e, he, hvl⟩
  · intro h
    obtain ⟨e, he, hve⟩ := h
    exact ⟨e.2, List.mem_map_of_mem Prod.snd he, hve⟩

theorem enum_pair_spec {α : Type} (l : List α) (p : Nat × α) (hp : p ∈ l.enum) :
    p.1 < l.length ∧ ∀ d : α, l.getD p.1 d = p.2 := by
  refine ⟨List.fst_lt_of_mem_enum hp, ?_⟩
  intro d
  rw [List.getD_eq_getElem?_getD, List.mem_enum_iff_getElem?.mp hp]
  rfl

theorem mode0_count_transport (M : List (Str × List Str)) (mph : MPH)
    (slot : Str → Nat)
    (hhash : ∀ x ∈ allValuesOf M, mph.hash x = ((slot x : Nat) : Int))
    (hinj : ∀ x ∈ allValuesOf M, ∀ y ∈ allValuesOf M, x ≠ y → slot x ≠ slot y)
    (v : Str) (hv : v ∈ allValuesOf M) (e : Str × List Str) (he : e ∈ M) :
    (sortAsc (((e.2.map mph.hash).filter (fun h => 0 ≤ h)).map Int.toNat)).count
      (slot v) = e.2.count v := by
  have hmemw : ∀ w ∈ e.2, w ∈ allValuesOf M := by
    intro w hw
    exact (mem_allValuesOf M w).mpr ⟨e, he, hw⟩
  have hfilter : (e.2.map mph.hash).filter (fun h => decide (0 ≤ h)) =
      e.2.map mph.hash := by
    rw [List.filter_eq_self]
    intro b hb
    obtain ⟨w, hw, rfl⟩ := List.mem_map.mp hb
    rw [hhash w (hmemw w hw)]
    simp
  rw [count_sortAsc, hfilter, List.map_map, List.count_eq_countP, List.countP_map]
  rw [countP_congr_mem _ _ (fun w => w == v) (by
    intro w hw
    dsimp only [Function.comp]
    rw [hhash w (hmemw w hw), Int.toNat_ofNat]
    by_cases hwv : w = v
    · subst hwv
      simp
    · have := hinj w (hmemw w hw) v hv hwv
      simp [hwv, this])]
  rfl

theorem mode0_queryAll_spec (M : List (Str × List Str)) (level : ℚ) (vm : VMode)
    (cs : Nat → Nat) (mphDict : Dict)
    (hn29 : (allValuesOf M).length < 2 ^ 29) (hlevel : 1 ≤ level)
    (hbm : build (allValuesOf M) level vm cs = .ok mphDict)
    (v : Str) (hv : v ∈ allValuesOf M) :
    queryAll
      { mmpHashDictBin := dictToCBOR mphDict, keys := M.map Prod.fst,
        keyToHashes := some (mode0KeyToHashes (mphOfBin (dictToCBOR mphDict)) M),
        valueToKeyIndexes := none, bitsPerKey := none, collisionMap := none } v =
      some ((M.map fun e => List.replicate (e.2.count v) e.1).flatten) := by
  have hvlen : (allValuesOf M).length ≠ 0 := by
    have := List.length_pos_of_mem hv
    omega
  have hOB := mphOfBin_built (allValuesOf M) level vm cs mphDict hn29 hlevel hvlen hbm
  obtain ⟨hN, slot, hhash, hlt, hinj⟩ :=
    built_mph_facts (allValuesOf M) level vm cs mphDict hvlen hbm
  obtain ⟨hinvlen, hinvget⟩ :=
    invertedIndexOf_spec (MPH.ofDict mphDict).n
      (mode0KeyToHashes (MPH.ofDict mphDict) M)
  unfold queryAll
  rw [if_neg (by simp [mode1Active])]
  dsimp only []
  rw [hOB, hhash v hv]
  rw [if_neg (by
    rw [not_lt]
    exact Int.ofNat_nonneg (slot v))]
  rw [Int.toNat_ofNat]
  rw [hinvlen, if_neg (by
    rw [not_le, hN]
    exact hlt v hv)]
  rw [hinvget (slot v) (by rw [hN]; exact hlt v hv)]
  have hkth : mode0KeyToHashes (MPH.ofDict mphDict) M =
      M.map (fun e => sortAsc (((e.2.map (MPH.ofDict mphDict).hash).filter
        (fun h => 0 ≤ h)).map Int.toNat)) := rfl
  have hcounts : ((mode0KeyToHashes (MPH.ofDict mphDict) M).enum.map
      fun il => List.replicate (il.2.count (slot v)) il.1) =
      M.enum.map fun ie => List.replicate (ie.2.2.count v) ie.1 := by
    rw [hkth, List.enum_map, List.map_map]
    apply List.map_congr_left
    intro ie hie
    dsimp only [Function.comp, Prod.map]
    have he : ie.2 ∈ M := by
      have h2 := (enum_pair_spec M ie hie).2 ie.2
      have h1 := (enum_pair_spec M ie hie).1
      rw [List.getD_eq_getElem?_getD, List.getElem?_eq_getElem (by omega)] at h2
      rw [← h2]
      exact List.getElem_mem _
    rw [mode0_count_transport M (MPH.ofDict mphDict) slot hhash hinj v hv ie.2 he]
    rfl
  rw [hcounts]
  have hne0 : ¬ ((M.enum.map fun ie =>
      List.replicate (ie.2.2.count v) ie.1).flatten).length = 0 := by
    intro h0
    rw [List.length_eq_zero] at h0
    rw [List.join_eq_nil_iff] at h0
    obtain ⟨e, heM, hve⟩ := (mem_allValuesOf M v).mp hv
    obtain ⟨i, hi, hei⟩ := List.mem_iff_getElem.mp heM
    have hmemenum : ((i, e) : Nat × (Str × List Str)) ∈ M.enum := by
      rw [List.mem_iff_getElem]
      refine ⟨i, by simpa using hi, ?_⟩
      rw [List.getElem_enum]
      rw [hei]
    have hblock := h0 (List.replicate (e.2.count v) i)
      (List.mem_map_of_mem _ hmemenum)
    have hcount : 0 < e.2.count v := List.count_pos_iff_mem.mpr hve
    rw [List.eq_nil_iff_forall_not_mem] at hblock
    exact hblock i (by
      rw [List.mem_replicate]
      omega)
  rw [if_neg hne0]
  congr 1
  rw [List.map_flatten, List.map_map]
  have hfinal : (M.enum.map ((List.map fun i => (M.map Prod.fst).getD i []) ∘
      fun ie => List.replicate (ie.2.2.count v) ie.1)) =
      M.enum.map fun ie => List.replicate (ie.2.2.count v) ie.2.1 := by
    apply List.map_congr_left
    intro ie hie
    dsimp only [Function.comp]
    rw [List.map_replicate]
    congr 1
    have h1 := (enum_pair_spec M ie hie).1
    have h2 := List.mem_enum_iff_getElem?.mp hie
    rw [List.getD_eq_getElem?_getD, List.getElem?_map, h2]
    rfl
  rw [hfinal]
  have hdrop : (M.enum.map fun ie => List.replicate (ie.2.2.count v) ie.2.1) =
      M.map fun e => List.replicate (e.2.count v) e.1 := by
    have h1 : (M.enum.map fun ie => List.replicate (ie.2.2.count v) ie.2.1) =
        (M.enum.map Prod.snd).map fun e => List.replicate (e.2.count v) e.1 := by
      rw [List.map_map]
      rfl
    rw [h1, List.enum_map_snd]
  rw [hdrop]

/-! ## Mode 1: the bit-packed direct map (C8) -/

theorem eight_heads {α : Type} (l : List α) (h : 8 ≤ l.length) :
    ∃ b0 b1 b2 b3 b4 b5 b6 b7 rest,
      l = b0 :: b1 :: b2 :: b3 :: b4 :: b5 :: b6 :: b7 :: rest := by
  rcases l with _ | ⟨b0, _ | ⟨b1, _ | ⟨b2, _ | ⟨b3, _ | ⟨b4, _ | ⟨b5, _ | ⟨b6,
    _ | ⟨b7, rest⟩⟩⟩⟩⟩⟩⟩⟩
  · simp at h
  · simp at h
  · simp at h
  · simp at h
  · simp at h
  · simp at h
  · simp at h
  · simp at h
  · exact ⟨b0, b1, b2, b3, b4, b5, b6, b7, rest, rfl⟩

theorem short_tail {α : Type} (l : List α)
    (h2 : ∀ (b0 b1 b2 b3 b4 b5 b6 b7 : α) (rest : List α),
      l = b0 :: b1 :: b2 :: b3 :: b4 :: b5 :: b6 :: b7 :: rest → False) :
    l.length ≤ 7 := by
  by_contra hlen
  obtain ⟨b0, b1, b2, b3, b4, b5, b6, b7, rest, heq⟩ := eight_heads l (by omega)
  exact h2 b0 b1 b2 b3 b4 b5 b6 b7 rest heq

theorem byteOfBits_bit : ∀ (bs : List Bool) (r : Nat),
    (byteOfBits bs >>> r) &&& 1 = (if bs.getD r false then 1 else 0) := by
  intro bs
  induction bs with
  | nil =>
    intro r
    rw [show byteOfBits [] = 0 from rfl, Nat.zero_shiftRight]
    rfl
  | cons b t ih =>
    intro r
    have hstep : byteOfBits (b :: t) = (if b then 1 else 0) + 2 * byteOfBits t := rfl
    cases r with
    | zero =>
      rw [hstep, Nat.shiftRight_zero, Nat.and_one_is_mod]
      cases b
      · rw [if_neg (by simp)]
        rw [show (List.getD (false :: t) 0 false) = false from rfl, if_neg (by simp)]
        omega
      · rw [if_pos rfl]
        rw [show (List.getD (true :: t) 0 false) = true from rfl, if_pos rfl]
        omega
    | succ r2 =>
      have hdiv : byteOfBits (b :: t) >>> (r2 + 1) = byteOfBits t >>> r2 := by
        rw [show byteOfBits (b :: t) >>> (r2 + 1) =
          (byteOfBits (b :: t) >>> 1) >>> r2 from by
            rw [← Nat.shiftRight_add]
            rw [Nat.add_comm]]
        congr 1
        rw [show byteOfBits (b :: t) >>> 1 = byteOfBits (b :: t) / 2 from rfl, hstep]
        cases b
        · rw [if_neg (by simp)]
          omega
        · rw [if_pos rfl]
          omega
      rw [hdiv, ih r2]
      rfl

theorem packBitsBytes_length : ∀ L : List Bool,
    (packBitsBytes L).length = (L.length + 7) / 8 := by
  intro L
  induction L using packBitsBytes.induct with
  | case1 => rfl
  | case2 b0 b1 b2 b3 b4 b5 b6 b7 rest ih =>
    rw [packBitsBytes, List.length_cons, ih]
    simp only [List.length_cons]
    omega
  | case3 bits h1 h2 =>
    have hlen7 := short_tail bits h2
    have hlen1 : 1 ≤ bits.length := by
      rcases bits with _ | ⟨a, t⟩
      · exact absurd rfl h1
      · simp
    rw [packBitsBytes.eq_def]
    split
    · exact absurd rfl h1
    · rename_i b0 b1 b2 b3 b4 b5 b6 b7 rest
      exact absurd rfl (h2 b0 b1 b2 b3 b4 b5 b6 b7 rest)
    · rw [List.length_singleton]
      omega

theorem packBitsBytes_bit : ∀ (L : List Bool) (p : Nat),
    ((packBitsBytes L).getD (p / 8) 0 >>> (p % 8)) &&& 1 =
      (if L.getD p false then 1 else 0) := by
  intro L
  induction L using packBitsBytes.induct with
  | case1 =>
    intro p
    rw [show (packBitsBytes []).getD (p / 8) 0 = 0 from rfl, Nat.zero_shiftRight]
    rfl
  | case2 b0 b1 b2 b3 b4 b5 b6 b7 rest ih =>
    intro p
    rw [packBitsBytes]
    by_cases hp : p < 8
    · have hp8 : p / 8 = 0 := by omega
      rw [hp8, List.getD_cons_zero]
      have hpm : p % 8 = p := by omega
      rw [hpm, byteOfBits_bit]
      congr 1
      interval_cases p <;> rfl
    · obtain ⟨k, rfl⟩ : ∃ k, p = k + 8 := ⟨p - 8, by omega⟩
      have hd : (k + 8) / 8 = k / 8 + 1 := by omega
      have hm : (k + 8) % 8 = k % 8 := by omega
      rw [hd, hm, List.getD_cons_succ, ih k]
      rfl
  | case3 bits h1 h2 =>
    intro p
    have hlen7 := short_tail bits h2
    have hpack : packBitsBytes bits = [byteOfBits bits] := by
      rw [packBitsBytes.eq_def]
      split
      · exact absurd rfl h1
      · rename_i b0 b1 b2 b3 b4 b5 b6 b7 rest
        exact absurd rfl (h2 b0 b1 b2 b3 b4 b5 b6 b7 rest)
      · rfl
    rw [hpack]
    by_cases hp : p < 8
    · have hp8 : p / 8 = 0 := by omega
      have hpm : p % 8 = p := by omega
      rw [hp8, hpm, List.getD_cons_zero, byteOfBits_bit]
    · have hp8 : 1 ≤ p / 8 := by omega
      have hout : (([byteOfBits bits] : List Nat)).getD (p / 8) 0 = 0 := by
        rw [List.getD_eq_getElem?_getD, List.getElem?_eq_none (by
          rw [List.length_singleton]
          omega)]
        rfl
      rw [hout, Nat.zero_shiftRight]
      have hget : bits.getD p false = false := by
        rw [List.getD_eq_getElem?_getD, List.getElem?_eq_none (by omega)]
        rfl
      rw [hget]
      rfl

theorem getD_append_right2 {α : Type} (l r : List α) (d : α) (k : Nat) :
    (l ++ r).getD (l.length + k) d = r.getD k d := by
  rw [List.getD_eq_getElem?_getD, List.getD_eq_getElem?_getD,
    List.getElem?_append_right (by omega),
    show l.length + k - l.length = k from by omega]

theorem flatten_getD_uniform {w : Nat} :
    ∀ (blocks : List (List Bool)) (j i : Nat),
      (∀ b ∈ blocks, b.length = w) → i < w → j < blocks.length →
      blocks.flatten.getD (j * w + i) false = (blocks.getD j []).getD i false := by
  intro blocks
  induction blocks with
  | nil =>
    intro j i hu hi hj
    simp at hj
  | cons b0 rest ih =>
    intro j i hu hi hj
    rw [show (b0 :: rest).flatten = b0 ++ rest.flatten from rfl]
    cases j with
    | zero =>
      rw [Nat.zero_mul, Nat.zero_add, List.getD_cons_zero]
      exact List.getD_append b0 rest.flatten false i
        (by rw [hu b0 (List.mem_cons_self b0 rest)]; exact hi)
    | succ j2 =>
      have harith : (j2 + 1) * w + i = b0.length + (j2 * w + i) := by
        rw [hu b0 (List.mem_cons_self b0 rest)]
        ring
      rw [harith, getD_append_right2, List.getD_cons_succ]
      exact ih j2 i (fun b hb => hu b (List.mem_cons_of_mem b0 hb)) hi
        (by simpa using hj)

theorem bits_sum : ∀ (len x : Nat),
    ((List.range len).map fun i => ((x >>> i) &&& 1) <<< i).sum = x % 2 ^ len := by
  intro len
  induction len with
  | zero =>
    intro x
    rw [Nat.pow_zero, Nat.mod_one]
    rfl
  | succ k ih =>
    intro x
    rw [List.range_succ, List.map_append, List.sum_append, ih]
    rw [show ([k].map fun i => ((x >>> i) &&& 1) <<< i).sum =
      ((x >>> k) &&& 1) <<< k from by simp]
    rw [Nat.and_one_is_mod, Nat.shiftRight_eq_div_pow, Nat.shiftLeft_eq,
      Nat.mod_pow_succ]
    ring

theorem natBits_length (value bits : Nat) : (natBits value bits).length = bits := by
  unfold natBits
  rw [List.length_map, List.length_range]

theorem natBits_getD (value bits i : Nat) (hi : i < bits) :
    (natBits value bits).getD i false = ((value >>> i) &&& 1 == 1) := by
  unfold natBits
  rw [getD_map_of_lt _ _ _ 0 _ (by rw [List.length_range]; exact hi), getD_range hi]

theorem readBitsAt_group (blocks : List (List Bool)) (w j : Nat)
    (hu : ∀ b ∈ blocks, b.length = w) (hw : 0 < w) (hj : j < blocks.length)
    (val : Nat) (hval : blocks.getD j [] = natBits val w) :
    readBitsAt (packBitsBytes blocks.flatten) (j * w) w = val % 2 ^ w := by
  unfold readBitsAt
  rw [if_neg (by omega)]
  have hflen : blocks.flatten.length = blocks.length * w := by
    rw [List.length_flatten]
    have hmap : blocks.map List.length = blocks.map (fun _ => w) :=
      List.map_congr_left (fun b hb => hu b hb)
    rw [hmap, List.map_const', List.sum_replicate, smul_eq_mul, Nat.mul_comm]
  rw [if_pos (by
    rw [packBitsBytes_length, hflen]
    have h1 : j * w + w - 1 < blocks.length * w := by
      have h2 : (j + 1) * w ≤ blocks.length * w := Nat.mul_le_mul_right w (by omega)
      have h3 : (j + 1) * w = j * w + w := by ring
      omega
    omega)]
  have hterm : ∀ i, i < w →
      (((packBitsBytes blocks.flatten).getD ((j * w + i) / 8) 0 >>>
        ((j * w + i) % 8)) &&& 1) = (val >>> i) &&& 1 := by
    intro i hi
    rw [packBitsBytes_bit, flatten_getD_uniform blocks j i hu hi hj, hval,
      natBits_getD val w i hi]
    by_cases hb : (val >>> i) &&& 1 = 1
    · rw [if_pos (by simp [hb]), hb]
    · have h0 : (val >>> i) &&& 1 = 0 := by
        have := Nat.and_one_is_mod (val >>> i)
        omega
      rw [if_neg (by simp [h0]), h0]
  have hmap2 : ((List.range w).map fun i =>
      (((packBitsBytes blocks.flatten).getD ((j * w + i) / 8) 0 >>>
        ((j * w + i) % 8)) &&& 1) <<< i) =
      (List.range w).map fun i => ((val >>> i) &&& 1) <<< i := by
    apply List.map_congr_left
    intro i hi
    rw [hterm i (List.mem_range.mp hi)]
  rw [hmap2, bits_sum]

theorem readBits_mode1Packed (vmap : List Int) (bits j : Nat)
    (hj : j < vmap.length) (hw : 0 < bits) :
    readBitsAt (mode1Packed vmap bits) (j * bits) bits =
      (if 0 ≤ vmap.getD j 0 then (vmap.getD j 0).toNat else 0) % 2 ^ bits := by
  have h := readBitsAt_group
    (vmap.map fun kv => natBits (if 0 ≤ kv then kv.toNat else 0) bits) bits j
    (by
      intro b hb
      obtain ⟨kv, hkv, rfl⟩ := List.mem_map.mp hb
      exact natBits_length _ _)
    hw (by rw [List.length_map]; exact hj)
    (if 0 ≤ vmap.getD j 0 then (vmap.getD j 0).toNat else 0)
    (getD_map_of_lt _ _ _ 0 _ hj)
  unfold mode1Packed
  exact h

/-! ## Fold congruence and set-fold extraction (C8, Mode 1) -/

theorem foldl_congr_mem {α β : Type} (l : List α) (F G : β → α → β)
    (h : ∀ e ∈ l, ∀ acc, F acc e = G acc e) :
    ∀ init : β, l.foldl F init = l.foldl G init := by
  induction l with
  | nil =>
    intro init
    rfl
  | cons a t ih =>
    intro init
    rw [List.foldl_cons, List.foldl_cons, h a (List.mem_cons_self a t) init,
      ih (fun e he acc => h e (List.mem_cons_of_mem a he) acc)]

theorem mode1Map_eq_setFold (mph : MPH) (K : Nat) (V : List Str) (kf : Str → List Nat)
    (slot : Str → Nat) (hhash : ∀ x ∈ V, mph.hash x = ((slot x : Nat) : Int)) :
    mode1Map mph K (V.map fun u => (u, kf u)) =
      (V.map fun u => (u, kf u)).foldl
        (fun acc e => acc.set (slot e.1)
          (if e.2.length = 1 then ((e.2.getD 0 0 : Nat) : Int) else (K : Int)))
        (List.replicate mph.n (-1)) := by
  unfold mode1Map
  apply foldl_congr_mem
  intro e he acc
  obtain ⟨u, hu, rfl⟩ := List.mem_map.mp he
  dsimp only []
  rw [hhash u hu]
  rw [if_pos (Int.ofNat_nonneg (slot u)), Int.toNat_ofNat]
  by_cases h1 : (kf u).length = 1
  · rw [if_pos h1, if_pos h1]
  · rw [if_neg h1, if_neg h1]

theorem m1Fold_length (slot : Str → Nat) (K : Nat) :
    ∀ (l : List (Str × List Nat)) (acc : List Int),
      (l.foldl (fun acc e => acc.set (slot e.1)
        (if e.2.length = 1 then ((e.2.getD 0 0 : Nat) : Int) else (K : Int)))
        acc).length = acc.length := by
  intro l
  induction l with
  | nil =>
    intro acc
    rfl
  | cons a rest ih =>
    intro acc
    rw [List.foldl_cons, ih]
    rw [List.length_set]

theorem m1Fold_getD_other (slot : Str → Nat) (K : Nat) (t : Nat) :
    ∀ (l : List (Str × List Nat)) (acc : List Int),
      (∀ e ∈ l, slot e.1 ≠ t) →
      (l.foldl (fun acc e => acc.set (slot e.1)
        (if e.2.length = 1 then ((e.2.getD 0 0 : Nat) : Int) else (K : Int)))
        acc).getD t 0 = acc.getD t 0 := by
  intro l
  induction l with
  | nil =>
    intro acc _
    rfl
  | cons a rest ih =>
    intro acc h
    rw [List.foldl_cons, ih _ (fun e he => h e (List.mem_cons_of_mem a he))]
    rw [getD_set_ne2 _ _ _ (h a (List.mem_cons_self a rest))]

theorem mode1Map_length (mph : MPH) (K : Nat) (vks : List (Str × List Nat)) :
    (mode1Map mph K vks).length = mph.n := by
  have hgen : ∀ (l : List (Str × List Nat)) (acc : List Int),
      (l.foldl (fun acc e =>
        if 0 ≤ mph.hash e.1 then
          if e.2.length = 1 then
            acc.set (mph.hash e.1).toNat ((e.2.getD 0 0 : Nat) : Int)
          else acc.set (mph.hash e.1).toNat (K : Int)
        else acc) acc).length = acc.length := by
    intro l
    induction l with
    | nil =>
      intro acc
      rfl
    | cons a rest ih =>
      intro acc
      rw [List.foldl_cons, ih]
      by_cases h0 : (0 : Int) ≤ mph.hash a.1
      · by_cases h1 : a.2.length = 1
        · rw [if_pos h0, if_pos h1, List.length_set]
        · rw [if_pos h0, if_neg h1, List.length_set]
      · rw [if_neg h0]
  show (vks.foldl (fun acc e =>
      if 0 ≤ mph.hash e.1 then
        if e.2.length = 1 then
          acc.set (mph.hash e.1).toNat ((e.2.getD 0 0 : Nat) : Int)
        else acc.set (mph.hash e.1).toNat (K : Int)
      else acc) (List.replicate mph.n (-1))).length = mph.n
  rw [hgen, List.length_replicate]

theorem mode1Map_getD (M : List (Str × List Str)) (mph : MPH) (slot : Str → Nat)
    (hhash : ∀ x ∈ allValuesOf M, mph.hash x = ((slot x : Nat) : Int))
    (hinj : ∀ x ∈ allValuesOf M, ∀ y ∈ allValuesOf M, x ≠ y → slot x ≠ slot y)
    (hlt : ∀ x ∈ allValuesOf M, slot x < mph.n)
    (K : Nat) (v : Str) (hv : v ∈ allValuesOf M) :
    (mode1Map mph K (valueToKeysOf M)).getD (slot v) 0 =
      (if ((M.enum.map fun ie =>
            List.replicate (ie.2.2.count v) ie.1).flatten).length = 1
       then ((((M.enum.map fun ie =>
            List.replicate (ie.2.2.count v) ie.1).flatten).getD 0 0 : Nat) : Int)
       else (K : Int)) := by
  obtain ⟨A, B, hAB⟩ := List.append_of_mem hv
  have hns : (allValuesOf M).Nodup := dedupFirst_nodup _
  rw [hAB] at hns
  have hvB : v ∉ B := (List.nodup_cons.mp (List.nodup_append.mp hns).2.1).1
  rw [valueToKeysOf_spec M,
    mode1Map_eq_setFold mph K (allValuesOf M)
      (fun u => (M.enum.map fun ie => List.replicate (ie.2.2.count u) ie.1).flatten)
      slot hhash,
    hAB, List.map_append, List.map_cons, List.foldl_append, List.foldl_cons]
  rw [m1Fold_getD_other slot K (slot v) _ _ (by
    intro e he
    obtain ⟨u, hu, rfl⟩ := List.mem_map.mp he
    show slot u ≠ slot v
    exact hinj u (by
        rw [hAB]
        exact List.mem_append_right A (List.mem_cons_of_mem v hu))
      v hv (fun hne => hvB (hne ▸ hu)))]
  dsimp only []
  rw [getD_set_self2 _ _ _ _ (by
    rw [m1Fold_length, List.length_replicate]
    exact hlt v hv)]

/-! ## The Mode 1 collision map (C8) -/

theorem cmGet_cons (x : Nat × List Nat) (rest : List (Nat × List Nat)) (t : Nat) :
    cmGet (x :: rest) t = if x.1 = t then some x.2 else cmGet rest t := by
  unfold cmGet
  by_cases hx : x.1 = t
  · rw [List.find?_cons_of_pos _ (by simpa using hx), if_pos hx]
    rfl
  · rw [List.find?_cons_of_neg _ (by simpa using hx), if_neg hx]

theorem cmGet_eq_none_of_not_any (t : Nat) :
    ∀ acc : List (Nat × List Nat), acc.any (fun e => e.1 == t) = false →
      cmGet acc t = none := by
  intro acc
  induction acc with
  | nil =>
    intro _
    rfl
  | cons a rest ih =>
    intro h
    rw [List.any_cons, Bool.or_eq_false_iff] at h
    rw [cmGet_cons, if_neg (by simpa using h.1)]
    exact ih h.2

theorem cmGet_append_of_none (t : Nat) :
    ∀ (l1 l2 : List (Nat × List Nat)), cmGet l1 t = none →
      cmGet (l1 ++ l2) t = cmGet l2 t := by
  intro l1
  induction l1 with
  | nil =>
    intro l2 _
    rfl
  | cons a rest ih =>
    intro l2 h
    rw [cmGet_cons] at h
    by_cases hat : a.1 = t
    · rw [if_pos hat] at h
      cases h
    · rw [if_neg hat] at h
      rw [List.cons_append, cmGet_cons, if_neg hat]
      exact ih l2 h

theorem cmGet_append_ne (t h2 : Nat) (ks : List Nat) (hne : t ≠ h2) :
    ∀ l : List (Nat × List Nat), cmGet (l ++ [(h2, ks)]) t = cmGet l t := by
  intro l
  induction l with
  | nil =>
    rw [List.nil_append, cmGet_cons,
      if_neg (show ¬((h2, ks) : Nat × List Nat).1 = t from fun hc => hne hc.symm)]
  | cons a rest ih =>
    rw [List.cons_append, cmGet_cons, cmGet_cons]
    by_cases hat : a.1 = t
    · rw [if_pos hat, if_pos hat]
    · rw [if_neg hat, if_neg hat]
      exact ih

theorem cmGet_map_upd_eq (h : Nat) (ks : List Nat) :
    ∀ acc : List (Nat × List Nat), acc.any (fun e => e.1 == h) = true →
      cmGet (acc.map fun e => if e.1 == h then (h, ks) else e) h = some ks := by
  intro acc
  induction acc with
  | nil =>
    intro hany
    simp at hany
  | cons a rest ih =>
    intro hany
    rw [List.map_cons]
    by_cases hah : a.1 = h
    · rw [if_pos (show (a.1 == h) = true from by simpa using hah), cmGet_cons,
        if_pos (show ((h, ks) : Nat × List Nat).1 = h from rfl)]
    · rw [if_neg (show ¬(a.1 == h) = true from by simpa using hah), cmGet_cons,
        if_neg hah]
      apply ih
      rw [List.any_cons] at hany
      simpa [hah] using hany

theorem cmGet_map_upd_ne (h t : Nat) (ks : List Nat) (hne : t ≠ h) :
    ∀ acc : List (Nat × List Nat),
      cmGet (acc.map fun e => if e.1 == h then (h, ks) else e) t = cmGet acc t := by
  intro acc
  induction acc with
  | nil => rfl
  | cons a rest ih =>
    rw [List.map_cons]
    by_cases hah : a.1 = h
    · rw [if_pos (show (a.1 == h) = true from by simpa using hah), cmGet_cons,
        cmGet_cons,
        if_neg (show ¬((h, ks) : Nat × List Nat).1 = t from fun hc => hne hc.symm),
        if_neg (show ¬a.1 = t from by rw [hah]; exact fun hc => hne hc.symm)]
      exact ih
    · rw [if_neg (show ¬(a.1 == h) = true from by simpa using hah), cmGet_cons,
        cmGet_cons]
      by_cases hat : a.1 = t
      · rw [if_pos hat, if_pos hat]
      · rw [if_neg hat, if_neg hat]
        exact ih

theorem cmSet_get (acc : List (Nat × List Nat)) (h : Nat) (ks : List Nat) (t : Nat) :
    cmGet (cmSet acc h ks) t = if t = h then some ks else cmGet acc t := by
  unfold cmSet
  by_cases hany : acc.any (fun e => e.1 == h) = true
  · rw [if_pos hany]
    by_cases ht : t = h
    · subst ht
      rw [if_pos rfl]
      exact cmGet_map_upd_eq t ks acc hany
    · rw [if_neg ht]
      exact cmGet_map_upd_ne h t ks ht acc
  · rw [if_neg hany]
    have hfalse : acc.any (fun e => e.1 == h) = false := by
      rw [Bool.eq_false_iff]
      exact hany
    by_cases ht : t = h
    · subst ht
      rw [if_pos rfl, cmGet_append_of_none t acc [(t, ks)]
        (cmGet_eq_none_of_not_any t acc hfalse), cmGet_cons,
        if_pos (show ((t, ks) : Nat × List Nat).1 = t from rfl)]
    · rw [if_neg ht]
      exact cmGet_append_ne t h ks ht acc

theorem mode1Collisions_eq_cmFold (mph : MPH) (V : List Str) (kf : Str → List Nat)
    (slot : Str → Nat) (hhash : ∀ x ∈ V, mph.hash x = ((slot x : Nat) : Int)) :
    mode1Collisions mph (V.map fun u => (u, kf u)) =
      (V.map fun u => (u, kf u)).foldl
        (fun acc e => if e.2.length = 1 then acc else cmSet acc (slot e.1) e.2)
        [] := by
  unfold mode1Collisions
  apply foldl_congr_mem
  intro e he acc
  obtain ⟨u, hu, rfl⟩ := List.mem_map.mp he
  dsimp only []
  rw [hhash u hu]
  by_cases h1 : (kf u).length = 1
  · rw [if_neg (by simp [h1]), if_pos h1]
  · rw [if_pos ⟨Int.ofNat_nonneg (slot u), h1⟩, if_neg h1, Int.toNat_ofNat]

theorem cmFold_getD_other (slot : Str → Nat) (t : Nat) :
    ∀ (l : List (Str × List Nat)) (acc : List (Nat × List Nat)),
      (∀ e ∈ l, slot e.1 ≠ t) →
      cmGet (l.foldl (fun acc e =>
        if e.2.length = 1 then acc else cmSet acc (slot e.1) e.2) acc) t =
        cmGet acc t := by
  intro l
  induction l with
  | nil =>
    intro acc _
    rfl
  | cons a rest ih =>
    intro acc h
    rw [List.foldl_cons, ih _ (fun e he => h e (List.mem_cons_of_mem a he))]
    by_cases h1 : a.2.length = 1
    · rw [if_pos h1]
    · rw [if_neg h1, cmSet_get,
        if_neg (fun hc => (h a (List.mem_cons_self a rest)) hc.symm)]

theorem mode1Collisions_get (M : List (Str × List Str)) (mph : MPH)
    (slot : Str → Nat)
    (hhash : ∀ x ∈ allValuesOf M, mph.hash x = ((slot x : Nat) : Int))
    (hinj : ∀ x ∈ allValuesOf M, ∀ y ∈ allValuesOf M, x ≠ y → slot x ≠ slot y)
    (v : Str) (hv : v ∈ allValuesOf M)
    (hlen : ¬((M.enum.map fun ie =>
      List.replicate (ie.2.2.count v) ie.1).flatten).length = 1) :
    cmGet (mode1Collisions mph (valueToKeysOf M)) (slot v) =
      some ((M.enum.map fun ie => List.replicate (ie.2.2.count v) ie.1).flatten) := by
  obtain ⟨A, B, hAB⟩ := List.append_of_mem hv
  have hns : (allValuesOf M).Nodup := dedupFirst_nodup _
  rw [hAB] at hns
  have hvB : v ∉ B := (List.nodup_cons.mp (List.nodup_append.mp hns).2.1).1
  rw [valueToKeysOf_spec M,
    mode1Collisions_eq_cmFold mph (allValuesOf M)
      (fun u => (M.enum.map fun ie => List.replicate (ie.2.2.count u) ie.1).flatten)
      slot hhash,
    hAB, List.map_append, List.map_cons, List.foldl_append, List.foldl_cons]
  rw [cmFold_getD_other slot (slot v) _ _ (by
    intro e he
    obtain ⟨u, hu, rfl⟩ := List.mem_map.mp he
    show slot u ≠ slot v
    exact hinj u (by
        rw [hAB]
        exact List.mem_append_right A (List.mem_cons_of_mem v hu))
      v hv (fun hne => hvB (hne ▸ hu)))]
  dsimp only []
  rw [if_neg hlen, cmSet_get, if_pos rfl]

theorem cmGet_some_ne_nil {cm : List (Nat × List Nat)} {t : Nat} {x : List Nat}
    (h : cmGet cm t = some x) : 0 < cm.length := by
  cases cm with
  | nil => cases h
  | cons a r => simp

/-! ## Occurrence lists of a value (C8) -/

theorem ksOf_ne_nil (M : List (Str × List Str)) (v : Str) (hv : v ∈ allValuesOf M) :
    (M.enum.map fun ie => List.replicate (ie.2.2.count v) ie.1).flatten ≠ [] := by
  intro h0
  rw [List.flatten_eq_nil_iff] at h0
  obtain ⟨e, heM, hve⟩ := (mem_allValuesOf M v).mp hv
  obtain ⟨i, hi, hei⟩ := List.mem_iff_getElem.mp heM
  have hmemenum : ((i, e) : Nat × (Str × List Str)) ∈ M.enum := by
    rw [List.mem_iff_getElem]
    refine ⟨i, by simpa using hi, ?_⟩
    rw [List.getElem_enum, hei]
  have hblock := h0 (List.replicate (e.2.count v) i)
    (List.mem_map_of_mem _ hmemenum)
  have hcount : 0 < e.2.count v := List.count_pos_iff.mpr hve
  rw [List.eq_nil_iff_forall_not_mem] at hblock
  exact hblock i (by
    rw [List.mem_replicate]
    omega)

theorem getD_zero_mem {l : List Nat} (h : l ≠ []) (d : Nat) : l.getD 0 d ∈ l := by
  cases l with
  | nil => exact absurd rfl h
  | cons a t =>
    rw [List.getD_cons_zero]
    exact List.mem_cons_self a t

theorem ksOf_mem_lt (M : List (Str × List Str)) (v : Str) (k : Nat)
    (hk : k ∈ (M.enum.map fun ie => List.replicate (ie.2.2.count v) ie.1).flatten) :
    k < M.length := by
  rw [List.mem_flatten] at hk
  obtain ⟨b, hb, hkb⟩ := hk
  obtain ⟨ie, hie, rfl⟩ := List.mem_map.mp hb
  rw [List.mem_replicate] at hkb
  obtain ⟨-, rfl⟩ := hkb
  exact (enum_pair_spec M ie hie).1

/-! ## The Mode 1 query path on a built dictionary (C8) -/

theorem mode1_query_spec (M : List (Str × List Str)) (level : ℚ) (vm : VMode)
    (cs : Nat → Nat) (mphDict : Dict)
    (hn29 : (allValuesOf M).length < 2 ^ 29) (hlevel : 1 ≤ level)
    (hbm : build (allValuesOf M) level vm cs = .ok mphDict)
    (v : Str) (hv : v ∈ allValuesOf M) (i : Nat)
    (hks : ∀ k ∈ (M.enum.map fun ie =>
      List.replicate (ie.2.2.count v) ie.1).flatten, k = i) :
    query
      { mmpHashDictBin := dictToCBOR mphDict, keys := M.map Prod.fst,
        keyToHashes := none,
        valueToKeyIndexes := some (mode1Packed
          (mode1Map (mphOfBin (dictToCBOR mphDict)) (M.map Prod.fst).length
            (valueToKeysOf M))
          (Nat.clog 2 ((M.map Prod.fst).length + 1))),
        bitsPerKey := some (Nat.clog 2 ((M.map Prod.fst).length + 1)),
        collisionMap := if 0 < (mode1Collisions (mphOfBin (dictToCBOR mphDict))
            (valueToKeysOf M)).length
          then some (mode1Collisions (mphOfBin (dictToCBOR mphDict))
            (valueToKeysOf M))
          else none } v = some ((M.getD i ([], [])).1) := by
  have hvlen : (allValuesOf M).length ≠ 0 := by
    have := List.length_pos_of_mem hv
    omega
  have hOB := mphOfBin_built (allValuesOf M) level vm cs mphDict hn29 hlevel hvlen hbm
  obtain ⟨hN, slot, hhash, hlt, hinj⟩ :=
    built_mph_facts (allValuesOf M) level vm cs mphDict hvlen hbm
  have hltn : ∀ x ∈ allValuesOf M, slot x < (MPH.ofDict mphDict).n := by
    intro x hx
    rw [hN]
    exact hlt x hx
  have hne : (M.enum.map fun ie =>
      List.replicate (ie.2.2.count v) ie.1).flatten ≠ [] := ksOf_ne_nil M v hv
  have hhead : ((M.enum.map fun ie =>
      List.replicate (ie.2.2.count v) ie.1).flatten).getD 0 0 = i :=
    hks _ (getD_zero_mem hne 0)
  have hilt : i < M.length := by
    rw [← hhead]
    exact ksOf_mem_lt M v _ (getD_zero_mem hne 0)
  have hbitpos : 0 < Nat.clog 2 (M.length + 1) := Nat.clog_pos (by omega) (by omega)
  have hpow : M.length < 2 ^ Nat.clog 2 (M.length + 1) := by
    have h1 := Nat.le_pow_clog (by omega : 1 < 2) (M.length + 1)
    omega
  have hact : mode1Active
      { mmpHashDictBin := dictToCBOR mphDict, keys := M.map Prod.fst,
        keyToHashes := none,
        valueToKeyIndexes := some (mode1Packed
          (mode1Map (mphOfBin (dictToCBOR mphDict)) (M.map Prod.fst).length
            (valueToKeysOf M))
          (Nat.clog 2 ((M.map Prod.fst).length + 1))),
        bitsPerKey := some (Nat.clog 2 ((M.map Prod.fst).length + 1)),
        collisionMap := if 0 < (mode1Collisions (mphOfBin (dictToCBOR mphDict))
            (valueToKeysOf M)).length
          then some (mode1Collisions (mphOfBin (dictToCBOR mphDict))
            (valueToKeysOf M))
          else none } = true := by
    rw [mode1Active_eq]
    dsimp only []
    rw [List.length_map]
    simp only [Option.isSome_some, Option.getD_some, Bool.true_and, bne_iff_ne, ne_eq]
    omega
  unfold query
  dsimp only []
  rw [if_pos hact]
  rw [hOB, hhash v hv]
  rw [if_neg (by
    push_neg
    constructor
    · exact Int.ofNat_nonneg (slot v)
    · rw [hN]
      exact_mod_cast hlt v hv)]
  simp only [Option.getD_some]
  rw [List.length_map, Int.toNat_ofNat]
  rw [readBits_mode1Packed _ _ (slot v) (by
      rw [mode1Map_length]
      exact hltn v hv)
    hbitpos]
  rw [mode1Map_getD M (MPH.ofDict mphDict) slot hhash hinj hltn M.length v hv]
  by_cases hl1 : ((M.enum.map fun ie =>
      List.replicate (ie.2.2.count v) ie.1).flatten).length = 1
  · rw [if_pos hl1, hhead, if_pos (Int.ofNat_nonneg i), Int.toNat_ofNat,
      Nat.mod_eq_of_lt (by omega)]
    rw [if_neg (by omega), if_neg (by omega)]
    rw [getD_map_of_lt Prod.fst M i ([], []) [] hilt]
  · rw [if_neg hl1, if_pos (Int.ofNat_nonneg M.length), Int.toNat_ofNat,
      Nat.mod_eq_of_lt hpow]
    rw [if_pos rfl]
    have hcm := mode1Collisions_get M (MPH.ofDict mphDict) slot hhash hinj v hv hl1
    rw [if_pos (cmGet_some_ne_nil hcm)]
    dsimp only []
    rw [hcm]
    dsimp only []
    rw [if_pos (by
      rw [List.length_pos]
      exact hne)]
    rw [hhead, getD_map_of_lt Prod.fst M i ([], []) [] hilt]

/-- C8: query/queryAll correctness of the two representations, as built by
`createMinMPLookupDict` (value universe below `2 ^ 29`, `level ≥ 1`).  In
Mode 1 (`keyToHashes` absent), `query v` returns the key at the unique
owning index `i` whenever every occurrence of `v` lies in `M[i]`.  In
Mode 0 (`keyToHashes` present), `queryAll v` returns the owning keys with
multiplicity: each key repeated as many times as `v` occurs in its value
list, in key order — so its length is the total occurrence count of `v`,
not the number of distinct owners. -/
theorem C8_lookup_modes (M : List (Str × List Str)) (level : ℚ) (vm : VMode)
    (cs : Nat → Nat) (d : LookupDict) (v : Str)
    (hn29 : (allValuesOf M).length < 2 ^ 29) (hlevel : 1 ≤ level)
    (hb : buildLookup M level vm cs = .ok d) (hv : v ∈ allValuesOf M) :
    (d.keyToHashes = none → ∀ i : Nat,
      (∀ k ∈ (M.enum.map fun ie =>
        List.replicate (ie.2.2.count v) ie.1).flatten, k = i) →
      query d v = some ((M.getD i ([], [])).1)) ∧
    (d.keyToHashes ≠ none →
      queryAll d v = some ((M.map fun e =>
        List.replicate (e.2.count v) e.1).flatten)) := by
  obtain ⟨mphDict, hbm, hd | hd⟩ := buildLookup_ok_inv hb
  · constructor
    · intro _ i hksi
      rw [hd]
      exact mode1_query_spec M level vm cs mphDict hn29 hlevel hbm v hv i hksi
    · intro hkth
      rw [hd] at hkth
      exact absurd rfl hkth
  · constructor
    · intro hkth
      rw [hd] at hkth
      simp at hkth
    · intro _
      rw [hd]
      exact mode0_queryAll_spec M level vm cs mphDict hn29 hlevel hbm v hv

/-- C8 counterexample: the single key "A" owning the value "v" twice
builds the Mode 0 representation, and `queryAll "v"` returns the owner
once per occurrence — a list of length 2 — although "v" has exactly one
owning key, so the returned length is not the number of owners. -/
theorem C8_counterexample :
    ∃ d : LookupDict,
      buildLookup [([65], [[118], [118]])] 5 VMode.v8 (fun _ => 0) = .ok d ∧
      d.keyToHashes ≠ none ∧
      queryAll d [118] = some [[65], [65]] ∧
      ([([65], [[118], [118]])].countP fun e => decide ([118] ∈ e.2)) = 1 ∧
      ([[65], [65]] : List Str).length ≠ 1 := by
  have hb : buildLookup [([65], [[118], [118]])] 5 VMode.v8 (fun _ => 0) = .ok
      { mmpHashDictBin := dictToCBOR ((build [[118]] 5 VMode.v8
          (fun _ => 0)).toOption.getD ⟨0, 0, 0, some 0, [], [], none, none, .vnone⟩),
        keys := [[65]],
        keyToHashes := some (mode0KeyToHashes (mphOfBin (dictToCBOR ((build [[118]] 5
          VMode.v8 (fun _ => 0)).toOption.getD ⟨0, 0, 0, some 0, [], [], none, none,
          .vnone⟩))) [([65], [[118], [118]])]),
        valueToKeyIndexes := none, bitsPerKey := none, collisionMap := none } := by
    unfold buildLookup
    dsimp only []
    rw [show build (allValuesOf [([65], [[118], [118]])]) 5 VMode.v8 (fun _ => 0) =
      .ok ((build [[118]] 5 VMode.v8 (fun _ => 0)).toOption.getD
        ⟨0, 0, 0, some 0, [], [], none, none, .vnone⟩) from by rfl, except_bind_ok2]
    rw [if_neg (show ¬(((List.countP (fun e => decide (1 < e.2.length))
        (valueToKeysOf [([65], [[118], [118]])]) : Nat) : ℚ) <
        (((allValuesOf [([65], [[118], [118]])]).length : Nat) : ℚ) * (1 / 10)) from by
      rw [show List.countP (fun e => decide (1 < e.2.length))
          (valueToKeysOf [([65], [[118], [118]])]) = 1 from by rfl,
        show (allValuesOf [([65], [[118], [118]])]).length = 1 from by rfl]
      norm_num)]
    rfl
  exact ⟨_, hb, fun hc => Option.noConfusion hc, by rfl, by decide, by decide⟩

/-- C8 witness: the key "A" owning the single value "v" builds the
Mode 1 representation; all hypotheses of the theorem are discharged at
that input and both conjuncts are instantiated. -/
theorem C8_lookup_modes_witness :
    let R : LookupDict :=
      { mmpHashDictBin := dictToCBOR ((build [[118]] 5 VMode.v8
          (fun _ => 0)).toOption.getD ⟨0, 0, 0, some 0, [], [], none, none, .vnone⟩),
        keys := [[65]],
        keyToHashes := none,
        valueToKeyIndexes := some (mode1Packed
          (mode1Map (mphOfBin (dictToCBOR ((build [[118]] 5 VMode.v8
              (fun _ => 0)).toOption.getD
              ⟨0, 0, 0, some 0, [], [], none, none, .vnone⟩))) 1
            (valueToKeysOf [([65], [[118]])]))
          (Nat.clog 2 2)),
        bitsPerKey := some (Nat.clog 2 2),
        collisionMap := none }
    ((allValuesOf [([65], [[118]])]).length < 2 ^ 29) ∧
    ((1 : ℚ) ≤ 5) ∧
    buildLookup [([65], [[118]])] 5 VMode.v8 (fun _ => 0) = .ok R ∧
    [118] ∈ allValuesOf [([65], [[118]])] ∧
    ((R.keyToHashes = none → ∀ i : Nat,
        (∀ k ∈ ([([65], [[118]])].enum.map fun ie =>
          List.replicate (ie.2.2.count [118]) ie.1).flatten, k = i) →
        query R [118] = some (([([65], [[118]])].getD i ([], [])).1)) ∧
      (R.keyToHashes ≠ none →
        queryAll R [118] = some (([([65], [[118]])].map fun e =>
          List.replicate (e.2.count [118]) e.1).flatten))) := by
  intro R
  have hb : buildLookup [([65], [[118]])] 5 VMode.v8 (fun _ => 0) = .ok R := by
    unfold buildLookup
    dsimp only []
    rw [show build (allValuesOf [([65], [[118]])]) 5 VMode.v8 (fun _ => 0) =
      .ok ((build [[118]] 5 VMode.v8 (fun _ => 0)).toOption.getD
        ⟨0, 0, 0, some 0, [], [], none, none, .vnone⟩) from by rfl, except_bind_ok2]
    rw [if_pos (show (((List.countP (fun e => decide (1 < e.2.length))
        (valueToKeysOf [([65], [[118]])]) : Nat) : ℚ) <
        (((allValuesOf [([65], [[118]])]).length : Nat) : ℚ) * (1 / 10)) from by
      rw [show List.countP (fun e => decide (1 < e.2.length))
          (valueToKeysOf [([65], [[118]])]) = 0 from by rfl,
        show (allValuesOf [([65], [[118]])]).length = 1 from by rfl]
      norm_num)]
    rfl
  exact ⟨by decide, by norm_num, hb, by decide,
    C8_lookup_modes [([65], [[118]])] 5 VMode.v8 (fun _ => 0) R [118]
      (by decide) (by norm_num) hb (by decide)⟩

end MMP
